import Mathlib

/-!
Verification development for the `sqlbuilder` statement-assembly engine.

The Go sources are shallowly embedded as pure Lean functions:

* `StatementPart` / `Stmt` mirror the `statementPart` / `statement` structs of
  `statement.go` (buffers become `List Char`, `interface{}` values become `Val`,
  the nullable cached sql buffer becomes `Option (List Char)`).
* `addPart` mirrors `statement_impl.go`'s `addPart`; its backward `loop:` is
  embedded as `scanRev`, a recursion over the reversed part list.
* `writePostgresql` mirrors `dialect.go`'s placeholder rewriting.
* `renderLoop` mirrors the `String()` render pass of `statement.go`.
* the public clause methods (`select`, `fromTable`, `whereCond`, `limit`, ...)
  mirror the corresponding `Statement` methods.

Byte offsets of the Go code become `Char` offsets; the two agree on every
span boundary because both sides use the same unit consistently.
-/

set_option linter.unusedVariables false

namespace SB

/-- Opaque parameter values (Go `interface{}` arguments). -/
inductive Val where
  | int : Int → Val
  | str : String → Val
  | obj : Nat → Val
  deriving Repr, DecidableEq

/-- Dialect of `dialect.go`: default generic markers, or PostgreSQL `$n` rewriting. -/
inductive Dialect where
  | defaultDialect
  | postgreSQL
  deriving Repr, DecidableEq

/-- Grammatical position constants of `statement_impl.go` (the `100 * iota` block). -/
def posStart : Int := 100

def posWith : Int := 200

def posInsert : Int := 300

def posInsertFields : Int := 400

def posValues : Int := 500

def posDelete : Int := 600

def posUpdate : Int := 700

def posSet : Int := 800

def posSelect : Int := 900

def posInto : Int := 1000

def posFrom : Int := 1100

def posWhere : Int := 1200

def posGroupBy : Int := 1300

def posHaving : Int := 1400

def posUnion : Int := 1500

def posOrderBy : Int := 1600

def posLimit : Int := 1700

def posOffset : Int := 1800

def posReturning : Int := 1900

def posEnd : Int := 2000

/-- `statementPart` of statement.go: a fragment descriptor. -/
structure StatementPart where
  position : Int
  bufLow : Nat
  bufHigh : Nat
  hasExpr : Bool
  argLen : Nat
  deriving Repr, DecidableEq

instance : Inhabited StatementPart :=
  ⟨{ position := 0, bufLow := 0, bufHigh := 0, hasExpr := false, argLen := 0 }⟩

/-- The `statement` struct of statement.go (its value-level content: the
fragment buffer, the ordered fragment list, the parameter list, the dest
list, the current position and the cached rendered sql). -/
structure Stmt where
  dialect : Dialect
  position : Int
  parts : List StatementPart
  buffer : List Char
  sql : Option (List Char)
  args : List Val
  dest : List Val
  deriving Repr, DecidableEq

/-- A fresh statement as produced by `getStmt` on a fresh pool entry. -/
def emptyStmt (d : Dialect) : Stmt :=
  { dialect := d, position := 0, parts := [], buffer := [], sql := none,
    args := [], dest := [] }

/-- util-functions.go `insertAt`: append `src` to `dest` and rotate it into place
at `index` (the append plus the two overlapping `copy` calls amount to a list
insertion; every caller passes `index ≤ dest.length`). -/
def insertAt (dest src : List Val) (index : Nat) : List Val :=
  dest.take index ++ src ++ dest.drop index

/-- Go `copy(args[i:], src)`: overwrite slots of `args` starting at `i` with the
first elements of `src`, bounded by both lengths, in place. -/
def copyAt (args src : List Val) (i : Nat) : List Val :=
  args.take i ++ src.take (args.length - i) ++ (args.drop i).drop src.length

/-- The slice `stmt.buffer.B[low:high]` read by the render pass. Statements
built through the API keep every span inside the buffer. A span that escapes
the buffer (which the `Clone` aliasing can produce) reads as truncated here;
the Go slice expression panics on it instead — either way the render output
is not the pre-mutation one. -/
def extract (buffer : List Char) (low high : Nat) : List Char :=
  (buffer.drop low).take (high - low)

/-- Result of addPart's backward scan (`loop:` label, statement_impl.go):
either the part sharing the target position was found (with its index and the
accumulated `argTail`), or the index at which a brand-new part belongs. -/
inductive ScanRes where
  | matched : StatementPart → Nat → Nat → ScanRes
  | fresh : Nat → Nat → ScanRes
  deriving Repr, DecidableEq

/-- The backward scan of `addPart` (statement_impl.go, the `loop:` for-loop),
expressed as a recursion over `parts.reverse`; when the reversed list is
`part :: rest`, the original index of `part` is `rest.length`. A part at the
target position stops the scan as a match; a part at a smaller position stops
it with insertion index one past that part; a part at a larger position adds
its `argLen` to `argTail` and the scan continues. Falling off the front
inserts at index 0 (the loop's `index = i` having reached 0). -/
def scanRev (pos : Int) : List StatementPart → Nat → ScanRes
  | [], argTail => .fresh 0 argTail
  | part :: rest, argTail =>
    if part.position = pos then .matched part rest.length argTail
    else if part.position < pos then .fresh (rest.length + 1) argTail
    else scanRev pos rest (argTail + part.argLen)

/-- statement_impl.go `addPart`. Returns the updated statement together with
the part index the Go function returns. The four outcomes:
value-only refresh (match, empty expr: overwrite arg slots in place and return
early, leaving parts, buffer and the sql cache untouched), merge (match, the
matched part's span ends at the buffer's write position), split (match, not
contiguous: new part right after the matched one, clause keyword suppressed),
and fresh insert (no match: write clause keyword and body, insert sorted).
All but the refresh splice the new arguments at `len(args) - argTail` and
invalidate the sql cache. -/
def addPart (stmt : Stmt) (pos : Int) (clause expr : String) (args : List Val)
    (sep : String) : Stmt × Nat :=
  let argLen := args.length
  let bufLow := stmt.buffer.length
  let stmt1 := { stmt with position := pos }
  match scanRev pos stmt1.parts.reverse 0 with
  | .matched part i argTail =>
    if expr = "" then
      (if argLen > 0 then
        { stmt1 with
            args := copyAt stmt1.args args (stmt1.args.length - argTail - part.argLen) }
       else stmt1, i)
    else
      let sepChars := if part.hasExpr then sep.data else " ".data
      if part.bufHigh = bufLow then
        let part' := { part with
          argLen := part.argLen + argLen
          bufHigh := bufLow + sepChars.length + expr.data.length
          hasExpr := true }
        ({ stmt1 with
            parts := stmt1.parts.set i part'
            buffer := stmt1.buffer ++ sepChars ++ expr.data
            args := insertAt stmt1.args args (stmt1.args.length - argTail)
            sql := none }, i)
      else
        let part' : StatementPart :=
          { position := pos, bufLow := bufLow
            bufHigh := bufLow + sepChars.length + expr.data.length
            hasExpr := true, argLen := argLen }
        ({ stmt1 with
            parts := stmt1.parts.take (i + 1) ++ [part'] ++ stmt1.parts.drop (i + 1)
            buffer := stmt1.buffer ++ sepChars ++ expr.data
            args := insertAt stmt1.args args (stmt1.args.length - argTail)
            sql := none }, i + 1)
  | .fresh idx argTail =>
    let written :=
      (if clause ≠ "" then clause.data ++ (if expr ≠ "" then " ".data else []) else [])
        ++ expr.data
    let part' : StatementPart :=
      { position := pos, bufLow := bufLow, bufHigh := bufLow + written.length
        hasExpr := expr ≠ "", argLen := argLen }
    ({ stmt1 with
        parts := stmt1.parts.take idx ++ [part'] ++ stmt1.parts.drop idx
        buffer := stmt1.buffer ++ written
        args := insertAt stmt1.args args (stmt1.args.length - argTail)
        sql := none }, idx)

/-- The decimal marker text `$n` emitted by `strconv.AppendInt` in
`writePostgresql`. -/
def dollarMark (n : Nat) : List Char := '$' :: (Nat.repr n).data

/-- dialect.go `writePostgresql`: copy `s`, rewriting each unescaped `?` into
`$argNo` (incrementing the counter), rewriting `\?` into a literal `?`
(consuming nothing), and passing every other character through — including a
lone `\` that is not followed by `?`. Returns the counter after the scan and
the produced text. -/
def writePostgresql : Nat → List Char → Nat × List Char
  | argNo, [] => (argNo, [])
  | argNo, '\\' :: '?' :: rest =>
    let r := writePostgresql argNo rest
    (r.1, '?' :: r.2)
  | argNo, '?' :: rest =>
    let r := writePostgresql (argNo + 1) rest
    (r.1, dollarMark argNo ++ r.2)
  | argNo, c :: rest =>
    let r := writePostgresql argNo rest
    (r.1, c :: r.2)

/-- Number of non-escaped `?` markers in a piece of text, counted exactly the
way `writePostgresql` advances its counter. -/
def countMarkers : List Char → Nat
  | [] => 0
  | '\\' :: '?' :: rest => countMarkers rest
  | '?' :: rest => countMarkers rest + 1
  | _ :: rest => countMarkers rest

/-- The render loop of `String()` (statement.go): walk the parts, emit one
space whenever the grammatical position strictly increases, and pass each
span owning arguments through `writePostgresql` when the PostgreSQL dialect
is active; the placeholder counter is threaded through the whole pass. -/
def renderLoop (d : Dialect) (buffer : List Char) :
    List StatementPart → Int → Nat → Bool → List Char
  | [], _, _, _ => []
  | part :: rest, pos, argNo, first =>
    let sp : List Char := if first = false ∧ part.position > pos then [' '] else []
    let s := extract buffer part.bufLow part.bufHigh
    let r : Nat × List Char :=
      if part.argLen > 0 ∧ d = Dialect.postgreSQL then writePostgresql argNo s
      else (argNo, s)
    sp ++ r.2 ++ renderLoop d buffer rest part.position r.1 false

/-- The text `String()` computes when no render cache exists
(`stmt.sql == nil`): the first part sees `pos = 0`, `argNo = 1`. -/
def renderString (stmt : Stmt) : List Char :=
  renderLoop stmt.dialect stmt.buffer stmt.parts 0 1 true

/-- The string `String()` returns: the cached text if a cache exists,
otherwise the freshly rendered text. -/
def stringOf (stmt : Stmt) : List Char :=
  stmt.sql.getD (renderString stmt)

/-- The caching side effect of `String()`: after a call, `stmt.sql` holds the
returned text. -/
def afterString (stmt : Stmt) : Stmt :=
  { stmt with sql := some (stringOf stmt) }

/-- `Invalidate()` of statement.go. -/
def Stmt.invalidate (stmt : Stmt) : Stmt :=
  { stmt with sql := none }

/-- `Select` (statement.go). -/
def Stmt.select (stmt : Stmt) (expr : String) (args : List Val) : Stmt :=
  (addPart stmt posSelect "SELECT" expr args ", ").1

/-- `Update` (statement.go). -/
def Stmt.update (stmt : Stmt) (tableName : String) : Stmt :=
  (addPart stmt posUpdate "UPDATE" tableName [] ", ").1

/-- `InsertInto` (statement.go): the table clause plus the three synthetic
bracket parts, then the current position is forced to the field list. -/
def Stmt.insertInto (stmt : Stmt) (tableName : String) : Stmt :=
  let s := (addPart stmt posInsert "INSERT INTO" tableName [] ", ").1
  let s := (addPart s (posInsertFields - 1) "(" "" [] "").1
  let s := (addPart s (posValues - 1) ") VALUES (" "" [] "").1
  let s := (addPart s (posValues + 1) ")" "" [] "").1
  { s with position := posInsertFields }

/-- `DeleteFrom` (statement.go). -/
def Stmt.deleteFrom (stmt : Stmt) (tableName : String) : Stmt :=
  (addPart stmt posDelete "DELETE FROM" tableName [] ", ").1

/-- `SetExpr` (statement.go): scan for the first INSERT or UPDATE part; add to
the field/value lists for INSERT, to the SET clause for UPDATE, and do nothing
at all when neither statement verb is present. -/
def Stmt.setExpr (stmt : Stmt) (field exprS : String) (args : List Val) : Stmt :=
  let p : Int :=
    match stmt.parts.find? (fun c =>
        c.position == posInsert || c.position == posUpdate) with
    | some c => c.position
    | none => 0
  if p == posInsert then
    let s1 := (addPart stmt posInsertFields "" field [] ", ").1
    (addPart s1 posValues "" exprS args ", ").1
  else if p == posUpdate then
    (addPart stmt posSet "SET" (field ++ "=" ++ exprS) args ", ").1
  else stmt

/-- `Set` (statement.go). -/
def Stmt.set (stmt : Stmt) (field : String) (value : Val) : Stmt :=
  stmt.setExpr field "?" [value]

/-- `From` (statement.go). -/
def Stmt.fromTable (stmt : Stmt) (expr : String) (args : List Val) : Stmt :=
  (addPart stmt posFrom "FROM" expr args ", ").1

/-- `Where` (statement.go). -/
def Stmt.whereCond (stmt : Stmt) (expr : String) (args : List Val) : Stmt :=
  (addPart stmt posWhere "WHERE" expr args " AND ").1

/-- The marker list `?,?,...,?` built by `In` (statement.go). -/
def inMarks : Nat → List Char
  | 0 => []
  | 1 => ['?']
  | n + 2 => '?' :: ',' :: inMarks (n + 1)

/-- `In` (statement.go): append `IN (?,...,?)` to the current filter. -/
def Stmt.inList (stmt : Stmt) (args : List Val) : Stmt :=
  (addPart stmt posWhere ""
    (String.mk ("IN (".data ++ inMarks args.length ++ ")".data)) args " ").1

/-- `OrderBy` (statement.go); the variadic arguments arrive pre-joined. -/
def Stmt.orderBy (stmt : Stmt) (expr : String) : Stmt :=
  (addPart stmt posOrderBy "ORDER BY" expr [] ", ").1

/-- `GroupBy` (statement.go). -/
def Stmt.groupBy (stmt : Stmt) (expr : String) : Stmt :=
  (addPart stmt posGroupBy "GROUP BY" expr [] ", ").1

/-- `Having` (statement.go). -/
def Stmt.having (stmt : Stmt) (expr : String) (args : List Val) : Stmt :=
  (addPart stmt posHaving "HAVING" expr args " AND ").1

/-- `Limit` (statement.go): the marker lives in the clause keyword and the
expression body is empty. -/
def Stmt.limit (stmt : Stmt) (v : Val) : Stmt :=
  (addPart stmt posLimit "LIMIT ?" "" [v] "").1

/-- `Offset` (statement.go). -/
def Stmt.offset (stmt : Stmt) (v : Val) : Stmt :=
  (addPart stmt posOffset "OFFSET ?" "" [v] "").1

/-- Two's-complement wrap-around of Go's 64-bit `int`: the value an `int`
expression actually holds. -/
def wrap64 (n : Int) : Int := (n + 2 ^ 63) % 2 ^ 64 - 2 ^ 63

/-- `Paginate` (statement.go): clamp both arguments to at least 1, add an
OFFSET clause only for pages past the first, and always add a LIMIT clause.
The offset `(page - 1) * pageSize` is computed in Go's `int`, so the product
wraps at 64 bits (the subtraction cannot wrap once `page ≥ 1`). -/
def Stmt.paginate (stmt : Stmt) (page pageSize : Int) : Stmt :=
  let page := if page < 1 then 1 else page
  let pageSize := if pageSize < 1 then 1 else pageSize
  let stmt := if page > 1 then
      stmt.offset (.int (wrap64 ((page - 1) * pageSize)))
    else stmt
  stmt.limit (.int pageSize)

/-- The `join` helper (statement_impl.go). -/
def Stmt.join (stmt : Stmt) (joinType table onCond : String) : Stmt :=
  (addPart stmt posFrom "" (joinType ++ table ++ " ON (" ++ onCond ++ ")") [] " ").1

/-- `Returning` (statement.go). -/
def Stmt.returning (stmt : Stmt) (expr : String) : Stmt :=
  (addPart stmt posReturning "RETURNING" expr [] ", ").1

/-- `Expr` (statement.go): append to the most recently used position. -/
def Stmt.expr (stmt : Stmt) (e : String) (args : List Val) : Stmt :=
  (addPart stmt stmt.position "" e args ", ").1

/-- `Clause` (statement.go): a raw fragment placed 10 past the last part's
position (or at the start when the statement is empty). -/
def Stmt.clause (stmt : Stmt) (exprS : String) (args : List Val) : Stmt :=
  let p : Int :=
    match stmt.parts.getLast? with
    | some last => last.position + 10
    | none => posStart
  (addPart stmt p exprS "" args ", ").1

/-- `SubQuery` (statement.go): add the prefix as a part at the current
position carrying the nested statement's arguments, force the nested
statement to the default dialect (invalidating its cache), then write its
rendered text and the suffix into the host buffer and stretch the new part's
span over them. -/
def Stmt.subQuery (stmt : Stmt) (pre suf : String) (query : Stmt) : Stmt :=
  let delim := if stmt.position = posWhere then " AND " else ", "
  let r := addPart stmt stmt.position "" pre query.args delim
  let stmt1 := r.1
  let index := r.2
  let query1 :=
    if query.dialect ≠ Dialect.defaultDialect then
      { query with dialect := Dialect.defaultDialect, sql := none }
    else query
  let buffer' := stmt1.buffer ++ stringOf query1 ++ suf.data
  let chunk := stmt1.parts.getD index default
  { stmt1 with
      buffer := buffer'
      parts := stmt1.parts.set index { chunk with bufHigh := buffer'.length } }

/-- `With` (statement.go). -/
def Stmt.withQuery (stmt : Stmt) (queryName : String) (query : Stmt) : Stmt :=
  ((addPart stmt posWith "WITH" "" [] "").1).subQuery (queryName ++ " AS (") ")" query

/-- `Union` (statement.go): the grammatical position is the UNION slot, pushed
to one past the last part when that part already sits at or past the slot. -/
def Stmt.union (stmt : Stmt) (all : Bool) (query : Stmt) : Stmt :=
  let p : Int :=
    match stmt.parts.getLast? with
    | some last => if last.position ≥ posUnion then last.position + 1 else posUnion
    | none => posUnion
  let r := addPart stmt p (if all then "UNION ALL " else "UNION ") "" query.args ""
  let stmt1 := r.1
  let index := r.2
  let query1 :=
    if query.dialect ≠ Dialect.defaultDialect then
      { query with dialect := Dialect.defaultDialect, sql := none }
    else query
  let buffer' := stmt1.buffer ++ stringOf query1
  let chunk := stmt1.parts.getD index default
  { stmt1 with
      buffer := buffer'
      parts := stmt1.parts.set index { chunk with bufHigh := buffer'.length } }

/-- `New` (statement.go): a fresh statement started with an arbitrary verb. -/
def newVerb (d : Dialect) (verb : String) (args : List Val) : Stmt :=
  (addPart (emptyStmt d) posSelect verb "" args ", ").1

/-! ### Basic lemmas about the dialect renderer -/

theorem notBS_drop1 (c : Char) (l : List Char)
    (h : (c :: l).getLast? ≠ some '\\') : l.getLast? ≠ some '\\' := by
  rcases l with _ | ⟨d, l'⟩
  · simp
  · rwa [List.getLast?_cons_cons] at h

theorem notBS_drop2 (c d : Char) (l : List Char)
    (h : (c :: d :: l).getLast? ≠ some '\\') : l.getLast? ≠ some '\\' :=
  notBS_drop1 d l (by rwa [List.getLast?_cons_cons] at h)

/-- The placeholder counter advances by exactly the number of non-escaped
markers in the scanned text. -/
theorem wp_fst (n : Nat) (s : List Char) :
    (writePostgresql n s).1 = n + countMarkers s := by
  induction n, s using writePostgresql.induct with
  | case1 n => simp [writePostgresql, countMarkers]
  | case2 n rest ih => simpa [writePostgresql, countMarkers] using ih
  | case3 n rest ih =>
    simp only [writePostgresql, countMarkers, ih]
    omega
  | case4 n c rest h1 h2 ih =>
    rw [writePostgresql.eq_4 n c rest h1 h2]
    rw [countMarkers.eq_4 c rest h1 h2]
    exact ih

/-- The rewriting of a concatenation splits at the boundary, threading the
counter, as long as the left half does not end in the escape character. -/
theorem wp_append (n : Nat) (a b : List Char) (h : a.getLast? ≠ some '\\') :
    writePostgresql n (a ++ b) =
      ((writePostgresql (writePostgresql n a).1 b).1,
        (writePostgresql n a).2 ++ (writePostgresql (writePostgresql n a).1 b).2) := by
  induction n, a using writePostgresql.induct with
  | case1 n => simp [writePostgresql]
  | case2 n rest ih =>
    have e1 : (('\\' :: '?' :: rest) ++ b) = '\\' :: '?' :: (rest ++ b) := rfl
    rw [e1, writePostgresql.eq_2, writePostgresql.eq_2,
      ih (notBS_drop2 _ _ _ h)]
    simp
  | case3 n rest ih =>
    have e1 : (('?' :: rest) ++ b) = '?' :: (rest ++ b) := rfl
    rw [e1, writePostgresql.eq_3, writePostgresql.eq_3,
      ih (notBS_drop1 _ _ h)]
    simp
  | case4 n c rest h1 h2 ih =>
    have e1 : ((c :: rest) ++ b) = c :: (rest ++ b) := rfl
    have h1' : ∀ r1 : List Char, c = '\\' → rest ++ b = '?' :: r1 → False := by
      intro r1 hc hr
      rcases rest with _ | ⟨d, rt⟩
      · subst hc
        simp at h
      · injection hr with hd htl
        exact h1 rt hc (by rw [hd])
    rw [e1, writePostgresql.eq_4 n c (rest ++ b) h1' h2,
      writePostgresql.eq_4 n c rest h1 h2, ih (notBS_drop1 _ _ h)]
    simp

/-- Marker counting splits over concatenation when the left half does not end
in the escape character. -/
theorem cm_append (a b : List Char) (h : a.getLast? ≠ some '\\') :
    countMarkers (a ++ b) = countMarkers a + countMarkers b := by
  have h1 := congrArg Prod.fst (wp_append 0 a b h)
  rw [wp_fst, wp_fst, wp_fst] at h1
  omega

theorem wp_lone_bs (m : Nat) : writePostgresql m ['\\'] = (m, ['\\']) := by
  rw [writePostgresql.eq_4 m '\\' [] (by intro r hc hr; cases hr) (by intro hc; cases hc)]
  rw [writePostgresql.eq_1]

/-! ### C7 — escape fidelity of the numbered-dialect rewrite -/

/-- C7: in any fragment text `a ++ \? ++ b` whose left part does not itself end
in the escape character, the numbered-dialect rewrite emits a single literal
`?` at the escape position, does not increment the placeholder counter (the
counter after the whole text equals the one for the text with the escaped
marker removed, so subsequent markers are numbered as if it were absent), and
attributes no parameter slot to it (`countMarkers` ignores it); a lone
trailing backslash is passed through as a literal backslash. -/
theorem escape_fidelity (n : Nat) (a b : List Char) (h : a.getLast? ≠ some '\\') :
    (writePostgresql n (a ++ '\\' :: '?' :: b)).2 =
        (writePostgresql n a).2 ++
          '?' :: (writePostgresql (writePostgresql n a).1 b).2 ∧
    (writePostgresql n (a ++ '\\' :: '?' :: b)).1 =
        (writePostgresql n (a ++ b)).1 ∧
    countMarkers (a ++ '\\' :: '?' :: b) = countMarkers (a ++ b) ∧
    (writePostgresql n (a ++ ['\\'])).2 = (writePostgresql n a).2 ++ ['\\'] ∧
    (writePostgresql n (a ++ ['\\'])).1 = (writePostgresql n a).1 := by
  have hesc := wp_append n a ('\\' :: '?' :: b) h
  have hplain := wp_append n a b h
  have hlone := wp_append n a ['\\'] h
  rw [writePostgresql.eq_2] at hesc
  rw [wp_lone_bs] at hlone
  refine ⟨?_, ?_, ?_, ?_, ?_⟩
  · rw [hesc]
  · rw [hesc, hplain]
  · have e1 : n + countMarkers (a ++ '\\' :: '?' :: b) = n + countMarkers (a ++ b) := by
      rw [← wp_fst n (a ++ '\\' :: '?' :: b), ← wp_fst n (a ++ b), hesc, hplain]
    omega
  · rw [hlone]
  · rw [hlone]

/-- Witness for C7 at the spec's own example body `time \?> ? + 1`. -/
theorem escape_fidelity_check :
    ("time ".data.getLast? ≠ some '\\') ∧
    (writePostgresql 1 ("time ".data ++ '\\' :: '?' :: "> ? + 1".data)).2 =
      (writePostgresql 1 "time ".data).2 ++
        '?' :: (writePostgresql (writePostgresql 1 "time ".data).1 "> ? + 1".data).2 :=
  ⟨by decide, (escape_fidelity 1 "time ".data "> ? + 1".data (by decide)).1⟩

/-! ### C9 — `Set`/`SetExpr` without an INSERT or UPDATE clause -/

/-- C9: when the fragment list holds no part at the INSERT position and none
at the UPDATE position, `SetExpr` (and therefore `Set`) returns the statement
completely unchanged: no fragment, no buffer byte, no parameter, no cache
change. -/
theorem set_noop_without_insert_or_update (stmt : Stmt) (field exprS : String)
    (args : List Val) (value : Val)
    (h : ∀ c ∈ stmt.parts, c.position ≠ posInsert ∧ c.position ≠ posUpdate) :
    stmt.setExpr field exprS args = stmt ∧ stmt.set field value = stmt := by
  simp only [posInsert, posUpdate] at h
  have hf : stmt.parts.find?
      (fun c => c.position == 300 || c.position == 700) = none := by
    apply List.find?_eq_none.mpr
    intro c hc
    simp only [Bool.or_eq_true, beq_iff_eq]
    push_neg
    exact h c hc
  refine ⟨?_, ?_⟩
  · simp [Stmt.setExpr, hf, posInsert, posUpdate]
  · simp [Stmt.set, Stmt.setExpr, hf, posInsert, posUpdate]

/-- Witness for C9 on a plain SELECT statement. -/
theorem set_noop_check :
    ((emptyStmt Dialect.defaultDialect).fromTable "t" []).setExpr "f" "?" [Val.int 1]
        = (emptyStmt Dialect.defaultDialect).fromTable "t" [] ∧
    ((emptyStmt Dialect.defaultDialect).fromTable "t" []).set "f" (Val.int 2)
        = (emptyStmt Dialect.defaultDialect).fromTable "t" [] :=
  ⟨(set_noop_without_insert_or_update _ "f" "?" [Val.int 1] (Val.int 2)
      (by decide)).1,
    (set_noop_without_insert_or_update _ "f" "?" [Val.int 1] (Val.int 2)
      (by decide)).2⟩

/-! ### C10 — `Paginate` -/

/-- Counterexample to C10 as stated: `Paginate` computes the offset in Go's
64-bit `int`, so at `page = 2^62 + 1`, `pageSize = 4` the product
`(page - 1) * pageSize = 2^64` wraps to `0` — the OFFSET clause is bound to
`0`, not to the mathematical `(page-1)*pageSize`. -/
theorem paginate_offset_wraps :
    ((emptyStmt Dialect.defaultDialect).paginate (2 ^ 62 + 1) 4).args
        = [Val.int 4, Val.int 0]
    ∧ Val.int (((2 ^ 62 + 1 : Int) - 1) * 4) ∉
        ((emptyStmt Dialect.defaultDialect).paginate (2 ^ 62 + 1) 4).args := by
  refine ⟨?_, ?_⟩ <;> decide

/-- C10 (amended): `Paginate` clamps both arguments below 1 up to 1; a
clamped page of 1 adds only a LIMIT clause bound to the clamped page size,
and a larger page adds an OFFSET clause together with the LIMIT clause. The
OFFSET is bound to the 64-bit wrapped product of `page - 1` and the clamped
page size — equal to the mathematical `(page-1)*pageSize` whenever that
product fits in Go's `int`, but not beyond (`paginate_offset_wraps`). -/
theorem paginate_clamps_and_composes (stmt : Stmt) (page pageSize : Int) :
    stmt.paginate page pageSize =
      if 1 < max 1 page then
        (stmt.offset (Val.int (wrap64 ((max 1 page - 1) * max 1 pageSize)))).limit
          (Val.int (max 1 pageSize))
      else stmt.limit (Val.int (max 1 pageSize)) := by
  have hsize : (if pageSize < 1 then (1 : Int) else pageSize) = max 1 pageSize := by
    split <;> omega
  rcases le_or_lt page 1 with hp | hp
  · have hpage : (if page < 1 then (1 : Int) else page) = 1 := by split <;> omega
    simp only [Stmt.paginate, hpage, hsize]
    rw [if_neg (by omega : ¬ (1 : Int) > 1), if_neg (by omega : ¬ (1 : Int) < max 1 page)]
  · have hpage : (if page < 1 then (1 : Int) else page) = page := by split <;> omega
    have hmax : max 1 page = page := by omega
    simp only [Stmt.paginate, hpage, hsize, hmax]
    rw [if_pos (by omega : page > 1), if_pos hp]

/-! ### C5 — cache invalidation and the value-only refresh path -/

/-- A statement whose render cache is populated: `FROM t LIMIT ?` bound to 10,
after a `String()` call. -/
def limitCached : Stmt :=
  afterString (((emptyStmt Dialect.defaultDialect).fromTable "t" []).limit (Val.int 10))

/-- Counterexample to C5 as stated: a repeated `Limit` call is a mutating
clause-contributing call (it changes the parameter output), yet the render
cache survives it — the value-only refresh path of `addPart` returns before
reaching `Invalidate`. -/
theorem limit_refresh_keeps_cache :
    (limitCached.limit (Val.int 20)).args ≠ limitCached.args ∧
    (limitCached.limit (Val.int 20)).sql = some "FROM t LIMIT ?".data := by
  refine ⟨?_, ?_⟩ <;> decide

/-- C5 amended: every clause-contributing `addPart` call invalidates the
render cache except the value-only refresh of an existing clause at the same
position (match found, empty expression body), which leaves the fragment
list, the buffer, the cache, and hence the rendered text untouched — the
surviving cache is still valid. -/
theorem cache_invalidation_exact (stmt : Stmt) (pos : Int) (clause expr : String)
    (args : List Val) (sep : String) :
    ((expr = "" → ∀ part i argTail,
        scanRev pos stmt.parts.reverse 0 ≠ ScanRes.matched part i argTail) →
      ((addPart stmt pos clause expr args sep).1).sql = none) ∧
    (expr = "" → ∀ part i argTail,
        scanRev pos stmt.parts.reverse 0 = ScanRes.matched part i argTail →
      ((addPart stmt pos clause expr args sep).1).parts = stmt.parts ∧
      ((addPart stmt pos clause expr args sep).1).buffer = stmt.buffer ∧
      ((addPart stmt pos clause expr args sep).1).sql = stmt.sql ∧
      renderString ((addPart stmt pos clause expr args sep).1) = renderString stmt) := by
  unfold addPart
  dsimp only
  rcases hscan : scanRev pos stmt.parts.reverse 0 with ⟨part, i, argTail⟩ | ⟨idx, argTail⟩
  · by_cases he : expr = ""
    · constructor
      · intro hno
        exact absurd rfl (hno he part i argTail)
      · intro _ part' i' argTail' heq
        simp only [if_pos he]
        by_cases ha : 0 < args.length <;> simp [ha, renderString]
    · constructor
      · intro _
        simp only [if_neg he]
        split <;> rfl
      · intro h0
        exact absurd h0 he
  · constructor
    · intro _
      rfl
    · intro he part' i' argTail' heq
      exact ScanRes.noConfusion heq

/-- Witness for C5's amended theorem: both the invalidating branch (a fresh
`LIMIT` on a statement without one) and the cache-preserving refresh branch
(a repeated `LIMIT`). -/
theorem cache_invalidation_check :
    (((emptyStmt Dialect.defaultDialect).fromTable "t" []).limit (Val.int 10)).sql = none ∧
    (limitCached.limit (Val.int 20)).sql = limitCached.sql := by
  constructor
  · refine (cache_invalidation_exact ((emptyStmt Dialect.defaultDialect).fromTable "t" [])
      posLimit "LIMIT ?" "" [Val.int 10] "").1 ?_
    intro _ part i argTail heq
    rw [show scanRev posLimit
        ((emptyStmt Dialect.defaultDialect).fromTable "t" []).parts.reverse 0
        = ScanRes.fresh 1 0 from by decide] at heq
    exact ScanRes.noConfusion heq
  · exact ((cache_invalidation_exact limitCached posLimit "LIMIT ?" "" [Val.int 20] "").2
      rfl { position := 1700, bufLow := 6, bufHigh := 13, hasExpr := false, argLen := 1 }
      1 0 (by decide)).2.2.1

/-! ### C8 — the position used by `Union` -/

theorem set_append_len {α : Type} (l : List α) (a b : α) :
    (l ++ [a]).set l.length b = l ++ [b] := by
  induction l with
  | nil => rfl
  | cons x xs ih => simp [List.set, ih]

theorem insertAt_at_length (d s : List Val) : insertAt d s d.length = d ++ s := by
  simp [insertAt]

/-- The host and nested statement of the C8 counterexample. -/
def unionHost : Stmt := (emptyStmt Dialect.defaultDialect).fromTable "t" []

def unionSub : Stmt := (emptyStmt Dialect.defaultDialect).fromTable "u" []

/-- Counterexample to C8 as stated: for `FROM t`, the last currently-occupied
position is the FROM slot, so "one past the last currently-occupied position"
would be `posFrom + 1`; the code instead places the UNION fragment at the
fixed `posUnion` slot because the last position is below it. -/
theorem union_position_not_one_past_last :
    ((unionHost.union true unionSub).parts.map (fun c => c.position)
        = [posFrom, posUnion]) ∧
    (∀ c ∈ unionHost.parts, c.position ≤ posFrom) ∧
    posUnion ≠ posFrom + 1 := by
  refine ⟨?_, ?_, ?_⟩ <;> decide

/-- A fresh part holding only a clause keyword (no body), as created by the
fresh-insert path of `addPart` for an empty expression. -/
def clauseOnlyPart (pos : Int) (bufLow : Nat) (clause : String) (args : List Val) :
    StatementPart :=
  { position := pos, bufLow := bufLow, bufHigh := bufLow + clause.data.length,
    hasExpr := false, argLen := args.length }

/-- Helper: when the target position lies strictly past the last part's
position, `addPart` with an empty body appends a fresh clause-only part at
the end of the list and the supplied arguments at the end of the argument
list. -/
theorem addPart_append_of_last_lt (stmt : Stmt) (pos : Int) (clause expr : String)
    (args : List Val) (sep : String)
    (hlast : ∀ a, stmt.parts.getLast? = some a → a.position < pos)
    (he : expr = "") (hc : clause ≠ "") :
    addPart stmt pos clause expr args sep =
      ({ stmt with
          position := pos,
          parts := stmt.parts ++ [clauseOnlyPart pos stmt.buffer.length clause args],
          buffer := stmt.buffer ++ clause.data,
          args := stmt.args ++ args,
          sql := none }, stmt.parts.length) := by
  subst he
  have hscan : scanRev pos stmt.parts.reverse 0 = ScanRes.fresh stmt.parts.length 0 := by
    rcases hl : stmt.parts.getLast? with _ | last
    · rw [List.getLast?_eq_none_iff.mp hl]
      rfl
    · obtain ⟨l', hl'⟩ := List.getLast?_eq_some_iff.mp hl
      have hlt := hlast last hl
      rw [hl', List.reverse_append]
      simp only [List.reverse_cons, List.reverse_nil, List.nil_append,
        List.singleton_append, scanRev]
      rw [if_neg (by omega), if_pos hlt]
      simp
  unfold addPart
  dsimp only
  rw [hscan]
  dsimp only
  have h1 : (if ("" : String) ≠ "" then (" " : String).data else ([] : List Char))
      = [] := by simp
  rw [if_pos hc, h1]
  simp only [List.append_nil, Nat.sub_zero, List.take_length, List.drop_length,
    insertAt_at_length]
  rfl

/-- C8 amended: a `Union` call appends its fragment after every existing part,
at the maximum of the fixed UNION slot and one past the last occupied
position (the fixed slot when the statement is empty), carrying the nested
statement's parameters appended at the end of the parameter list; repeated
combinations therefore stack in call order. -/
theorem union_appends_at_max (stmt : Stmt) (all : Bool) (query : Stmt) :
    ∃ frag : StatementPart,
      (stmt.union all query).parts = stmt.parts ++ [frag] ∧
      frag.position = (match stmt.parts.getLast? with
        | some last => max posUnion (last.position + 1)
        | none => posUnion) ∧
      frag.argLen = query.args.length ∧
      (stmt.union all query).args = stmt.args ++ query.args := by
  have hp : (match stmt.parts.getLast? with
      | some last => if last.position ≥ posUnion then last.position + 1 else posUnion
      | none => posUnion) =
    (match stmt.parts.getLast? with
      | some last => max posUnion (last.position + 1)
      | none => posUnion) := by
    rcases stmt.parts.getLast? with _ | last
    · rfl
    · dsimp only
      split <;> omega
  have hlast : ∀ a, stmt.parts.getLast? = some a →
      a.position < (match stmt.parts.getLast? with
        | some last => if last.position ≥ posUnion then last.position + 1 else posUnion
        | none => posUnion) := by
    intro a ha
    rw [ha]
    dsimp only
    split <;> (simp only [posUnion] at *; omega)
  have hcl : (if all then ("UNION ALL " : String) else "UNION ") ≠ "" := by
    rcases all <;> decide
  unfold Stmt.union
  dsimp only
  rw [addPart_append_of_last_lt stmt _ _ "" query.args "" hlast rfl hcl]
  dsimp only
  rw [show ∀ c0 : StatementPart, (stmt.parts ++ [c0]).getD stmt.parts.length default = c0
    from fun c0 => by simp [List.getD_append_right, List.getD]]
  rw [set_append_len]
  refine ⟨_, rfl, ?_, rfl, rfl⟩
  dsimp only [clauseOnlyPart]
  exact hp

/-! ### Characterization of `addPart` on a sorted fragment list

The Ordered Fragment List is kept sorted by grammatical position; under that
invariant the backward scan of `addPart` splits the list into the prefix of
parts at or before the target position (`partsLE`) and the suffix strictly
after it (`partsGT`), and `argTail` is the parameter count of the suffix. -/

/-- The fragment list is sorted (non-decreasing) by grammatical position. -/
abbrev PartsSorted (l : List StatementPart) : Prop :=
  List.Chain' (fun a b => a.position ≤ b.position) l

/-- Executable check for `PartsSorted` (the library instance for `Chain'` does
not evaluate by `decide`). -/
def chainLE : List StatementPart → Bool
  | [] => true
  | [_] => true
  | a :: b :: rest => decide (a.position ≤ b.position) && chainLE (b :: rest)

theorem chainLE_iff (l : List StatementPart) : chainLE l = true ↔ PartsSorted l := by
  induction l with
  | nil => simp [chainLE]
  | cons a rest ih =>
    cases rest with
    | nil => simp [chainLE]
    | cons b rest' =>
      show _ ↔ List.Chain' (fun a b => a.position ≤ b.position) (a :: b :: rest')
      rw [chainLE, List.chain'_cons]
      simp only [Bool.and_eq_true, decide_eq_true_eq, ih]

/-- The prefix of parts whose position is at or before `pos`. -/
def partsLE (parts : List StatementPart) (pos : Int) : List StatementPart :=
  parts.takeWhile (fun c => decide (c.position ≤ pos))

/-- The suffix of parts whose position is strictly after `pos`. -/
def partsGT (parts : List StatementPart) (pos : Int) : List StatementPart :=
  parts.dropWhile (fun c => decide (c.position ≤ pos))

/-- Total parameter count owned by a run of parts. -/
def argsTail (l : List StatementPart) : Nat := (l.map (fun c => c.argLen)).sum

theorem partsLE_append_partsGT (parts : List StatementPart) (pos : Int) :
    partsLE parts pos ++ partsGT parts pos = parts :=
  List.takeWhile_append_dropWhile _ _

theorem mem_partsLE_le (parts : List StatementPart) (pos : Int) (c : StatementPart)
    (hc : c ∈ partsLE parts pos) : c.position ≤ pos := by
  have := List.mem_takeWhile_imp hc
  simpa using this

theorem dropWhile_head_false {α : Type} (p : α → Bool) (l : List α) (c : α)
    (rest : List α) (h : l.dropWhile p = c :: rest) : p c = false := by
  induction l with
  | nil => cases h
  | cons x xs ih =>
    rw [List.dropWhile_cons] at h
    split at h
    · exact ih h
    · next hx =>
      injection h with h1 _
      subst h1
      simpa using hx

theorem mem_partsGT_gt (parts : List StatementPart) (pos : Int)
    (hs : PartsSorted parts) (c : StatementPart)
    (hc : c ∈ partsGT parts pos) : pos < c.position := by
  haveI : IsTrans StatementPart (fun a b => a.position ≤ b.position) :=
    ⟨fun _ _ _ h1 h2 => le_trans h1 h2⟩
  have hpw : List.Pairwise (fun a b => a.position ≤ b.position) parts :=
    List.chain'_iff_pairwise.mp hs
  clear hs
  induction parts with
  | nil => cases hc
  | cons x xs ih =>
    rw [partsGT, List.dropWhile_cons] at hc
    rcases List.pairwise_cons.mp hpw with ⟨hx, hxs⟩
    split at hc
    · exact ih hc hxs
    · next hxpos =>
      have hxgt : pos < x.position := by simpa using hxpos
      rcases List.mem_cons.mp hc with rfl | hmem
      · exact hxgt
      · have := hx c hmem
        omega

theorem argsTail_append (l r : List StatementPart) :
    argsTail (l ++ r) = argsTail l + argsTail r := by
  simp [argsTail]

/-- Scanning past a run of parts that all sit strictly after the target
position accumulates their parameter counts into `argTail`. -/
theorem scanRev_skip (pos : Int) (gl r : List StatementPart) (t : Nat)
    (h : ∀ c ∈ gl, pos < c.position) :
    scanRev pos (gl ++ r) t = scanRev pos r (t + argsTail gl) := by
  induction gl generalizing t with
  | nil => simp [argsTail]
  | cons c gl' ih =>
    have hc := h c (by simp)
    rw [List.cons_append, scanRev, if_neg (by omega), if_neg (by omega),
      ih (t + c.argLen) (fun d hd => h d (by simp [hd]))]
    simp [argsTail, Nat.add_assoc]

/-- The backward scan of `addPart`, characterized on a sorted fragment list:
it finds the last part at or before the target position; a position match
yields that part (with the parameter count of everything after it), otherwise
the insertion point is right after the `partsLE` prefix. -/
theorem scanRev_eq_of_sorted (parts : List StatementPart) (pos : Int)
    (h : PartsSorted parts) :
    scanRev pos parts.reverse 0 =
      match (partsLE parts pos).getLast? with
      | none => ScanRes.fresh 0 (argsTail (partsGT parts pos))
      | some a =>
        if a.position = pos then
          ScanRes.matched a ((partsLE parts pos).length - 1)
            (argsTail (partsGT parts pos))
        else ScanRes.fresh (partsLE parts pos).length (argsTail (partsGT parts pos)) := by
  have hsplit := partsLE_append_partsGT parts pos
  have hrev : parts.reverse = (partsGT parts pos).reverse ++ (partsLE parts pos).reverse := by
    rw [← List.reverse_append, hsplit]
  have hgt : ∀ c ∈ (partsGT parts pos).reverse, pos < c.position := by
    intro c hc
    exact mem_partsGT_gt parts pos h c (List.mem_reverse.mp hc)
  rw [hrev, scanRev_skip pos _ _ 0 hgt]
  have hat : argsTail (partsGT parts pos).reverse = argsTail (partsGT parts pos) := by
    simp [argsTail, List.sum_reverse]
  rw [hat]
  rcases hl : (partsLE parts pos).getLast? with _ | a
  · rw [List.getLast?_eq_none_iff.mp hl]
    simp [scanRev]
  · obtain ⟨l', hl'⟩ := List.getLast?_eq_some_iff.mp hl
    have ha : a.position ≤ pos := mem_partsLE_le parts pos a (by rw [hl']; simp)
    rw [hl', List.reverse_append, List.reverse_singleton, List.singleton_append]
    by_cases hap : a.position = pos
    · rw [scanRev, if_pos hap]
      simp [hap]
    · rw [scanRev, if_neg hap, if_pos (by omega : a.position < pos)]
      simp [hap]

theorem take_partsLE (parts : List StatementPart) (pos : Int) :
    parts.take (partsLE parts pos).length = partsLE parts pos := by
  nth_rewrite 2 [← partsLE_append_partsGT parts pos]
  exact List.take_left _ _

theorem drop_partsLE (parts : List StatementPart) (pos : Int) :
    parts.drop (partsLE parts pos).length = partsGT parts pos := by
  nth_rewrite 2 [← partsLE_append_partsGT parts pos]
  exact List.drop_left _ _

theorem set_middle {α : Type} (l : List α) (a b : α) (r : List α) :
    (l ++ a :: r).set l.length b = l ++ b :: r := by
  induction l with
  | nil => rfl
  | cons x xs ih => simp [List.set, ih]

/-- No part of the list sits exactly at the target position (phrased through
the scan: the last part at or before `pos` is not at `pos`). -/
def NoPartAt (parts : List StatementPart) (pos : Int) : Prop :=
  ∀ a, (partsLE parts pos).getLast? = some a → a.position ≠ pos

instance (parts : List StatementPart) (pos : Int) : Decidable (NoPartAt parts pos) := by
  unfold NoPartAt
  rcases h : (partsLE parts pos).getLast? with _ | a
  · exact isTrue (fun b hb => by cases hb)
  · by_cases hp : a.position ≠ pos
    · exact isTrue (fun b hb => by
        injection hb with hb
        exact hb ▸ hp)
    · exact isFalse (fun hall => hp (hall a rfl))

/-- The separator bytes `addPart` writes before extending an existing part:
the clause separator if the part already has body content, a space if not. -/
def sepText (M : StatementPart) (sep : String) : List Char :=
  if M.hasExpr then sep.data else " ".data

/-- The bytes a fresh insert writes: clause keyword (when present), a space
when a body follows, then the body. -/
def freshText (clause expr : String) : List Char :=
  (if clause ≠ "" then clause.data ++ (if expr ≠ "" then " ".data else []) else [])
    ++ expr.data

/-- The fragment descriptor created by the fresh-insert path. -/
def freshPart (pos : Int) (bufLow : Nat) (clause expr : String)
    (args : List Val) : StatementPart :=
  { position := pos, bufLow := bufLow,
    bufHigh := bufLow + (freshText clause expr).length,
    hasExpr := expr ≠ "", argLen := args.length }

/-- The fragment descriptor created by the non-contiguous split path. -/
def splitPart (pos : Int) (bufLow : Nat) (M : StatementPart) (sep expr : String)
    (args : List Val) : StatementPart :=
  { position := pos, bufLow := bufLow,
    bufHigh := bufLow + (sepText M sep).length + expr.data.length,
    hasExpr := true, argLen := args.length }

/-- The matched fragment as updated in place by the contiguous merge path. -/
def extendPart (M : StatementPart) (bufLow : Nat) (sep expr : String)
    (args : List Val) : StatementPart :=
  { M with
    argLen := M.argLen + args.length,
    bufHigh := bufLow + (sepText M sep).length + expr.data.length,
    hasExpr := true }

/-- Shape of `addPart` when no part sits at the target position: a fresh part
is inserted between the two halves, its text is appended to the buffer, and
the arguments are spliced right before those of the parts after it. -/
theorem addPart_fresh_shape (stmt : Stmt) (pos : Int) (clause expr : String)
    (args : List Val) (sep : String) (hs : PartsSorted stmt.parts)
    (hno : NoPartAt stmt.parts pos) :
    addPart stmt pos clause expr args sep =
      ({ stmt with
          position := pos,
          parts := partsLE stmt.parts pos
            ++ [freshPart pos stmt.buffer.length clause expr args]
            ++ partsGT stmt.parts pos,
          buffer := stmt.buffer ++ freshText clause expr,
          args := insertAt stmt.args args
            (stmt.args.length - argsTail (partsGT stmt.parts pos)),
          sql := none }, (partsLE stmt.parts pos).length) := by
  unfold addPart
  dsimp only
  rw [scanRev_eq_of_sorted _ _ hs]
  rcases hl : (partsLE stmt.parts pos).getLast? with _ | a
  · have hle : partsLE stmt.parts pos = [] := List.getLast?_eq_none_iff.mp hl
    have hgt : stmt.parts = partsGT stmt.parts pos := by
      conv_lhs => rw [← partsLE_append_partsGT stmt.parts pos, hle, List.nil_append]
    dsimp only
    rw [hle]
    simp [freshPart, freshText, ← hgt]
  · dsimp only
    rw [if_neg (hno a hl)]
    dsimp only
    rw [take_partsLE, drop_partsLE]
    simp [freshPart, freshText]

/-- Shape of `addPart` on the value-only refresh path (matching part, empty
body): only the arguments change, overwritten in place at the matched part's
slice. -/
theorem addPart_refresh_shape (stmt : Stmt) (pos : Int) (clause expr : String)
    (args : List Val) (sep : String) (M : StatementPart)
    (hs : PartsSorted stmt.parts)
    (hM : (partsLE stmt.parts pos).getLast? = some M) (hMp : M.position = pos)
    (he : expr = "") :
    addPart stmt pos clause expr args sep =
      ({ stmt with
          position := pos,
          args := copyAt stmt.args args (stmt.args.length - argsTail (partsGT stmt.parts pos) - M.argLen) },
        (partsLE stmt.parts pos).length - 1) := by
  subst he
  unfold addPart
  dsimp only
  rw [scanRev_eq_of_sorted _ _ hs, hM]
  dsimp only
  rw [if_pos hMp]
  dsimp only
  rcases args with _ | ⟨v, vs⟩
  · simp [copyAt]
  · simp

/-- Shape of `addPart` on the contiguous merge path: the matched part is the
last one written, so the separator and the body extend it in place. -/
theorem addPart_merge_shape (stmt : Stmt) (pos : Int) (clause expr : String)
    (args : List Val) (sep : String) (M : StatementPart)
    (hs : PartsSorted stmt.parts)
    (hM : (partsLE stmt.parts pos).getLast? = some M) (hMp : M.position = pos)
    (he : expr ≠ "") (hcont : M.bufHigh = stmt.buffer.length) :
    addPart stmt pos clause expr args sep =
      ({ stmt with
          position := pos,
          parts := (partsLE stmt.parts pos).dropLast
            ++ [extendPart M stmt.buffer.length sep expr args]
            ++ partsGT stmt.parts pos,
          buffer := stmt.buffer ++ sepText M sep ++ expr.data,
          args := insertAt stmt.args args
            (stmt.args.length - argsTail (partsGT stmt.parts pos)),
          sql := none }, (partsLE stmt.parts pos).length - 1) := by
  obtain ⟨l', hl'⟩ := List.getLast?_eq_some_iff.mp hM
  have hparts : stmt.parts = l' ++ M :: partsGT stmt.parts pos := by
    conv_lhs => rw [← partsLE_append_partsGT stmt.parts pos, hl']
    simp
  unfold addPart
  dsimp only
  rw [scanRev_eq_of_sorted _ _ hs, hM]
  dsimp only
  rw [if_pos hMp]
  dsimp only
  rw [if_neg he, if_pos hcont]
  have hlen : (partsLE stmt.parts pos).length - 1 = l'.length := by
    rw [hl']
    simp
  rw [hlen]
  conv_lhs => rw [hparts, set_middle]
  rw [hl']
  simp [extendPart, sepText, List.dropLast_concat]
  rw [← hparts]

/-- Shape of `addPart` on the non-contiguous path: other bytes were written
after the matched part's span, so a new part carrying the separator and the
body is inserted right after the matched one, with the clause suppressed. -/
theorem addPart_split_shape (stmt : Stmt) (pos : Int) (clause expr : String)
    (args : List Val) (sep : String) (M : StatementPart)
    (hs : PartsSorted stmt.parts)
    (hM : (partsLE stmt.parts pos).getLast? = some M) (hMp : M.position = pos)
    (he : expr ≠ "") (hcont : M.bufHigh ≠ stmt.buffer.length) :
    addPart stmt pos clause expr args sep =
      ({ stmt with
          position := pos,
          parts := partsLE stmt.parts pos
            ++ [splitPart pos stmt.buffer.length M sep expr args]
            ++ partsGT stmt.parts pos,
          buffer := stmt.buffer ++ sepText M sep ++ expr.data,
          args := insertAt stmt.args args
            (stmt.args.length - argsTail (partsGT stmt.parts pos)),
          sql := none }, (partsLE stmt.parts pos).length) := by
  have hne : partsLE stmt.parts pos ≠ [] := by
    intro hx
    rw [hx] at hM
    cases hM
  unfold addPart
  dsimp only
  rw [scanRev_eq_of_sorted _ _ hs, hM]
  dsimp only
  rw [if_pos hMp]
  dsimp only
  rw [if_neg he, if_neg hcont]
  have hlen : (partsLE stmt.parts pos).length - 1 + 1 = (partsLE stmt.parts pos).length := by
    have := List.length_pos.mpr hne
    omega
  rw [hlen, take_partsLE, drop_partsLE]
  simp [splitPart, sepText]

/-! ### Stability of the split under the four outcomes -/

theorem takeWhile_append_all {α : Type} (p : α → Bool) (l₁ l₂ : List α)
    (h : ∀ x ∈ l₁, p x) : (l₁ ++ l₂).takeWhile p = l₁ ++ l₂.takeWhile p := by
  induction l₁ with
  | nil => simp
  | cons x xs ih =>
    rw [List.cons_append, List.takeWhile_cons, if_pos (h x (by simp))]
    rw [List.cons_append, ih (fun y hy => h y (by simp [hy]))]

theorem dropWhile_append_all {α : Type} (p : α → Bool) (l₁ l₂ : List α)
    (h : ∀ x ∈ l₁, p x) : (l₁ ++ l₂).dropWhile p = l₂.dropWhile p := by
  induction l₁ with
  | nil => simp
  | cons x xs ih =>
    rw [List.cons_append, List.dropWhile_cons, if_pos (h x (by simp))]
    exact ih (fun y hy => h y (by simp [hy]))

theorem takeWhile_eq_nil_all {α : Type} (p : α → Bool) (l : List α)
    (h : ∀ x ∈ l, p x = false) : l.takeWhile p = [] := by
  rcases l with _ | ⟨x, xs⟩
  · rfl
  · rw [List.takeWhile_cons, if_neg (by simp [h x (by simp)])]

theorem dropWhile_eq_self_all {α : Type} (p : α → Bool) (l : List α)
    (h : ∀ x ∈ l, p x = false) : l.dropWhile p = l := by
  rcases l with _ | ⟨x, xs⟩
  · rfl
  · rw [List.dropWhile_cons, if_neg (by simp [h x (by simp)])]

/-- How the `partsLE`/`partsGT` split looks on a list of the inserted shape. -/
theorem partsLE_partsGT_insert (LE GT : List StatementPart) (p : StatementPart)
    (pos : Int) (hLE : ∀ c ∈ LE, c.position ≤ pos)
    (hGT : ∀ c ∈ GT, pos < c.position) (hp : p.position ≤ pos) :
    partsLE (LE ++ [p] ++ GT) pos = LE ++ [p] ∧
    partsGT (LE ++ [p] ++ GT) pos = GT := by
  have hall : ∀ c ∈ LE ++ [p], (fun c : StatementPart => decide (c.position ≤ pos)) c := by
    intro c hc
    rcases List.mem_append.mp hc with hc | hc
    · simp [hLE c hc]
    · simp at hc
      simp [hc, hp]
  have hgt : ∀ c ∈ GT, (fun c : StatementPart => decide (c.position ≤ pos)) c = false := by
    intro c hc
    have := hGT c hc
    simp only [decide_eq_false_iff_not]
    omega
  constructor
  · rw [partsLE, takeWhile_append_all _ _ _ hall, takeWhile_eq_nil_all _ _ hgt,
      List.append_nil]
  · rw [partsGT, dropWhile_append_all _ _ _ hall, dropWhile_eq_self_all _ _ hgt]

/-- Pairwise order of the fragment list. -/
def PartsPW (l : List StatementPart) : Prop :=
  List.Pairwise (fun a b => a.position ≤ b.position) l

theorem partsSorted_iff_pw (l : List StatementPart) : PartsSorted l ↔ PartsPW l := by
  haveI : IsTrans StatementPart (fun a b => a.position ≤ b.position) :=
    ⟨fun _ _ _ h1 h2 => le_trans h1 h2⟩
  exact List.chain'_iff_pairwise

theorem pw_insert_at (LE GT : List StatementPart) (p : StatementPart) (pos : Int)
    (hLE : ∀ c ∈ LE, c.position ≤ pos) (hGT : ∀ c ∈ GT, pos < c.position)
    (hp : p.position = pos) (hLEpw : PartsPW LE) (hGTpw : PartsPW GT) :
    PartsPW (LE ++ [p] ++ GT) := by
  unfold PartsPW at *
  rw [List.append_assoc]
  rw [List.pairwise_append]
  refine ⟨hLEpw, ?_, ?_⟩
  · rw [List.singleton_append, List.pairwise_cons]
    refine ⟨fun b hb => ?_, hGTpw⟩
    have := hGT b hb
    omega
  · intro a ha b hb
    rcases List.mem_cons.mp hb with rfl | hb
    · have := hLE a ha
      omega
    · have := hGT b hb
      have := hLE a ha
      omega

/-! ### Arithmetic of the parameter-list splice -/

theorem insertAt_length (d s : List Val) (i : Nat) :
    (insertAt d s i).length = d.length + s.length := by
  simp [insertAt]
  omega

theorem copyAt_length (a s : List Val) (i : Nat) :
    (copyAt a s i).length = a.length := by
  simp [copyAt]
  omega

theorem copyAt_ge (a s : List Val) (i : Nat) (h : a.length ≤ i) :
    copyAt a s i = a := by
  unfold copyAt
  rw [Nat.sub_eq_zero_of_le h, List.take_zero, List.drop_of_length_le h,
    List.take_of_length_le h]
  simp

theorem copyAt_singleton_set (a : List Val) (x : Val) (i : Nat) (h : i < a.length) :
    copyAt a [x] i = a.take i ++ [x] ++ a.drop (i + 1) := by
  unfold copyAt
  have h1 : List.take (a.length - i) [x] = [x] :=
    List.take_of_length_le (by simp; omega)
  rw [h1, List.drop_drop]
  rfl

theorem copyAt_singleton_twice (a : List Val) (x y : Val) (i : Nat) :
    copyAt (copyAt a [x] i) [y] i = copyAt a [y] i := by
  rcases le_or_lt a.length i with h | h
  · rw [copyAt_ge a [x] i h]
  · have hlen : (copyAt a [x] i).length = a.length := copyAt_length a [x] i
    rw [copyAt_singleton_set a x i h, copyAt_singleton_set a y i h,
      copyAt_singleton_set _ y i (by
        rw [← copyAt_singleton_set a x i h, hlen]
        exact h)]
    have ht : (a.take i).length = i := by simp; omega
    have ht2 : (a.take i ++ [x]).length = i + 1 := by simp; omega
    have e1 : List.take i (a.take i ++ [x] ++ a.drop (i + 1)) = a.take i := by
      rw [List.append_assoc]
      exact List.take_left' ht
    have e2 : List.drop (i + 1) (a.take i ++ [x] ++ a.drop (i + 1)) = a.drop (i + 1) :=
      List.drop_left' ht2
    rw [e1, e2]

theorem copyAt_insertAt_singleton (a : List Val) (v v' : Val) (k : Nat)
    (hk : k ≤ a.length) :
    copyAt (insertAt a [v] k) [v'] k = insertAt a [v'] k := by
  have hlen : (insertAt a [v] k).length = a.length + 1 := insertAt_length a [v] k
  rw [copyAt_singleton_set _ v' k (by omega)]
  unfold insertAt
  have ht : (a.take k).length = k := by simp; omega
  have ht2 : (a.take k ++ [v]).length = k + 1 := by simp; omega
  have e1 : List.take k (a.take k ++ [v] ++ a.drop k) = a.take k := by
    rw [List.append_assoc]
    exact List.take_left' ht
  have e2 : List.drop (k + 1) (a.take k ++ [v] ++ a.drop k) = a.drop k :=
    List.drop_left' ht2
  rw [e1, e2]

/-! ### C4 — the singleton LIMIT clause -/

/-- Two consecutive `Limit` calls are indistinguishable from the second call
alone: the value-only refresh path replaces the bound value in place. -/
theorem limit_twice (stmt : Stmt) (hs : PartsSorted stmt.parts) (v v' : Val) :
    (stmt.limit v).limit v' = stmt.limit v' := by
  have hLE : ∀ c ∈ partsLE stmt.parts posLimit, c.position ≤ posLimit :=
    fun c hc => mem_partsLE_le stmt.parts posLimit c hc
  have hGT : ∀ c ∈ partsGT stmt.parts posLimit, posLimit < c.position :=
    fun c hc => mem_partsGT_gt stmt.parts posLimit hs c hc
  have hpw : PartsPW stmt.parts := (partsSorted_iff_pw _).mp hs
  have hpw2 := hpw
  rw [← partsLE_append_partsGT stmt.parts posLimit] at hpw2
  have hpwLE : PartsPW (partsLE stmt.parts posLimit) :=
    (List.pairwise_append.mp hpw2).1
  have hpwGT : PartsPW (partsGT stmt.parts posLimit) :=
    (List.pairwise_append.mp hpw2).2.1
  by_cases hno : NoPartAt stmt.parts posLimit
  · unfold Stmt.limit
    rw [addPart_fresh_shape stmt posLimit "LIMIT ?" "" [v] "" hs hno]
    rw [addPart_fresh_shape stmt posLimit "LIMIT ?" "" [v'] "" hs hno]
    have hsplit := partsLE_partsGT_insert (partsLE stmt.parts posLimit)
      (partsGT stmt.parts posLimit)
      (freshPart posLimit stmt.buffer.length "LIMIT ?" "" [v]) posLimit hLE hGT
      (le_of_eq rfl)
    rw [addPart_refresh_shape _ posLimit "LIMIT ?" "" [v'] ""
      (freshPart posLimit stmt.buffer.length "LIMIT ?" "" [v])
      (by
        dsimp only
        exact (partsSorted_iff_pw _).mpr
          (pw_insert_at _ _ _ _ hLE hGT rfl hpwLE hpwGT))
      (by
        dsimp only
        rw [hsplit.1]
        exact List.getLast?_concat _)
      rfl rfl]
    dsimp only
    simp only [Stmt.mk.injEq, true_and, and_true]
    rw [hsplit.2]
    have harith : (insertAt stmt.args [v]
          (stmt.args.length - argsTail (partsGT stmt.parts posLimit))).length
        - argsTail (partsGT stmt.parts posLimit)
        - (freshPart posLimit stmt.buffer.length "LIMIT ?" "" [v]).argLen
        = stmt.args.length - argsTail (partsGT stmt.parts posLimit) := by
      rw [insertAt_length]
      simp [freshPart]
      omega
    rw [harith, copyAt_insertAt_singleton _ _ _ _ (Nat.sub_le _ _)]
    exact ⟨rfl, rfl⟩
  · unfold NoPartAt at hno
    push_neg at hno
    obtain ⟨M, hM, hMp⟩ := hno
    unfold Stmt.limit
    rw [addPart_refresh_shape stmt posLimit "LIMIT ?" "" [v] "" M hs hM hMp rfl]
    rw [addPart_refresh_shape stmt posLimit "LIMIT ?" "" [v'] "" M hs hM hMp rfl]
    rw [addPart_refresh_shape _ posLimit "LIMIT ?" "" [v'] "" M
      (by dsimp only; exact hs) (by dsimp only; exact hM) hMp rfl]
    dsimp only
    simp only [Stmt.mk.injEq, true_and, and_true]
    rw [copyAt_length]
    exact copyAt_singleton_twice _ _ _ _

/-- On a sorted list with no part at `pos`, no member sits at `pos` at all. -/
theorem noPartAt_not_mem (parts : List StatementPart) (pos : Int)
    (hs : PartsSorted parts) (hno : NoPartAt parts pos) :
    ∀ c ∈ parts, c.position ≠ pos := by
  intro c hc hcpos
  rw [← partsLE_append_partsGT parts pos] at hc
  rcases List.mem_append.mp hc with hc | hc
  · rcases hl : (partsLE parts pos).getLast? with _ | M
    · rw [List.getLast?_eq_none_iff.mp hl] at hc
      cases hc
    · have hM := hno M hl
      obtain ⟨l', hl'⟩ := List.getLast?_eq_some_iff.mp hl
      have hpwLE : PartsPW (partsLE parts pos) := by
        have hpw := (partsSorted_iff_pw _).mp hs
        rw [← partsLE_append_partsGT parts pos] at hpw
        exact (List.pairwise_append.mp hpw).1
      rw [hl'] at hc hpwLE
      rcases List.mem_append.mp hc with hc | hc
      · have := (List.pairwise_append.mp hpwLE).2.2 c hc M (by simp)
        have hMle : M.position ≤ pos := mem_partsLE_le parts pos M (by rw [hl']; simp)
        omega
      · simp at hc
        subst hc
        exact hM hcpos
  · have := mem_partsGT_gt parts pos hs c hc
    omega

theorem extract_append_self (b t : List Char) :
    extract (b ++ t) b.length (b.length + t.length) = t := by
  unfold extract
  rw [List.drop_left, Nat.add_sub_cancel_left, List.take_length]

/-- C4: calling the singleton LIMIT clause N + 1 times with values
`v, vs...` is indistinguishable from one call with the last value: the clause
keeps exactly one fragment bound to the last value, the earlier values being
replaced in place. On a statement without a LIMIT part, the first call adds
exactly one fragment at the LIMIT slot whose text is exactly `LIMIT ?`
owning one parameter, appends only those bytes to the buffer, and splices the
single value right before the parameters of later-positioned clauses. -/
theorem singleton_limit_replace (stmt : Stmt) (hs : PartsSorted stmt.parts)
    (v : Val) (vs : List Val) :
    vs.foldl Stmt.limit (stmt.limit v) = stmt.limit (vs.getLastD v) ∧
    (NoPartAt stmt.parts posLimit →
      (stmt.limit v).parts.countP (fun c => c.position == posLimit) = 1 ∧
      (stmt.limit v).parts.length = stmt.parts.length + 1 ∧
      (stmt.limit v).buffer = stmt.buffer ++ "LIMIT ?".data ∧
      (∀ c ∈ (stmt.limit v).parts, c.position = posLimit →
        extract (stmt.limit v).buffer c.bufLow c.bufHigh = "LIMIT ?".data ∧
        c.argLen = 1) ∧
      (stmt.limit v).args = insertAt stmt.args [v]
        (stmt.args.length - argsTail (partsGT stmt.parts posLimit))) := by
  constructor
  · induction vs generalizing v with
    | nil => rfl
    | cons w ws ih =>
      rw [List.foldl_cons, limit_twice stmt hs v w, ih w, List.getLastD_cons]
  · intro hno
    have hshape : stmt.limit v =
        ({ stmt with
            position := posLimit,
            parts := partsLE stmt.parts posLimit
              ++ [freshPart posLimit stmt.buffer.length "LIMIT ?" "" [v]]
              ++ partsGT stmt.parts posLimit,
            buffer := stmt.buffer ++ freshText "LIMIT ?" "",
            args := insertAt stmt.args [v]
              (stmt.args.length - argsTail (partsGT stmt.parts posLimit)),
            sql := none }) := by
      unfold Stmt.limit
      rw [addPart_fresh_shape stmt posLimit "LIMIT ?" "" [v] "" hs hno]
    have htext : freshText "LIMIT ?" "" = "LIMIT ?".data := by decide
    have hmem := noPartAt_not_mem stmt.parts posLimit hs hno
    refine ⟨?_, ?_, ?_, ?_, ?_⟩
    · rw [hshape]
      dsimp only
      rw [List.countP_append, List.countP_append]
      have h1 : (partsLE stmt.parts posLimit).countP
          (fun c => c.position == posLimit) = 0 := by
        rw [List.countP_eq_zero]
        intro c hc
        have : c ∈ stmt.parts := by
          rw [← partsLE_append_partsGT stmt.parts posLimit]
          exact List.mem_append.mpr (Or.inl hc)
        simpa using hmem c this
      have h2 : (partsGT stmt.parts posLimit).countP
          (fun c => c.position == posLimit) = 0 := by
        rw [List.countP_eq_zero]
        intro c hc
        have := mem_partsGT_gt stmt.parts posLimit hs c hc
        simp only [beq_iff_eq]
        omega
      rw [h1, h2]
      rfl
    · rw [hshape]
      dsimp only
      have hlen : (partsLE stmt.parts posLimit).length
          + (partsGT stmt.parts posLimit).length = stmt.parts.length := by
        rw [← List.length_append, partsLE_append_partsGT]
      simp only [List.length_append, List.length_singleton]
      omega
    · rw [hshape, htext]
    · rw [hshape]
      dsimp only
      intro c hc hcpos
      rcases List.mem_append.mp hc with hc1 | hcGT
      · rcases List.mem_append.mp hc1 with hcLE | hcP
        · exfalso
          refine hmem c ?_ hcpos
          rw [← partsLE_append_partsGT stmt.parts posLimit]
          exact List.mem_append.mpr (Or.inl hcLE)
        · simp only [List.mem_singleton] at hcP
          subst hcP
          constructor
          · rw [htext]
            have : (freshPart posLimit stmt.buffer.length "LIMIT ?" "" [v]).bufLow
                = stmt.buffer.length := rfl
            have hbh : (freshPart posLimit stmt.buffer.length "LIMIT ?" "" [v]).bufHigh
                = stmt.buffer.length + ("LIMIT ?".data).length := by
              rw [show (freshPart posLimit stmt.buffer.length "LIMIT ?" "" [v]).bufHigh
                  = stmt.buffer.length + (freshText "LIMIT ?" "").length from rfl, htext]
            rw [this, hbh, extract_append_self]
          · rfl
      · exfalso
        have := mem_partsGT_gt stmt.parts posLimit hs c hcGT
        omega
    · rw [hshape]

/-- The statement of the repo's `TestLimit` scenario:
`FROM items SELECT id WHERE id > ?`. -/
def limitWitnessStmt : Stmt :=
  (((emptyStmt Dialect.defaultDialect).fromTable "items" []).select "id" []).whereCond
    "id > ?" [Val.int 42]

/-- Witness for C4 on the repo's own `TestLimit` scenario: three `Limit`
calls collapse to a single one bound to the last value. -/
theorem singleton_limit_replace_check :
    [Val.int 11, Val.int 20].foldl Stmt.limit (limitWitnessStmt.limit (Val.int 10))
        = limitWitnessStmt.limit (Val.int 20) ∧
    (limitWitnessStmt.limit (Val.int 10)).buffer
        = limitWitnessStmt.buffer ++ "LIMIT ?".data ∧
    (limitWitnessStmt.limit (Val.int 20)).args = [Val.int 42, Val.int 20] :=
  ⟨(singleton_limit_replace limitWitnessStmt ((chainLE_iff _).mp (by decide))
      (Val.int 10) [Val.int 11, Val.int 20]).1,
    ((singleton_limit_replace limitWitnessStmt ((chainLE_iff _).mp (by decide))
      (Val.int 10) []).2 (by decide)).2.2.1,
    by decide⟩

/-! ### C6 — numbered markers `$1, $2, ...` across a whole render pass

The rewritten output of `writePostgresql` is characterized structurally: it
is the text's literal segments (escapes resolved) interleaved with the
markers `$n, $(n+1), ...` in order. Chaining this through the render loop
shows the whole `String()` output is its literal segments interleaved with
exactly `$1 ... $k`. -/

/-- Prepend a character to the first segment. -/
def consHead (c : Char) : List (List Char) → List (List Char)
  | [] => [[c]]
  | t :: ts => (c :: t) :: ts

/-- The literal segments of a piece of text: the texts between consecutive
non-escaped markers, with escape sequences resolved to a literal `?`. -/
def segments : List Char → List (List Char)
  | [] => [[]]
  | '\\' :: '?' :: rest => consHead '?' (segments rest)
  | '?' :: rest => [] :: segments rest
  | c :: rest => consHead c (segments rest)

/-- Interleave segments with the markers `$n, $(n+1), ...`. -/
def joinWith : Nat → List (List Char) → List Char
  | _, [] => []
  | _, [t] => t
  | n, t :: ts => t ++ dollarMark n ++ joinWith (n + 1) ts

theorem segments_ne_nil (s : List Char) : segments s ≠ [] := by
  induction s using segments.induct with
  | case1 => simp [segments]
  | case2 rest ih =>
    rw [segments]
    rcases h : segments rest with _ | ⟨t, ts⟩
    · simp [consHead]
    · simp [consHead]
  | case3 rest ih => simp [segments]
  | case4 c rest h1 h2 ih =>
    rw [segments.eq_4 c rest h1 h2]
    rcases h : segments rest with _ | ⟨t, ts⟩
    · simp [consHead]
    · simp [consHead]

theorem joinWith_cons_ne (n : Nat) (t : List Char) (ts : List (List Char))
    (h : ts ≠ []) : joinWith n (t :: ts) = t ++ dollarMark n ++ joinWith (n + 1) ts := by
  rcases ts with _ | ⟨u, us⟩
  · exact absurd rfl h
  · rfl

theorem joinWith_consHead (n : Nat) (c : Char) (S : List (List Char)) (h : S ≠ []) :
    joinWith n (consHead c S) = c :: joinWith n S := by
  rcases S with _ | ⟨t, ts⟩
  · exact absurd rfl h
  · rcases ts with _ | ⟨u, us⟩
    · rfl
    · rfl

theorem consHead_length (c : Char) (S : List (List Char)) (h : S ≠ []) :
    (consHead c S).length = S.length := by
  rcases S with _ | ⟨t, ts⟩
  · exact absurd rfl h
  · rfl

theorem segments_length (s : List Char) :
    (segments s).length = countMarkers s + 1 := by
  induction s using segments.induct with
  | case1 => rfl
  | case2 rest ih =>
    rw [segments, consHead_length _ _ (segments_ne_nil rest), ih]
    rfl
  | case3 rest ih =>
    rw [segments]
    simp only [List.length_cons, ih, countMarkers]
  | case4 c rest h1 h2 ih =>
    rw [segments.eq_4 c rest h1 h2, consHead_length _ _ (segments_ne_nil rest), ih,
      countMarkers.eq_4 c rest h1 h2]

/-- The structural form of the numbered-marker rewrite: literal segments
interleaved with consecutive markers starting at the incoming counter. -/
theorem wp_eq_joinWith (n : Nat) (s : List Char) :
    writePostgresql n s = (n + countMarkers s, joinWith n (segments s)) := by
  induction n, s using writePostgresql.induct with
  | case1 n => rfl
  | case2 n rest ih =>
    rw [writePostgresql, segments, ih,
      joinWith_consHead n '?' (segments rest) (segments_ne_nil rest)]
    rfl
  | case3 n rest ih =>
    rw [writePostgresql, segments, ih,
      joinWith_cons_ne n [] (segments rest) (segments_ne_nil rest)]
    have h1 : n + 1 + countMarkers rest = n + countMarkers ('?' :: rest) := by
      rw [countMarkers]
      omega
    rw [h1]
    rfl
  | case4 n c rest h1 h2 ih =>
    rw [writePostgresql.eq_4 n c rest h1 h2, segments.eq_4 c rest h1 h2, ih,
      joinWith_consHead n c (segments rest) (segments_ne_nil rest),
      countMarkers.eq_4 c rest h1 h2]

/-- Concatenate two segment lists at the boundary. -/
def joinSegs : List (List Char) → List (List Char) → List (List Char)
  | [], ys => ys
  | [x], [] => [x]
  | [x], y :: ys => (x ++ y) :: ys
  | x :: xs, ys => x :: joinSegs xs ys

theorem joinSegs_ne_nil (xs ys : List (List Char)) (hx : xs ≠ []) :
    joinSegs xs ys ≠ [] := by
  rcases xs with _ | ⟨x, xs⟩
  · exact absurd rfl hx
  · rcases xs with _ | ⟨x2, xs2⟩
    · rcases ys with _ | ⟨y, ys⟩ <;> simp [joinSegs]
    · simp [joinSegs]

theorem joinSegs_length (xs ys : List (List Char)) (hx : xs ≠ []) (hy : ys ≠ []) :
    (joinSegs xs ys).length = xs.length + ys.length - 1 := by
  induction xs with
  | nil => exact absurd rfl hx
  | cons x xs ih =>
    rcases xs with _ | ⟨x2, xs2⟩
    · rcases ys with _ | ⟨y, ys⟩
      · exact absurd rfl hy
      · simp [joinSegs]
    · rw [show joinSegs (x :: x2 :: xs2) ys = x :: joinSegs (x2 :: xs2) ys from rfl]
      rw [List.length_cons, ih (by simp)]
      have : (x2 :: xs2).length + ys.length - 1 ≥ 1 := by
        rcases ys with _ | ⟨y, ys⟩
        · exact absurd rfl hy
        · simp
          omega
      simp only [List.length_cons]
      omega

theorem joinWith_joinSegs (n : Nat) (xs ys : List (List Char))
    (hx : xs ≠ []) (hy : ys ≠ []) :
    joinWith n (joinSegs xs ys)
      = joinWith n xs ++ joinWith (n + (xs.length - 1)) ys := by
  induction xs generalizing n with
  | nil => exact absurd rfl hx
  | cons x xs ih =>
    rcases xs with _ | ⟨x2, xs2⟩
    · rcases ys with _ | ⟨y, ys⟩
      · exact absurd rfl hy
      · rw [show joinSegs [x] (y :: ys) = (x ++ y) :: ys from rfl]
        rcases ys with _ | ⟨y2, ys2⟩
        · rfl
        · rw [joinWith_cons_ne n (x ++ y) (y2 :: ys2) (by simp),
            joinWith_cons_ne (n + ([x].length - 1)) y (y2 :: ys2) (by simp)]
          simp [joinWith, List.append_assoc]
    · rw [show joinSegs (x :: x2 :: xs2) ys = x :: joinSegs (x2 :: xs2) ys from rfl]
      rw [joinWith_cons_ne n x (joinSegs (x2 :: xs2) ys)
        (joinSegs_ne_nil _ _ (by simp))]
      rw [ih (n + 1) (by simp)]
      rw [joinWith_cons_ne n x (x2 :: xs2) (by simp)]
      have h1 : n + 1 + ((x2 :: xs2).length - 1)
          = n + ((x :: x2 :: xs2).length - 1) := by
        simp only [List.length_cons]
        omega
      rw [h1]
      simp [List.append_assoc]

/-- Segment view of what one part contributes to the render pass. -/
def partSegs (d : Dialect) (buffer : List Char) (p : StatementPart) :
    List (List Char) :=
  if p.argLen > 0 ∧ d = Dialect.postgreSQL then
    segments (extract buffer p.bufLow p.bufHigh)
  else [extract buffer p.bufLow p.bufHigh]

/-- Segment view of the whole render pass, separating spaces included. -/
def renderSegs (d : Dialect) (buffer : List Char) :
    List StatementPart → Int → Bool → List (List Char)
  | [], _, _ => [[]]
  | part :: rest, pos, first =>
    let sp : List Char := if first = false ∧ part.position > pos then [' '] else []
    joinSegs (joinSegs [sp] (partSegs d buffer part))
      (renderSegs d buffer rest part.position false)

theorem partSegs_ne_nil (d : Dialect) (buffer : List Char) (p : StatementPart) :
    partSegs d buffer p ≠ [] := by
  unfold partSegs
  split
  · exact segments_ne_nil _
  · simp

theorem renderSegs_ne_nil (d : Dialect) (buffer : List Char)
    (parts : List StatementPart) (pos : Int) (first : Bool) :
    renderSegs d buffer parts pos first ≠ [] := by
  rcases parts with _ | ⟨part, rest⟩
  · simp [renderSegs]
  · rw [renderSegs]
    exact joinSegs_ne_nil _ _ (joinSegs_ne_nil _ _ (by simp))

/-- The render loop is the interleaving of its literal segments with the
consecutive markers starting at the incoming counter. -/
theorem renderLoop_eq_joinWith (d : Dialect) (buffer : List Char) :
    ∀ (parts : List StatementPart) (pos : Int) (argNo : Nat) (first : Bool),
    renderLoop d buffer parts pos argNo first
      = joinWith argNo (renderSegs d buffer parts pos first) := by
  intro parts
  induction parts with
  | nil => intro pos argNo first; rfl
  | cons part rest ih =>
    intro pos argNo first
    rw [renderLoop, renderSegs]
    rw [joinWith_joinSegs argNo _ _
      (joinSegs_ne_nil _ _ (by simp)) (renderSegs_ne_nil _ _ _ _ _)]
    rw [joinWith_joinSegs argNo [_] (partSegs d buffer part) (by simp)
      (partSegs_ne_nil _ _ _)]
    rw [joinSegs_length [_] (partSegs d buffer part) (by simp)
      (partSegs_ne_nil _ _ _)]
    by_cases hc : part.argLen > 0 ∧ d = Dialect.postgreSQL
    · rw [if_pos hc]
      unfold partSegs
      rw [if_pos hc]
      have hw1 : (writePostgresql argNo (extract buffer part.bufLow part.bufHigh)).1
          = argNo + countMarkers (extract buffer part.bufLow part.bufHigh) :=
        wp_fst argNo _
      have hw2 : (writePostgresql argNo (extract buffer part.bufLow part.bufHigh)).2
          = joinWith argNo (segments (extract buffer part.bufLow part.bufHigh)) := by
        rw [wp_eq_joinWith]
      rw [hw1, hw2]
      rw [ih part.position (argNo + countMarkers (extract buffer part.bufLow part.bufHigh)) false]
      rw [segments_length]
      simp only [List.length_singleton]
      have h1 : argNo + (1 + (countMarkers (extract buffer part.bufLow part.bufHigh) + 1) - 1 - 1)
          = argNo + countMarkers (extract buffer part.bufLow part.bufHigh) := by omega
      rw [h1]
      simp [joinWith, List.append_assoc]
    · rw [if_neg hc]
      unfold partSegs
      rw [if_neg hc]
      rw [ih part.position argNo false]
      simp only [List.length_singleton]
      have h1 : argNo + (1 + 1 - 1 - 1) = argNo := by omega
      rw [h1]
      simp [joinWith, List.append_assoc]

/-- Total number of segments of a render pass: one more than the total
parameter count, given each fragment's marker count matches its `argLen`. -/
theorem renderSegs_length (buffer : List Char) :
    ∀ (parts : List StatementPart) (pos : Int) (first : Bool),
    (∀ c ∈ parts, countMarkers (extract buffer c.bufLow c.bufHigh) = c.argLen) →
    (renderSegs Dialect.postgreSQL buffer parts pos first).length
      = argsTail parts + 1 := by
  intro parts
  induction parts with
  | nil => intro pos first _; rfl
  | cons part rest ih =>
    intro pos first hm
    rw [renderSegs]
    rw [joinSegs_length _ _ (joinSegs_ne_nil _ _ (by simp))
      (renderSegs_ne_nil _ _ _ _ _)]
    rw [joinSegs_length [_] (partSegs Dialect.postgreSQL buffer part) (by simp)
      (partSegs_ne_nil _ _ _)]
    rw [ih part.position false (fun c hc => hm c (by simp [hc]))]
    have hps : (partSegs Dialect.postgreSQL buffer part).length = part.argLen + 1 := by
      unfold partSegs
      by_cases hc : part.argLen > 0 ∧ Dialect.postgreSQL = Dialect.postgreSQL
      · rw [if_pos hc, segments_length, hm part (by simp)]
      · rw [if_neg hc]
        have : part.argLen = 0 := by
          rcases Nat.eq_zero_or_pos part.argLen with h | h
          · exact h
          · exact absurd ⟨h, rfl⟩ hc
        simp [this]
    rw [hps]
    rw [show argsTail (part :: rest) = part.argLen + argsTail rest from by
      simp [argsTail]]
    simp only [List.length_singleton]
    omega

/-- In the PostgreSQL dialect, the rendered text of any statement whose
fragments own exactly as many non-escaped markers as parameters is its
literal segments interleaved with the markers `$1, $2, ..., $k` in
left-to-right order, where `k` is the parameter count; the single
`joinWith 1` over the whole pass is the shared counter. -/
theorem renderString_markers (stmt : Stmt)
    (hm : ∀ c ∈ stmt.parts,
      countMarkers (extract stmt.buffer c.bufLow c.bufHigh) = c.argLen)
    (ha : stmt.args.length = argsTail stmt.parts)
    (hd : stmt.dialect = Dialect.postgreSQL) :
    renderString stmt
      = joinWith 1 (renderSegs Dialect.postgreSQL stmt.buffer stmt.parts 0 true) ∧
    (renderSegs Dialect.postgreSQL stmt.buffer stmt.parts 0 true).length
      = stmt.args.length + 1 := by
  constructor
  · rw [renderString, hd, renderLoop_eq_joinWith]
  · rw [renderSegs_length stmt.buffer stmt.parts 0 true hm, ha]

/-! ### Buffer and parameter-splice algebra for whole call traces -/

/-- Spans that lie inside the old buffer read the same bytes after an append. -/
theorem extract_within (b t : List Char) (low high : Nat) (h : high ≤ b.length) :
    extract (b ++ t) low high = extract b low high := by
  unfold extract
  rcases le_or_lt low b.length with hl | hl
  · rw [List.drop_append_of_le_length hl,
      List.take_append_of_le_length (by simp; omega)]
  · have h0 : high - low = 0 := by omega
    simp [h0]

/-- A span reaching from inside the old buffer to the end of the appended
bytes reads the old tail followed by the appended bytes. -/
theorem extract_extend (b u : List Char) (low : Nat) (h : low ≤ b.length) :
    extract (b ++ u) low (b.length + u.length) = extract b low b.length ++ u := by
  unfold extract
  rw [List.drop_append_of_le_length h,
    List.take_of_length_le (by simp; omega),
    List.take_of_length_le (by simp)]

theorem getD_middle {α : Type} [Inhabited α] (l : List α) (a : α) (r : List α) :
    (l ++ a :: r).getD l.length default = a := by
  induction l with
  | nil => rfl
  | cons x xs ih => simpa [List.getD_cons_succ] using ih

theorem set_getD_self {α : Type} [Inhabited α] (l : List α) (n : Nat)
    (h : n < l.length) : l.set n (l.getD n default) = l := by
  induction l generalizing n with
  | nil => simp at h
  | cons x xs ih =>
    cases n with
    | zero => rfl
    | succ m =>
      simp only [List.getD_cons_succ, List.set]
      rw [ih m (by simpa using h)]

theorem split3 {α : Type} [Inhabited α] (l : List α) (j : Nat) (hj : j < l.length) :
    l = l.take j ++ [l.getD j default] ++ l.drop (j + 1) := by
  induction l generalizing j with
  | nil => simp at hj
  | cons x xs ih =>
    cases j with
    | zero => simp
    | succ m =>
      simp only [List.take_succ_cons, List.getD_cons_succ, List.drop_succ_cons,
        List.cons_append]
      rw [← ih m (by simpa using hj)]

theorem flatten_split (L : List (List Val)) (k : Nat) :
    L.flatten = (L.take k).flatten ++ (L.drop k).flatten := by
  rw [← List.flatten_append, List.take_append_drop]

/-- Splicing a run of values at a boundary between ledger entries is the same
as inserting a fresh ledger entry there. -/
theorem insertAt_flatten (L : List (List Val)) (vs : List Val) (k : Nat) :
    insertAt L.flatten vs (L.take k).flatten.length
      = (L.take k ++ [vs] ++ L.drop k).flatten := by
  unfold insertAt
  rw [flatten_split L k, List.take_left, List.drop_left]
  simp [List.flatten_append]

/-- Go `copy` with enough room on the destination side: overwrite
`s.length` slots starting at `i`. -/
theorem copyAt_splice (a s : List Val) (i : Nat) (h : i + s.length ≤ a.length) :
    copyAt a s i = a.take i ++ s ++ a.drop (i + s.length) := by
  unfold copyAt
  have hd : (a.drop i).drop s.length = a.drop (i + s.length) := by
    rw [List.drop_drop]
  rw [List.take_of_length_le (by omega : s.length ≤ a.length - i), hd]

/-- Overwriting the first `vs.length` slots of ledger entry `j` in place,
seen on the flattened parameter list. -/
theorem copyAt_flatten_set (L : List (List Val)) (vs : List Val) (j : Nat)
    (hj : j < L.length) (hlen : vs.length ≤ (L.getD j []).length) :
    copyAt L.flatten vs (L.take j).flatten.length
      = (L.set j (vs ++ (L.getD j []).drop vs.length)).flatten := by
  have hd : (L.getD j ([] : List Val)) = L.getD j default := rfl
  have hL : L = L.take j ++ L.getD j default :: L.drop (j + 1) := by
    have := split3 L j hj
    simpa using this
  have htk : (L.take j).length = j := by simp; omega
  have hflat : L.flatten = (L.take j).flatten
      ++ (L.getD j default ++ (L.drop (j + 1)).flatten) := by
    conv_lhs => rw [hL]
    simp [List.flatten_append]
  rw [copyAt_splice _ _ _ (by
    rw [hflat]
    simp only [List.length_append]
    rw [hd] at hlen
    omega)]
  have e1 : L.flatten.take (L.take j).flatten.length = (L.take j).flatten := by
    rw [hflat]
    exact List.take_left _ _
  have e2 : L.flatten.drop ((L.take j).flatten.length + vs.length)
      = (L.getD j default).drop vs.length ++ (L.drop (j + 1)).flatten := by
    rw [hflat, ← List.drop_drop, List.drop_left]
    rw [List.drop_append_of_le_length (by rw [← hd]; exact hlen)]
  rw [e1, e2]
  have hset : ∀ x : List Val,
      L.set j x = L.take j ++ x :: L.drop (j + 1) := by
    intro x
    conv_lhs => rw [hL]
    have := set_middle (L.take j) (L.getD j default) x (L.drop (j + 1))
    rw [htk] at this
    exact this
  rw [hset]
  simp [List.flatten_append, List.append_assoc]
  rfl

/-- Replacing the middle element by one at the same grammatical position
keeps the list pairwise sorted. -/
theorem pw_replace_middle (l : List StatementPart) (a b : StatementPart)
    (r : List StatementPart) (hpw : PartsPW (l ++ [a] ++ r))
    (hab : b.position = a.position) : PartsPW (l ++ [b] ++ r) := by
  unfold PartsPW at *
  rw [List.append_assoc] at hpw ⊢
  rw [List.pairwise_append] at hpw ⊢
  obtain ⟨h1, h2, h3⟩ := hpw
  rw [List.singleton_append, List.pairwise_cons] at h2 ⊢
  refine ⟨h1, ⟨fun c hc => by have := h2.1 c hc; omega, h2.2⟩, ?_⟩
  intro x hx y hy
  rcases List.mem_cons.mp hy with rfl | hy
  · have := h3 x hx a (by simp)
    omega
  · exact h3 x hx y (by simp [hy])

/-- Inserting a part at its own position between the two halves of the split
keeps the list sorted. -/
theorem sorted_insert_at (parts : List StatementPart) (pos : Int)
    (p : StatementPart) (hs : PartsSorted parts) (hp : p.position = pos) :
    PartsSorted (partsLE parts pos ++ [p] ++ partsGT parts pos) := by
  have hLE : ∀ c ∈ partsLE parts pos, c.position ≤ pos :=
    fun c hc => mem_partsLE_le parts pos c hc
  have hGT : ∀ c ∈ partsGT parts pos, pos < c.position :=
    fun c hc => mem_partsGT_gt parts pos hs c hc
  have hpw : PartsPW (partsLE parts pos ++ partsGT parts pos) := by
    rw [partsLE_append_partsGT]
    exact (partsSorted_iff_pw _).mp hs
  exact (partsSorted_iff_pw _).mpr
    (pw_insert_at _ _ _ pos hLE hGT hp
      (List.pairwise_append.mp hpw).1 (List.pairwise_append.mp hpw).2.1)

/-! ### Call traces: the statement and its supplied-value ledger -/

/-- A clause-contributing call: a generic `addPart` invocation (covering
Select/From/Where/Limit/... and with them merges, value refreshes and
non-contiguous same-position inserts), or a sub-statement embedding
(`SubQuery` of statement.go). -/
inductive Op where
  | frag (pos : Int) (clause expr : String) (args : List Val) (sep : String)
  | embed (pre suf : String) (query : Stmt)

/-- The effect of one call on the statement. -/
def applyOp (stmt : Stmt) : Op → Stmt
  | .frag pos clause expr args sep => (addPart stmt pos clause expr args sep).1
  | .embed pre suf query => stmt.subQuery pre suf query

def runOps : Stmt → List Op → Stmt
  | s, [] => s
  | s, op :: ops => runOps (applyOp s op) ops

/-- The grammatical position a call targets (`SubQuery` reuses the
statement's current position, statement.go). -/
def opPos (stmt : Stmt) : Op → Int
  | .frag pos _ _ _ _ => pos
  | .embed _ _ _ => stmt.position

/-- The body text of a call as seen by `addPart` (`SubQuery` passes its
opening text as the body). -/
def opExpr : Op → String
  | .frag _ _ e _ _ => e
  | .embed pre _ _ => pre

/-- The parameter values a call supplies. -/
def opArgs : Op → List Val
  | .frag _ _ _ args _ => args
  | .embed _ _ q => q.args

/-- The bytes `SubQuery` writes after its `addPart` call: the sub-statement's
render in the default dialect, then the closing text (statement.go). -/
def embedTail (query : Stmt) (suf : String) : List Char :=
  stringOf (if query.dialect ≠ Dialect.defaultDialect then
      { query with dialect := Dialect.defaultDialect, sql := none }
    else query) ++ suf.data

/-- `addPart` followed by appending `tail` bytes into the span of the part it
touched — the common shape of a plain call (`tail = []`) and of `SubQuery`
(statement.go writes the sub-render and the closing text into the chunk at
the returned index). -/
def addT (stmt : Stmt) (pos : Int) (clause expr : String) (args : List Val)
    (sep : String) (tail : List Char) : Stmt :=
  let r := addPart stmt pos clause expr args sep
  let buffer' := r.1.buffer ++ tail
  let chunk := r.1.parts.getD r.2 default
  { r.1 with
      buffer := buffer'
      parts := r.1.parts.set r.2 { chunk with bufHigh := buffer'.length } }

/-- The structural invariant every API-reachable statement maintains: the
fragment list is sorted by position, every span lies inside the buffer, the
parameter-list length matches the fragments' bookkeeping, each fragment's
text owns exactly `argLen` non-escaped markers, and no fragment's text ends
in a lone escape character. -/
structure Inv (stmt : Stmt) : Prop where
  sorted : PartsSorted stmt.parts
  spans : ∀ c ∈ stmt.parts, c.bufLow ≤ c.bufHigh ∧ c.bufHigh ≤ stmt.buffer.length
  argsLen : stmt.args.length = argsTail stmt.parts
  markers : ∀ c ∈ stmt.parts,
    countMarkers (extract stmt.buffer c.bufLow c.bufHigh) = c.argLen
  noTrailBS : ∀ c ∈ stmt.parts,
    (extract stmt.buffer c.bufLow c.bufHigh).getLast? ≠ some '\\'
  cacheOk : stmt.sql = none ∨ stmt.sql = some (renderString stmt)

/-- The supplied-value ledger: entry `j` holds, in marker order, the values
supplied by the calls that wrote fragment `j`'s markers (the spec's
"Parameters[i] is the value for the i-th placeholder encountered during a
left-to-right Render Pass"). `Corr` ties the ledger to the statement: the
flat parameter list is its in-order concatenation, entry by fragment, and
each fragment's `argLen` counts its entry. -/
structure Corr (stmt : Stmt) (vals : List (List Val)) : Prop where
  counts : stmt.parts.map (fun c => c.argLen) = vals.map List.length
  flat : stmt.args = vals.flatten

/-- How one call updates the supplied-value ledger: a fresh insert or a
non-contiguous split adds a new entry at the call's position, a contiguous
merge appends the values to the matched fragment's entry, and a value-only
refresh overwrites the leading slots of that entry in place. -/
def valsStep (stmt : Stmt) (vals : List (List Val)) (op : Op) : List (List Val) :=
  let pos := opPos stmt op
  let vs := opArgs op
  let k := (partsLE stmt.parts pos).length
  if NoPartAt stmt.parts pos then vals.take k ++ [vs] ++ vals.drop k
  else if opExpr op = "" then
    vals.set (k - 1) (vs ++ (vals.getD (k - 1) []).drop vs.length)
  else if ((partsLE stmt.parts pos).getLast?.getD default).bufHigh
      = stmt.buffer.length then
    vals.set (k - 1) (vals.getD (k - 1) [] ++ vs)
  else vals.take k ++ [vs] ++ vals.drop k

def runVals : Stmt → List (List Val) → List Op → List (List Val)
  | _, vals, [] => vals
  | s, vals, op :: ops => runVals (applyOp s op) (valsStep s vals op) ops

/-- Preconditions of one `addPart`-shaped call (with `tail` appended into the
touched part): the text written for the call owns exactly as many non-escaped
markers as supplied values and does not end in a lone escape character; a
value-only refresh supplies at most as many values as the matched fragment
owns and appends nothing. -/
def wfAdd (stmt : Stmt) (pos : Int) (clause expr : String) (args : List Val)
    (sep : String) (tail : List Char) : Bool :=
  if NoPartAt stmt.parts pos then
    decide (countMarkers (freshText clause expr ++ tail) = args.length)
      && decide ((freshText clause expr ++ tail).getLast? ≠ some '\\')
  else if expr = "" then
    decide (args.length ≤ ((partsLE stmt.parts pos).getLast?.getD default).argLen)
      && decide (tail = [])
  else
    decide (countMarkers
        (sepText ((partsLE stmt.parts pos).getLast?.getD default) sep
          ++ expr.data ++ tail) = args.length)
      && decide ((sepText ((partsLE stmt.parts pos).getLast?.getD default) sep
          ++ expr.data ++ tail).getLast? ≠ some '\\')

/-- Preconditions of one call in a given state. A sub-statement embedding
must have a non-empty opening text (an empty one would send `addPart` down
the refresh path and then corrupt the matched span). -/
def wfOp (stmt : Stmt) : Op → Bool
  | .frag pos clause expr args sep => wfAdd stmt pos clause expr args sep []
  | .embed pre suf query =>
      decide (pre ≠ "")
        && wfAdd stmt stmt.position "" pre query.args
            (if stmt.position = posWhere then " AND " else ", ")
            (embedTail query suf)

def wfTrace : Stmt → List Op → Bool
  | _, [] => true
  | s, op :: ops => wfOp s op && wfTrace (applyOp s op) ops

theorem not_noPartAt (parts : List StatementPart) (pos : Int)
    (h : ¬ NoPartAt parts pos) :
    ∃ M, (partsLE parts pos).getLast? = some M ∧ M.position = pos := by
  unfold NoPartAt at h
  push_neg at h
  exact h

/-- The fragment a fresh insert leaves behind once `tail` extra bytes went
into its span. -/
def freshPartT (pos : Int) (bufLow : Nat) (clause expr : String)
    (args : List Val) (tailLen : Nat) : StatementPart :=
  { position := pos, bufLow := bufLow,
    bufHigh := bufLow + (freshText clause expr).length + tailLen,
    hasExpr := expr ≠ "", argLen := args.length }

/-- The fragment a non-contiguous split leaves behind once `tail` extra bytes
went into its span. -/
def splitPartT (pos : Int) (bufLow : Nat) (M : StatementPart) (sep expr : String)
    (args : List Val) (tailLen : Nat) : StatementPart :=
  { position := pos, bufLow := bufLow,
    bufHigh := bufLow + ((sepText M sep).length + expr.data.length + tailLen),
    hasExpr := true, argLen := args.length }

/-- The matched fragment as a contiguous merge leaves it once `tail` extra
bytes went into its span. -/
def extendPartT (M : StatementPart) (bufLow : Nat) (sep expr : String)
    (args : List Val) (tailLen : Nat) : StatementPart :=
  { M with
    argLen := M.argLen + args.length,
    bufHigh := bufLow + ((sepText M sep).length + expr.data.length + tailLen),
    hasExpr := true }

theorem addT_fresh (stmt : Stmt) (pos : Int) (clause expr : String)
    (args : List Val) (sep : String) (tail : List Char)
    (hs : PartsSorted stmt.parts) (hno : NoPartAt stmt.parts pos) :
    addT stmt pos clause expr args sep tail =
      { stmt with
          position := pos,
          parts := partsLE stmt.parts pos
            ++ [freshPartT pos stmt.buffer.length clause expr args tail.length]
            ++ partsGT stmt.parts pos,
          buffer := stmt.buffer ++ (freshText clause expr ++ tail),
          args := insertAt stmt.args args
            (stmt.args.length - argsTail (partsGT stmt.parts pos)),
          sql := none } := by
  unfold addT
  rw [addPart_fresh_shape stmt pos clause expr args sep hs hno]
  dsimp only
  have hmid : partsLE stmt.parts pos
        ++ [freshPart pos stmt.buffer.length clause expr args]
        ++ partsGT stmt.parts pos
      = partsLE stmt.parts pos
        ++ freshPart pos stmt.buffer.length clause expr args
          :: partsGT stmt.parts pos := by
    simp
  rw [hmid, getD_middle, set_middle]
  simp only [Stmt.mk.injEq, true_and, and_true, List.append_assoc,
    List.length_append]
  have hrec : ({ freshPart pos stmt.buffer.length clause expr args with
      bufHigh := stmt.buffer.length
        + ((freshText clause expr).length + tail.length) } : StatementPart)
      = freshPartT pos stmt.buffer.length clause expr args tail.length := by
    simp [freshPart, freshPartT, Nat.add_assoc]
  rw [hrec]
  simp

theorem addT_merge (stmt : Stmt) (pos : Int) (clause expr : String)
    (args : List Val) (sep : String) (tail : List Char) (M : StatementPart)
    (hs : PartsSorted stmt.parts)
    (hM : (partsLE stmt.parts pos).getLast? = some M) (hMp : M.position = pos)
    (he : expr ≠ "") (hcont : M.bufHigh = stmt.buffer.length) :
    addT stmt pos clause expr args sep tail =
      { stmt with
          position := pos,
          parts := (partsLE stmt.parts pos).dropLast
            ++ [extendPartT M stmt.buffer.length sep expr args tail.length]
            ++ partsGT stmt.parts pos,
          buffer := stmt.buffer ++ (sepText M sep ++ expr.data ++ tail),
          args := insertAt stmt.args args
            (stmt.args.length - argsTail (partsGT stmt.parts pos)),
          sql := none } := by
  unfold addT
  rw [addPart_merge_shape stmt pos clause expr args sep M hs hM hMp he hcont]
  dsimp only
  have hne : partsLE stmt.parts pos ≠ [] := by
    intro hx
    rw [hx] at hM
    cases hM
  have hlen : (partsLE stmt.parts pos).length - 1
      = ((partsLE stmt.parts pos).dropLast).length := by
    rw [List.length_dropLast]
  have hmid : (partsLE stmt.parts pos).dropLast
        ++ [extendPart M stmt.buffer.length sep expr args]
        ++ partsGT stmt.parts pos
      = (partsLE stmt.parts pos).dropLast
        ++ extendPart M stmt.buffer.length sep expr args
          :: partsGT stmt.parts pos := by
    simp
  rw [hlen, hmid, getD_middle, set_middle]
  simp only [Stmt.mk.injEq, true_and, and_true, List.append_assoc,
    List.length_append]
  have hrec : ({ extendPart M stmt.buffer.length sep expr args with
      bufHigh := stmt.buffer.length
        + ((sepText M sep).length + (expr.data.length + tail.length)) } : StatementPart)
      = extendPartT M stmt.buffer.length sep expr args tail.length := by
    simp [extendPart, extendPartT, Nat.add_assoc]
  rw [hrec]
  simp

theorem addT_split (stmt : Stmt) (pos : Int) (clause expr : String)
    (args : List Val) (sep : String) (tail : List Char) (M : StatementPart)
    (hs : PartsSorted stmt.parts)
    (hM : (partsLE stmt.parts pos).getLast? = some M) (hMp : M.position = pos)
    (he : expr ≠ "") (hcont : M.bufHigh ≠ stmt.buffer.length) :
    addT stmt pos clause expr args sep tail =
      { stmt with
          position := pos,
          parts := partsLE stmt.parts pos
            ++ [splitPartT pos stmt.buffer.length M sep expr args tail.length]
            ++ partsGT stmt.parts pos,
          buffer := stmt.buffer ++ (sepText M sep ++ expr.data ++ tail),
          args := insertAt stmt.args args
            (stmt.args.length - argsTail (partsGT stmt.parts pos)),
          sql := none } := by
  unfold addT
  rw [addPart_split_shape stmt pos clause expr args sep M hs hM hMp he hcont]
  dsimp only
  have hmid : partsLE stmt.parts pos
        ++ [splitPart pos stmt.buffer.length M sep expr args]
        ++ partsGT stmt.parts pos
      = partsLE stmt.parts pos
        ++ splitPart pos stmt.buffer.length M sep expr args
          :: partsGT stmt.parts pos := by
    simp
  rw [hmid, getD_middle, set_middle]
  simp only [Stmt.mk.injEq, true_and, and_true, List.append_assoc,
    List.length_append]
  have hrec : ({ splitPart pos stmt.buffer.length M sep expr args with
      bufHigh := stmt.buffer.length
        + ((sepText M sep).length + (expr.data.length + tail.length)) } : StatementPart)
      = splitPartT pos stmt.buffer.length M sep expr args tail.length := by
    simp [splitPart, splitPartT, Nat.add_assoc]
  rw [hrec]
  simp

/-- Every per-fragment fact of the invariant survives appending bytes to the
buffer, for fragments whose span lies in the old buffer. -/
theorem inv_extend_core (stmt : Stmt) (hI : Inv stmt) (u : List Char)
    (c : StatementPart) (hc : c ∈ stmt.parts) :
    (c.bufLow ≤ c.bufHigh ∧ c.bufHigh ≤ (stmt.buffer ++ u).length) ∧
    countMarkers (extract (stmt.buffer ++ u) c.bufLow c.bufHigh) = c.argLen ∧
    (extract (stmt.buffer ++ u) c.bufLow c.bufHigh).getLast? ≠ some '\\' := by
  have hsp := hI.spans c hc
  have hw := extract_within stmt.buffer u c.bufLow c.bufHigh hsp.2
  refine ⟨⟨hsp.1, by simp; omega⟩, by rw [hw]; exact hI.markers c hc,
    by rw [hw]; exact hI.noTrailBS c hc⟩

theorem argsTail_split (parts : List StatementPart) (pos : Int) :
    argsTail parts = argsTail (partsLE parts pos) + argsTail (partsGT parts pos) := by
  rw [← argsTail_append, partsLE_append_partsGT]

/-- The ledger's prefix and suffix at a position boundary mirror the
fragment-list split. -/
theorem corr_take_drop (stmt : Stmt) (vals : List (List Val)) (pos : Int)
    (hC : Corr stmt vals) :
    (vals.take (partsLE stmt.parts pos).length).map List.length
        = (partsLE stmt.parts pos).map (fun c => c.argLen)
    ∧ (vals.drop (partsLE stmt.parts pos).length).map List.length
        = (partsGT stmt.parts pos).map (fun c => c.argLen) := by
  have hm : (partsLE stmt.parts pos).map (fun c => c.argLen)
      ++ (partsGT stmt.parts pos).map (fun c => c.argLen) = vals.map List.length := by
    rw [← List.map_append, partsLE_append_partsGT]
    exact hC.counts
  have hk : ((partsLE stmt.parts pos).map (fun c => c.argLen)).length
      = (partsLE stmt.parts pos).length := by simp
  constructor
  · rw [List.map_take, ← hm]
    exact List.take_left' hk
  · rw [List.map_drop, ← hm]
    exact List.drop_left' hk

/-- The parameter-splice offset `len(args) - argTail` is the boundary after
the ledger's prefix at the call's position. -/
theorem corr_offset (stmt : Stmt) (vals : List (List Val)) (pos : Int)
    (hC : Corr stmt vals) :
    (vals.take (partsLE stmt.parts pos).length).flatten.length
        = argsTail (partsLE stmt.parts pos)
    ∧ stmt.args.length - argsTail (partsGT stmt.parts pos)
        = (vals.take (partsLE stmt.parts pos).length).flatten.length := by
  have h1 := (corr_take_drop stmt vals pos hC).1
  have hf : (vals.take (partsLE stmt.parts pos).length).flatten.length
      = argsTail (partsLE stmt.parts pos) := by
    rw [List.length_flatten, h1]
    rfl
  refine ⟨hf, ?_⟩
  have hlen : stmt.args.length = argsTail stmt.parts := by
    rw [hC.flat, List.length_flatten, ← hC.counts]
    rfl
  rw [hf, hlen, argsTail_split stmt.parts pos]
  omega

theorem mem_insert_split (LE GT : List StatementPart) (p c : StatementPart)
    (hc : c ∈ LE ++ [p] ++ GT) : c = p ∨ c ∈ LE ++ GT := by
  simp only [List.mem_append, List.mem_singleton] at hc ⊢
  tauto

/-- Preservation along the fresh-insert path. -/
theorem preserve_fresh (stmt : Stmt) (vals : List (List Val)) (pos : Int)
    (clause expr : String) (args : List Val) (sep : String) (tail : List Char)
    (hI : Inv stmt) (hC : Corr stmt vals) (hno : NoPartAt stmt.parts pos)
    (hcm : countMarkers (freshText clause expr ++ tail) = args.length)
    (hbs : (freshText clause expr ++ tail).getLast? ≠ some '\\') :
    Inv (addT stmt pos clause expr args sep tail)
    ∧ Corr (addT stmt pos clause expr args sep tail)
        (vals.take (partsLE stmt.parts pos).length ++ [args]
          ++ vals.drop (partsLE stmt.parts pos).length) := by
  rw [addT_fresh stmt pos clause expr args sep tail hI.sorted hno]
  have hmemold : ∀ c, c ∈ partsLE stmt.parts pos ++ partsGT stmt.parts pos
      → c ∈ stmt.parts := by
    intro c hc
    rw [partsLE_append_partsGT] at hc
    exact hc
  have hfp : extract (stmt.buffer ++ (freshText clause expr ++ tail))
      stmt.buffer.length
      (stmt.buffer.length + (freshText clause expr).length + tail.length)
      = freshText clause expr ++ tail := by
    have harith : stmt.buffer.length + (freshText clause expr).length + tail.length
        = stmt.buffer.length + (freshText clause expr ++ tail).length := by
      simp [Nat.add_assoc]
    rw [harith, extract_extend stmt.buffer (freshText clause expr ++ tail)
      stmt.buffer.length (le_refl _)]
    simp [extract]
  refine ⟨⟨?_, ?_, ?_, ?_, ?_, Or.inl rfl⟩, ?_, ?_⟩
  · exact sorted_insert_at stmt.parts pos _ hI.sorted rfl
  · intro c hc
    dsimp only at hc ⊢
    rcases mem_insert_split _ _ _ _ hc with rfl | hold
    · exact ⟨by simp only [freshPartT, List.length_append]; omega,
        by simp only [freshPartT, List.length_append]; omega⟩
    · exact (inv_extend_core stmt hI _ c (hmemold c hold)).1
  · dsimp only
    rw [insertAt_length, argsTail_append, argsTail_append]
    have h1 : argsTail [freshPartT pos stmt.buffer.length clause expr args tail.length]
        = args.length := by
      simp [argsTail, freshPartT]
    have h2 := hI.argsLen
    rw [argsTail_split stmt.parts pos] at h2
    rw [h1]
    omega
  · intro c hc
    dsimp only at hc ⊢
    rcases mem_insert_split _ _ _ _ hc with rfl | hold
    · show countMarkers (extract _ stmt.buffer.length
        (stmt.buffer.length + (freshText clause expr).length + tail.length)) = _
      rw [hfp]
      simpa [freshPartT] using hcm
    · exact (inv_extend_core stmt hI _ c (hmemold c hold)).2.1
  · intro c hc
    dsimp only at hc ⊢
    rcases mem_insert_split _ _ _ _ hc with rfl | hold
    · show (extract _ stmt.buffer.length
        (stmt.buffer.length + (freshText clause expr).length + tail.length)).getLast?
          ≠ some '\\'
      rw [hfp]
      exact hbs
    · exact (inv_extend_core stmt hI _ c (hmemold c hold)).2.2
  · dsimp only
    simp only [List.map_append]
    rw [(corr_take_drop stmt vals pos hC).1, (corr_take_drop stmt vals pos hC).2]
    simp [freshPartT]
  · dsimp only
    rw [(corr_offset stmt vals pos hC).2, hC.flat, insertAt_flatten]

theorem getLast?_decomp {α : Type} (l : List α) (a : α) (h : l.getLast? = some a) :
    l = l.dropLast ++ [a] := by
  obtain ⟨l', hl⟩ := List.getLast?_eq_some_iff.mp h
  rw [hl, List.dropLast_concat]

theorem take_succ_getD {α : Type} [Inhabited α] (l : List α) (j : Nat)
    (hj : j < l.length) : l.take (j + 1) = l.take j ++ [l.getD j default] := by
  induction l generalizing j with
  | nil => simp at hj
  | cons x xs ih =>
    cases j with
    | zero => rfl
    | succ m =>
      simp only [List.take_succ_cons, List.getD_cons_succ]
      rw [ih m (by simpa using hj)]
      rfl

theorem getD_map_length (L : List (List Val)) (j : Nat) (hj : j < L.length) :
    (L.map List.length).getD j 0 = (L.getD j []).length := by
  induction L generalizing j with
  | nil => simp at hj
  | cons x xs ih =>
    cases j with
    | zero => rfl
    | succ m =>
      simp only [List.map_cons, List.getD_cons_succ]
      exact ih m (by simpa using hj)

/-- Appending values to ledger entry `j` in place is the same as inserting a
fresh entry right after it, once the ledger is flattened. -/
theorem flatten_set_append (L : List (List Val)) (vs : List Val) (j : Nat)
    (hj : j < L.length) :
    (L.set j (L.getD j [] ++ vs)).flatten
      = (L.take (j + 1) ++ [vs] ++ L.drop (j + 1)).flatten := by
  have hL : L = L.take j ++ L.getD j default :: L.drop (j + 1) := by
    have := split3 L j hj
    simpa using this
  have htk : (L.take j).length = j := by simp; omega
  have hset : ∀ x : List Val, L.set j x = L.take j ++ x :: L.drop (j + 1) := by
    intro x
    conv_lhs => rw [hL]
    have := set_middle (L.take j) (L.getD j default) x (L.drop (j + 1))
    rw [htk] at this
    exact this
  rw [hset, take_succ_getD L j hj]
  simp [List.flatten_append, List.append_assoc]
  rfl

/-- What the `Corr` relation says at a matched fragment: the ledger entry at
the matched index counts the fragment's parameters and the boundary before
it is the parameter offset of the scan. -/
theorem corr_matched (stmt : Stmt) (vals : List (List Val)) (pos : Int)
    (M : StatementPart) (hC : Corr stmt vals)
    (hM : (partsLE stmt.parts pos).getLast? = some M) :
    (partsLE stmt.parts pos).length - 1 < vals.length
    ∧ (vals.getD ((partsLE stmt.parts pos).length - 1) []).length = M.argLen
    ∧ (vals.take ((partsLE stmt.parts pos).length - 1)).flatten.length
        = argsTail ((partsLE stmt.parts pos).dropLast) := by
  have hdec := getLast?_decomp _ _ hM
  have hmap : vals.map List.length
      = ((partsLE stmt.parts pos).dropLast).map (fun c => c.argLen)
        ++ M.argLen :: (partsGT stmt.parts pos).map (fun c => c.argLen) := by
    rw [← hC.counts]
    conv_lhs => rw [← partsLE_append_partsGT stmt.parts pos, hdec]
    simp
  have hj : ((partsLE stmt.parts pos).dropLast).length
      = (partsLE stmt.parts pos).length - 1 := by
    rw [List.length_dropLast]
  have hvlen : vals.length = ((partsLE stmt.parts pos).dropLast).length
      + 1 + (partsGT stmt.parts pos).length := by
    have h := congrArg List.length hmap
    simp at h
    omega
  have hjm : (((partsLE stmt.parts pos).dropLast).map (fun c => c.argLen)).length
      = (partsLE stmt.parts pos).length - 1 := by
    rw [List.length_map, hj]
  refine ⟨by omega, ?_, ?_⟩
  · have hg : (vals.map List.length).getD ((partsLE stmt.parts pos).length - 1) 0
        = M.argLen := by
      rw [hmap]
      rw [← hjm]
      exact getD_middle _ _ _
    rw [getD_map_length vals _ (by omega)] at hg
    exact hg
  · have ht : (vals.take ((partsLE stmt.parts pos).length - 1)).map List.length
        = ((partsLE stmt.parts pos).dropLast).map (fun c => c.argLen) := by
      rw [List.map_take, hmap, ← hjm]
      exact List.take_left _ _
    rw [List.length_flatten, ht]
    rfl

/-- Preservation along the non-contiguous split path. -/
theorem preserve_split (stmt : Stmt) (vals : List (List Val)) (pos : Int)
    (clause expr : String) (args : List Val) (sep : String) (tail : List Char)
    (M : StatementPart) (hI : Inv stmt) (hC : Corr stmt vals)
    (hM : (partsLE stmt.parts pos).getLast? = some M) (hMp : M.position = pos)
    (he : expr ≠ "") (hcont : M.bufHigh ≠ stmt.buffer.length)
    (hcm : countMarkers (sepText M sep ++ expr.data ++ tail) = args.length)
    (hbs : (sepText M sep ++ expr.data ++ tail).getLast? ≠ some '\\') :
    Inv (addT stmt pos clause expr args sep tail)
    ∧ Corr (addT stmt pos clause expr args sep tail)
        (vals.take (partsLE stmt.parts pos).length ++ [args]
          ++ vals.drop (partsLE stmt.parts pos).length) := by
  rw [addT_split stmt pos clause expr args sep tail M hI.sorted hM hMp he hcont]
  have hmemold : ∀ c, c ∈ partsLE stmt.parts pos ++ partsGT stmt.parts pos
      → c ∈ stmt.parts := by
    intro c hc
    rw [partsLE_append_partsGT] at hc
    exact hc
  have hfp : extract (stmt.buffer ++ (sepText M sep ++ expr.data ++ tail))
      stmt.buffer.length
      (stmt.buffer.length
        + ((sepText M sep).length + expr.data.length + tail.length))
      = sepText M sep ++ expr.data ++ tail := by
    have harith : stmt.buffer.length
          + ((sepText M sep).length + expr.data.length + tail.length)
        = stmt.buffer.length + (sepText M sep ++ expr.data ++ tail).length := by
      simp [Nat.add_assoc]
    rw [harith, extract_extend stmt.buffer _ stmt.buffer.length (le_refl _)]
    simp [extract]
  refine ⟨⟨?_, ?_, ?_, ?_, ?_, Or.inl rfl⟩, ?_, ?_⟩
  · exact sorted_insert_at stmt.parts pos _ hI.sorted rfl
  · intro c hc
    dsimp only at hc ⊢
    rcases mem_insert_split _ _ _ _ hc with rfl | hold
    · exact ⟨by simp only [splitPartT, List.length_append]; omega,
        by simp only [splitPartT, List.length_append]; omega⟩
    · exact (inv_extend_core stmt hI _ c (hmemold c hold)).1
  · dsimp only
    rw [insertAt_length, argsTail_append, argsTail_append]
    have h1 : argsTail [splitPartT pos stmt.buffer.length M sep expr args tail.length]
        = args.length := by
      simp [argsTail, splitPartT]
    have h2 := hI.argsLen
    rw [argsTail_split stmt.parts pos] at h2
    rw [h1]
    omega
  · intro c hc
    dsimp only at hc ⊢
    rcases mem_insert_split _ _ _ _ hc with rfl | hold
    · show countMarkers (extract _ stmt.buffer.length
        (stmt.buffer.length
          + ((sepText M sep).length + expr.data.length + tail.length))) = _
      rw [hfp]
      simpa [splitPartT] using hcm
    · exact (inv_extend_core stmt hI _ c (hmemold c hold)).2.1
  · intro c hc
    dsimp only at hc ⊢
    rcases mem_insert_split _ _ _ _ hc with rfl | hold
    · show (extract _ stmt.buffer.length
        (stmt.buffer.length
          + ((sepText M sep).length + expr.data.length + tail.length))).getLast?
          ≠ some '\\'
      rw [hfp]
      exact hbs
    · exact (inv_extend_core stmt hI _ c (hmemold c hold)).2.2
  · dsimp only
    simp only [List.map_append]
    rw [(corr_take_drop stmt vals pos hC).1, (corr_take_drop stmt vals pos hC).2]
    simp [splitPartT]
  · dsimp only
    rw [(corr_offset stmt vals pos hC).2, hC.flat, insertAt_flatten]

/-- Preservation along the contiguous merge path. -/
theorem preserve_merge (stmt : Stmt) (vals : List (List Val)) (pos : Int)
    (clause expr : String) (args : List Val) (sep : String) (tail : List Char)
    (M : StatementPart) (hI : Inv stmt) (hC : Corr stmt vals)
    (hM : (partsLE stmt.parts pos).getLast? = some M) (hMp : M.position = pos)
    (he : expr ≠ "") (hcont : M.bufHigh = stmt.buffer.length)
    (hcm : countMarkers (sepText M sep ++ expr.data ++ tail) = args.length)
    (hbs : (sepText M sep ++ expr.data ++ tail).getLast? ≠ some '\\') :
    Inv (addT stmt pos clause expr args sep tail)
    ∧ Corr (addT stmt pos clause expr args sep tail)
        (vals.set ((partsLE stmt.parts pos).length - 1)
          (vals.getD ((partsLE stmt.parts pos).length - 1) [] ++ args)) := by
  rw [addT_merge stmt pos clause expr args sep tail M hI.sorted hM hMp he hcont]
  have hdec := getLast?_decomp _ _ hM
  have hparts : stmt.parts
      = (partsLE stmt.parts pos).dropLast ++ [M] ++ partsGT stmt.parts pos := by
    conv_lhs => rw [← partsLE_append_partsGT stmt.parts pos, hdec]
  have hMmem : M ∈ stmt.parts := by
    rw [hparts]
    simp
  have hMsp := hI.spans M hMmem
  have hmemold : ∀ c, c ∈ (partsLE stmt.parts pos).dropLast
      ++ partsGT stmt.parts pos → c ∈ stmt.parts := by
    intro c hc
    rw [← partsLE_append_partsGT stmt.parts pos]
    rcases List.mem_append.mp hc with h | h
    · exact List.mem_append.mpr (Or.inl (List.mem_of_mem_dropLast h))
    · exact List.mem_append.mpr (Or.inr h)
  have hune : sepText M sep ++ expr.data ++ tail ≠ [] := by
    intro h0
    have : expr.data = [] := by
      rcases List.append_eq_nil.mp h0 with ⟨h1, _⟩
      exact (List.append_eq_nil.mp h1).2
    exact he (Eq.symm (String.ext (id (Eq.symm this))))
  have harith : stmt.buffer.length
        + ((sepText M sep).length + expr.data.length + tail.length)
      = stmt.buffer.length + (sepText M sep ++ expr.data ++ tail).length := by
    simp [Nat.add_assoc]
  have hext : extract (stmt.buffer ++ (sepText M sep ++ expr.data ++ tail))
      M.bufLow
      (stmt.buffer.length
        + ((sepText M sep).length + expr.data.length + tail.length))
      = extract stmt.buffer M.bufLow M.bufHigh
        ++ (sepText M sep ++ expr.data ++ tail) := by
    rw [harith, extract_extend stmt.buffer _ M.bufLow (by omega)]
    rw [← hcont]
  have hj : (partsLE stmt.parts pos).length - 1 < vals.length :=
    (corr_matched stmt vals pos M hC hM).1
  have hjlen := (corr_matched stmt vals pos M hC hM).2.1
  have hkpos : 1 ≤ (partsLE stmt.parts pos).length := by
    rcases hLEnil : partsLE stmt.parts pos with _ | _
    · rw [hLEnil] at hM
      cases hM
    · simp
  refine ⟨⟨?_, ?_, ?_, ?_, ?_, Or.inl rfl⟩, ?_, ?_⟩
  · have hpw := (partsSorted_iff_pw _).mp hI.sorted
    rw [hparts] at hpw
    exact (partsSorted_iff_pw _).mpr
      (pw_replace_middle _ M _ _ hpw rfl)
  · intro c hc
    dsimp only at hc ⊢
    rcases mem_insert_split _ _ _ _ hc with rfl | hold
    · exact ⟨by simp only [extendPartT, List.length_append]; omega,
        by simp only [extendPartT, List.length_append]; omega⟩
    · exact (inv_extend_core stmt hI _ c (hmemold c hold)).1
  · dsimp only
    rw [insertAt_length, argsTail_append, argsTail_append]
    have h1 : argsTail [extendPartT M stmt.buffer.length sep expr args tail.length]
        = M.argLen + args.length := by
      simp [argsTail, extendPartT]
    have h2 := hI.argsLen
    rw [argsTail_split stmt.parts pos] at h2
    have h3 : argsTail (partsLE stmt.parts pos)
        = argsTail ((partsLE stmt.parts pos).dropLast) + M.argLen := by
      conv_lhs => rw [hdec]
      rw [argsTail_append]
      simp [argsTail]
    rw [h1]
    omega
  · intro c hc
    dsimp only at hc ⊢
    rcases mem_insert_split _ _ _ _ hc with rfl | hold
    · show countMarkers (extract _ (extendPartT M stmt.buffer.length sep expr
          args tail.length).bufLow (extendPartT M stmt.buffer.length sep expr
          args tail.length).bufHigh) = _
      have hlo : (extendPartT M stmt.buffer.length sep expr args tail.length).bufLow
          = M.bufLow := rfl
      have hhi : (extendPartT M stmt.buffer.length sep expr args tail.length).bufHigh
          = stmt.buffer.length
            + ((sepText M sep).length + expr.data.length + tail.length) := by
        simp [extendPartT, Nat.add_assoc]
      rw [hlo, hhi, hext, cm_append _ _ (hI.noTrailBS M hMmem),
        hI.markers M hMmem, hcm]
      rfl
    · exact (inv_extend_core stmt hI _ c (hmemold c hold)).2.1
  · intro c hc
    dsimp only at hc ⊢
    rcases mem_insert_split _ _ _ _ hc with rfl | hold
    · show (extract _ (extendPartT M stmt.buffer.length sep expr
          args tail.length).bufLow (extendPartT M stmt.buffer.length sep expr
          args tail.length).bufHigh).getLast? ≠ some '\\'
      have hlo : (extendPartT M stmt.buffer.length sep expr args tail.length).bufLow
          = M.bufLow := rfl
      have hhi : (extendPartT M stmt.buffer.length sep expr args tail.length).bufHigh
          = stmt.buffer.length
            + ((sepText M sep).length + expr.data.length + tail.length) := by
        simp [extendPartT, Nat.add_assoc]
      rw [hlo, hhi, hext, List.getLast?_append_of_ne_nil _ hune]
      exact hbs
    · exact (inv_extend_core stmt hI _ c (hmemold c hold)).2.2
  · dsimp only
    rw [List.map_set]
    have hmap : vals.map List.length
        = ((partsLE stmt.parts pos).dropLast).map (fun c => c.argLen)
          ++ M.argLen :: (partsGT stmt.parts pos).map (fun c => c.argLen) := by
      rw [← hC.counts]
      conv_lhs => rw [hparts]
      simp
    have hjm : (((partsLE stmt.parts pos).dropLast).map (fun c => c.argLen)).length
        = (partsLE stmt.parts pos).length - 1 := by
      rw [List.length_map, List.length_dropLast]
    have hset : (vals.map List.length).set ((partsLE stmt.parts pos).length - 1)
          (vals.getD ((partsLE stmt.parts pos).length - 1) [] ++ args).length
        = ((partsLE stmt.parts pos).dropLast).map (fun c => c.argLen)
          ++ (M.argLen + args.length)
            :: (partsGT stmt.parts pos).map (fun c => c.argLen) := by
      have hlen2 : (vals.getD ((partsLE stmt.parts pos).length - 1) [] ++ args).length
          = M.argLen + args.length := by
        rw [List.length_append, hjlen]
      rw [hlen2, hmap, ← hjm]
      exact set_middle
        (((partsLE stmt.parts pos).dropLast).map (fun c => c.argLen)) M.argLen
        (M.argLen + args.length)
        ((partsGT stmt.parts pos).map (fun c => c.argLen))
    rw [hset]
    simp [extendPartT]
  · dsimp only
    rw [(corr_offset stmt vals pos hC).2, hC.flat, insertAt_flatten]
    rw [flatten_set_append vals args ((partsLE stmt.parts pos).length - 1) hj]
    have hk : (partsLE stmt.parts pos).length - 1 + 1
        = (partsLE stmt.parts pos).length := by
      omega
    rw [hk]

/-- Preservation along the value-only refresh path. -/
theorem preserve_refresh (stmt : Stmt) (vals : List (List Val)) (pos : Int)
    (clause expr : String) (args : List Val) (sep : String) (M : StatementPart)
    (hI : Inv stmt) (hC : Corr stmt vals)
    (hM : (partsLE stmt.parts pos).getLast? = some M) (hMp : M.position = pos)
    (he : expr = "") (hlen : args.length ≤ M.argLen) :
    Inv (addPart stmt pos clause expr args sep).1
    ∧ Corr (addPart stmt pos clause expr args sep).1
        (vals.set ((partsLE stmt.parts pos).length - 1)
          (args ++ (vals.getD ((partsLE stmt.parts pos).length - 1) []).drop
            args.length)) := by
  rw [addPart_refresh_shape stmt pos clause expr args sep M hI.sorted hM hMp he]
  dsimp only
  have hdec := getLast?_decomp _ _ hM
  have hj := (corr_matched stmt vals pos M hC hM).1
  have hjlen := (corr_matched stmt vals pos M hC hM).2.1
  have hoff := (corr_matched stmt vals pos M hC hM).2.2
  have hlen2 : args.length ≤ (vals.getD ((partsLE stmt.parts pos).length - 1) []).length := by
    rw [hjlen]
    exact hlen
  refine ⟨⟨hI.sorted, hI.spans, ?_, hI.markers, hI.noTrailBS, hI.cacheOk⟩, ?_, ?_⟩
  · rw [copyAt_length]
    exact hI.argsLen
  · rw [List.map_set]
    have hval : (args ++ (vals.getD ((partsLE stmt.parts pos).length - 1) []).drop
        args.length).length
        = (vals.map List.length).getD ((partsLE stmt.parts pos).length - 1) 0 := by
      rw [getD_map_length vals _ hj]
      simp only [List.length_append, List.length_drop]
      omega
    rw [hval]
    have hsame : (vals.map List.length).set ((partsLE stmt.parts pos).length - 1)
          ((vals.map List.length).getD ((partsLE stmt.parts pos).length - 1) 0)
        = vals.map List.length := by
      exact set_getD_self _ _ (by simpa using hj)
    rw [hsame]
    exact hC.counts
  · have harith : stmt.args.length - argsTail (partsGT stmt.parts pos) - M.argLen
        = (vals.take ((partsLE stmt.parts pos).length - 1)).flatten.length := by
      rw [hoff]
      have h2 := hI.argsLen
      rw [argsTail_split stmt.parts pos] at h2
      have h3 : argsTail (partsLE stmt.parts pos)
          = argsTail ((partsLE stmt.parts pos).dropLast) + M.argLen := by
        conv_lhs => rw [hdec]
        rw [argsTail_append]
        simp [argsTail]
      omega
    rw [harith, hC.flat, copyAt_flatten_set vals args _ hj hlen2]

/-- A plain call is `addT` with no extra bytes, outside the refresh path. -/
theorem addPart_fst_eq_addT (stmt : Stmt) (pos : Int) (clause expr : String)
    (args : List Val) (sep : String) (hs : PartsSorted stmt.parts)
    (hnr : NoPartAt stmt.parts pos ∨ expr ≠ "") :
    (addPart stmt pos clause expr args sep).1
      = addT stmt pos clause expr args sep [] := by
  by_cases hno : NoPartAt stmt.parts pos
  · rw [addPart_fresh_shape stmt pos clause expr args sep hs hno,
      addT_fresh stmt pos clause expr args sep [] hs hno]
    simp [freshPartT, freshPart, Nat.add_assoc]
  · obtain ⟨M, hM, hMp⟩ := not_noPartAt _ _ hno
    have he : expr ≠ "" := hnr.resolve_left hno
    by_cases hcont : M.bufHigh = stmt.buffer.length
    · rw [addPart_merge_shape stmt pos clause expr args sep M hs hM hMp he hcont,
        addT_merge stmt pos clause expr args sep [] M hs hM hMp he hcont]
      simp [extendPartT, extendPart, Nat.add_assoc]
    · rw [addPart_split_shape stmt pos clause expr args sep M hs hM hMp he hcont,
        addT_split stmt pos clause expr args sep [] M hs hM hMp he hcont]
      simp [splitPartT, splitPart, Nat.add_assoc]

/-- `SubQuery` is `addT` with the sub-render and closing text as the extra
bytes. -/
theorem subQuery_eq_addT (stmt : Stmt) (pre suf : String) (query : Stmt) :
    stmt.subQuery pre suf query
      = addT stmt stmt.position "" pre query.args
          (if stmt.position = posWhere then " AND " else ", ")
          (embedTail query suf) := by
  unfold Stmt.subQuery addT embedTail
  dsimp only
  simp [List.append_assoc]

/-- One well-formed call preserves the invariant and the ledger
correspondence. -/
theorem step_preserved (stmt : Stmt) (vals : List (List Val)) (op : Op)
    (hI : Inv stmt) (hC : Corr stmt vals) (hwf : wfOp stmt op = true) :
    Inv (applyOp stmt op) ∧ Corr (applyOp stmt op) (valsStep stmt vals op) := by
  cases op with
  | frag pos clause expr args sep =>
    unfold applyOp valsStep opPos opExpr opArgs
    dsimp only
    unfold wfOp wfAdd at hwf
    dsimp only at hwf
    by_cases hno : NoPartAt stmt.parts pos
    · rw [if_pos hno] at hwf ⊢
      rw [addPart_fst_eq_addT stmt pos clause expr args sep hI.sorted (Or.inl hno)]
      simp only [Bool.and_eq_true, decide_eq_true_eq] at hwf
      exact preserve_fresh stmt vals pos clause expr args sep [] hI hC hno
        hwf.1 hwf.2
    · obtain ⟨M, hM, hMp⟩ := not_noPartAt _ _ hno
      have hgetD : (partsLE stmt.parts pos).getLast?.getD default = M := by
        rw [hM]
        rfl
      rw [if_neg hno] at hwf ⊢
      by_cases hexpr : expr = ""
      · rw [if_pos hexpr] at hwf ⊢
        simp only [Bool.and_eq_true, decide_eq_true_eq] at hwf
        rw [hgetD] at hwf
        exact preserve_refresh stmt vals pos clause expr args sep M hI hC hM
          hMp hexpr hwf.1
      · rw [if_neg hexpr] at hwf ⊢
        rw [hgetD] at hwf ⊢
        simp only [Bool.and_eq_true, decide_eq_true_eq] at hwf
        by_cases hcont : M.bufHigh = stmt.buffer.length
        · rw [if_pos hcont]
          rw [addPart_fst_eq_addT stmt pos clause expr args sep hI.sorted
            (Or.inr hexpr)]
          exact preserve_merge stmt vals pos clause expr args sep [] M hI hC hM
            hMp hexpr hcont hwf.1 hwf.2
        · rw [if_neg hcont]
          rw [addPart_fst_eq_addT stmt pos clause expr args sep hI.sorted
            (Or.inr hexpr)]
          exact preserve_split stmt vals pos clause expr args sep [] M hI hC hM
            hMp hexpr hcont hwf.1 hwf.2
  | embed pre suf query =>
    unfold applyOp valsStep opPos opExpr opArgs
    dsimp only
    unfold wfOp at hwf
    dsimp only at hwf
    simp only [Bool.and_eq_true, decide_eq_true_eq] at hwf
    obtain ⟨hpre, hwf2⟩ := hwf
    rw [subQuery_eq_addT stmt pre suf query]
    unfold wfAdd at hwf2
    by_cases hno : NoPartAt stmt.parts stmt.position
    · rw [if_pos hno] at hwf2 ⊢
      simp only [Bool.and_eq_true, decide_eq_true_eq] at hwf2
      exact preserve_fresh stmt vals stmt.position "" pre query.args
        (if stmt.position = posWhere then " AND " else ", ")
        (embedTail query suf) hI hC hno hwf2.1 hwf2.2
    · obtain ⟨M, hM, hMp⟩ := not_noPartAt _ _ hno
      have hgetD : (partsLE stmt.parts stmt.position).getLast?.getD default = M := by
        rw [hM]
        rfl
      rw [if_neg hno] at hwf2 ⊢
      rw [if_neg hpre] at hwf2 ⊢
      rw [hgetD] at hwf2 ⊢
      simp only [Bool.and_eq_true, decide_eq_true_eq] at hwf2
      by_cases hcont : M.bufHigh = stmt.buffer.length
      · rw [if_pos hcont]
        exact preserve_merge stmt vals stmt.position "" pre query.args
          (if stmt.position = posWhere then " AND " else ", ")
          (embedTail query suf) M hI hC hM hMp hpre hcont hwf2.1 hwf2.2
      · rw [if_neg hcont]
        exact preserve_split stmt vals stmt.position "" pre query.args
          (if stmt.position = posWhere then " AND " else ", ")
          (embedTail query suf) M hI hC hM hMp hpre hcont hwf2.1 hwf2.2

theorem inv_empty (d : Dialect) : Inv (emptyStmt d) := by
  refine ⟨?_, ?_, ?_, ?_, ?_, Or.inl rfl⟩
  · exact List.chain'_nil
  · intro c hc
    cases hc
  · rfl
  · intro c hc
    cases hc
  · intro c hc
    cases hc

theorem corr_empty (d : Dialect) : Corr (emptyStmt d) [] := ⟨rfl, rfl⟩

/-- The invariant and the ledger correspondence hold along every well-formed
trace. -/
theorem runOps_preserved (ops : List Op) :
    ∀ (stmt : Stmt) (vals : List (List Val)), Inv stmt → Corr stmt vals →
    wfTrace stmt ops = true →
    Inv (runOps stmt ops) ∧ Corr (runOps stmt ops) (runVals stmt vals ops) := by
  induction ops with
  | nil =>
    intro s v hI hC _
    exact ⟨hI, hC⟩
  | cons op ops ih =>
    intro s v hI hC hwf
    rw [wfTrace] at hwf
    simp only [Bool.and_eq_true] at hwf
    have hstep := step_preserved s v op hI hC hwf.1
    exact ih (applyOp s op) (valsStep s v op) hstep.1 hstep.2 hwf.2

theorem stringOf_eq_renderString (stmt : Stmt)
    (hc : stmt.sql = none ∨ stmt.sql = some (renderString stmt)) :
    stringOf stmt = renderString stmt := by
  unfold stringOf
  rcases hc with h | h
  · rw [h]
    rfl
  · rw [h]
    rfl

theorem addPart_dialect (stmt : Stmt) (pos : Int) (clause expr : String)
    (args : List Val) (sep : String) :
    ((addPart stmt pos clause expr args sep).1).dialect = stmt.dialect := by
  unfold addPart
  dsimp only
  rcases scanRev pos stmt.parts.reverse 0 with ⟨part, i, argTail⟩ | ⟨idx, argTail⟩
  · dsimp only
    by_cases h1 : expr = ""
    · rw [if_pos h1]
      by_cases h2 : args.length > 0
      · rw [if_pos h2]
      · rw [if_neg h2]
    · rw [if_neg h1]
      by_cases h2 : part.bufHigh = stmt.buffer.length
      · rw [if_pos h2]
      · rw [if_neg h2]
  · rfl

theorem applyOp_dialect (stmt : Stmt) (op : Op) :
    (applyOp stmt op).dialect = stmt.dialect := by
  cases op with
  | frag pos clause expr args sep => exact addPart_dialect stmt pos clause expr args sep
  | embed pre suf query =>
    show ((stmt.subQuery pre suf query)).dialect = stmt.dialect
    unfold Stmt.subQuery
    dsimp only
    exact addPart_dialect stmt stmt.position "" pre query.args _

theorem runOps_dialect (ops : List Op) :
    ∀ s : Stmt, (runOps s ops).dialect = s.dialect := by
  induction ops with
  | nil => intro s; rfl
  | cons op ops ih =>
    intro s
    rw [runOps, ih (applyOp s op), applyOp_dialect]

/-- The sub-statement whose values the empty-prefix embedding below drops. -/
def c2cxSub : Stmt :=
  ((emptyStmt Dialect.defaultDialect).fromTable "u" []).whereCond "x = ?"
    [Val.int 7]

/-- `From("t")` followed by `SubQuery("", "", From("u").Where("x = ?", 7))`:
the empty opening text sends `addPart` down the value-refresh path at the
occupied FROM position. -/
def c2cx : Stmt :=
  ((emptyStmt Dialect.defaultDialect).fromTable "t" []).subQuery "" "" c2cxSub

/-- Counterexample to C2 as stated: a `SubQuery` with an empty opening text
at an occupied position (statement.go:721-740) is a clause-contributing call
that supplies exactly one value per marker it writes, yet the empty body
takes the refresh path — the supplied values are copied over the matched
fragment's zero parameter slots (dropped), and the sub-render is stretched
into that fragment's span.  The result renders one non-escaped marker while
`Args` is empty: no `i` has `Args[i]` equal to the value supplied for the
first marker.  `wfOp` evaluates to `false` on exactly this call, which is
the proviso the amended claim adds. -/
theorem subquery_empty_prefix_drops_args :
    stringOf c2cx = "FROM tFROM u WHERE x = ?".data
    ∧ countMarkers (stringOf c2cx) = 1
    ∧ c2cx.args = []
    ∧ c2cxSub.args = [Val.int 7]
    ∧ wfOp ((emptyStmt Dialect.defaultDialect).fromTable "t" [])
        (Op.embed "" "" c2cxSub) = false := by
  refine ⟨?_, ?_, ?_, ?_, ?_⟩ <;> decide

/-- C2 (amended): along every *well-formed* sequence of clause-contributing
calls — merges, value refreshes, non-contiguous same-position inserts and
sub-statement embeddings included; well-formed meaning every call's written
text owns exactly as many non-escaped markers as values it supplies, a
value-only refresh supplies at most the matched fragment's parameter count,
and an embedding has a non-empty opening text — the flat parameter list of
`Args` is the fragment-ordered concatenation of the supplied-value ledger,
every fragment's `argLen` is the length of its ledger entry, and every
fragment's text owns exactly `argLen` non-escaped markers.  Markers are
emitted fragment by fragment in list order during the render pass, so the
i-th element of `Args` is the value supplied for the i-th non-escaped marker
of the rendered text.  The proviso is necessary:
`subquery_empty_prefix_drops_args` breaks the correspondence with an
empty-prefix embedding. -/
theorem param_placeholder_correspondence (d : Dialect) (ops : List Op)
    (hwf : wfTrace (emptyStmt d) ops = true) :
    (runOps (emptyStmt d) ops).args = (runVals (emptyStmt d) [] ops).flatten
    ∧ (runOps (emptyStmt d) ops).parts.map (fun c => c.argLen)
        = (runVals (emptyStmt d) [] ops).map List.length
    ∧ (∀ c ∈ (runOps (emptyStmt d) ops).parts,
        countMarkers (extract (runOps (emptyStmt d) ops).buffer c.bufLow c.bufHigh)
          = c.argLen)
    ∧ (runOps (emptyStmt d) ops).args.length
        = argsTail (runOps (emptyStmt d) ops).parts := by
  have h := runOps_preserved ops (emptyStmt d) [] (inv_empty d) (corr_empty d) hwf
  exact ⟨h.2.flat, h.2.counts, h.1.markers, h.1.argsLen⟩

/-- A sub-statement for the C2 witness trace. -/
def c2sub : Stmt :=
  ((emptyStmt Dialect.defaultDialect).fromTable "u" []).whereCond "x = ?" [Val.int 9]

/-- The C2 witness trace: fresh inserts, a contiguous merge, a non-contiguous
same-position insert, a sub-statement embedding and a value refresh. -/
def c2ops : List Op :=
  [Op.frag posSelect "SELECT" "id" [] ", ",
   Op.frag posFrom "" "FROM t" [] " ",
   Op.frag posWhere "WHERE" "a > ?" [Val.int 1] " AND ",
   Op.frag posWhere "WHERE" "b < ?" [Val.int 2] " AND ",
   Op.frag posOrderBy "ORDER BY" "c" [] ", ",
   Op.frag posWhere "WHERE" "d = ?" [Val.int 3] " AND ",
   Op.embed "EXISTS (" ")" c2sub,
   Op.frag posLimit "LIMIT ?" "" [Val.int 10] "",
   Op.frag posLimit "LIMIT ?" "" [Val.int 20] ""]

/-- Witness for C2 on a trace exercising every `addPart` path and an
embedding: the correspondence holds and the final ledger groups the values
under the fragments owning their markers. -/
theorem param_placeholder_correspondence_check :
    ((runOps (emptyStmt Dialect.defaultDialect) c2ops).args
        = (runVals (emptyStmt Dialect.defaultDialect) [] c2ops).flatten
      ∧ (runOps (emptyStmt Dialect.defaultDialect) c2ops).parts.map
            (fun c => c.argLen)
          = (runVals (emptyStmt Dialect.defaultDialect) [] c2ops).map List.length
      ∧ (∀ c ∈ (runOps (emptyStmt Dialect.defaultDialect) c2ops).parts,
          countMarkers (extract (runOps (emptyStmt Dialect.defaultDialect)
            c2ops).buffer c.bufLow c.bufHigh) = c.argLen)
      ∧ (runOps (emptyStmt Dialect.defaultDialect) c2ops).args.length
          = argsTail (runOps (emptyStmt Dialect.defaultDialect) c2ops).parts)
    ∧ runVals (emptyStmt Dialect.defaultDialect) [] c2ops
        = [[], [], [Val.int 1, Val.int 2], [Val.int 3, Val.int 9], [],
            [Val.int 20]]
    ∧ (runOps (emptyStmt Dialect.defaultDialect) c2ops).args
        = [Val.int 1, Val.int 2, Val.int 3, Val.int 9, Val.int 20] :=
  ⟨param_placeholder_correspondence Dialect.defaultDialect c2ops (by decide),
    by decide, by decide⟩

/-- The sub-statement for the C6 counterexample's empty-prefix embedding. -/
def c6cxSub : Stmt :=
  ((emptyStmt Dialect.defaultDialect).fromTable "u" []).whereCond "x = ?"
    [Val.int 7]

/-- The C2 counterexample's statement built in the PostgreSQL dialect. -/
def c6cx : Stmt :=
  ((emptyStmt Dialect.postgreSQL).fromTable "t" []).subQuery "" "" c6cxSub

/-- Counterexample to C6 as stated: after `From("t")` an empty-prefix
`SubQuery` stretches the FROM fragment — which owns zero parameters — over
the sub-render, so the `argLen > 0` gate of the render loop
(statement.go:387) copies the stretched text verbatim.  The PostgreSQL
render then contains a raw, un-numbered `?` and no `$` marker at all, not
the promised `$1..$k` (here the fragments own one non-escaped marker, so the
claim demands `$1`). -/
theorem subquery_empty_prefix_unnumbered_marker :
    c6cx.dialect = Dialect.postgreSQL
    ∧ stringOf c6cx = "FROM tFROM u WHERE x = ?".data
    ∧ countMarkers (stringOf c6cx) = 1
    ∧ '?' ∈ stringOf c6cx
    ∧ '$' ∉ stringOf c6cx := by
  refine ⟨?_, ?_, ?_, ?_, ?_⟩ <;> decide

/-- C6 (amended): a statement built by any *well-formed* call trace (each
call's text owns exactly as many non-escaped markers as values it supplies,
refreshes stay within the matched fragment's parameter count, embeddings
have a non-empty opening text) in the PostgreSQL dialect renders
(`String()`) as its literal fragment segments interleaved with the markers
`$1, $2, ..., $k` in left-to-right order — consecutive, no gaps, no repeats,
the counter shared across the whole render pass rather than reset per
fragment — where `k` is the number of non-escaped `?` markers across all
fragments, which equals the parameter count.  The proviso is necessary:
`subquery_empty_prefix_unnumbered_marker` renders a raw un-numbered marker
through an empty-prefix embedding. -/
theorem numbered_markers (ops : List Op)
    (hwf : wfTrace (emptyStmt Dialect.postgreSQL) ops = true) :
    stringOf (runOps (emptyStmt Dialect.postgreSQL) ops)
      = joinWith 1 (renderSegs Dialect.postgreSQL
          (runOps (emptyStmt Dialect.postgreSQL) ops).buffer
          (runOps (emptyStmt Dialect.postgreSQL) ops).parts 0 true)
    ∧ (renderSegs Dialect.postgreSQL
          (runOps (emptyStmt Dialect.postgreSQL) ops).buffer
          (runOps (emptyStmt Dialect.postgreSQL) ops).parts 0 true).length
        = (runOps (emptyStmt Dialect.postgreSQL) ops).args.length + 1 := by
  have h := runOps_preserved ops (emptyStmt Dialect.postgreSQL) []
    (inv_empty _) (corr_empty _) hwf
  have hd : (runOps (emptyStmt Dialect.postgreSQL) ops).dialect
      = Dialect.postgreSQL := runOps_dialect ops _
  have hmain := renderString_markers (runOps (emptyStmt Dialect.postgreSQL) ops)
    h.1.markers h.1.argsLen hd
  exact ⟨by rw [stringOf_eq_renderString _ h.1.cacheOk, hmain.1], hmain.2⟩

/-- The C6 witness trace: the spec's escape scenario in the PostgreSQL
dialect. -/
def pgOps : List Op :=
  [Op.frag posFrom "" "FROM series" [] " ",
   Op.frag posSelect "SELECT" "id" [] ", ",
   Op.frag posWhere "WHERE" "time \\?> ? + 1" [Val.obj 1] " AND ",
   Op.frag posWhere "WHERE" "time < ?" [Val.obj 2] " AND "]

/-- Witness for C6 on the escape scenario: the render is the segment
interleaving with `$1, $2`, one more segment than parameters, and the
concrete text comes out with consecutive numbering. -/
theorem numbered_markers_check :
    stringOf (runOps (emptyStmt Dialect.postgreSQL) pgOps)
      = joinWith 1 (renderSegs Dialect.postgreSQL
          (runOps (emptyStmt Dialect.postgreSQL) pgOps).buffer
          (runOps (emptyStmt Dialect.postgreSQL) pgOps).parts 0 true)
    ∧ (renderSegs Dialect.postgreSQL
          (runOps (emptyStmt Dialect.postgreSQL) pgOps).buffer
          (runOps (emptyStmt Dialect.postgreSQL) pgOps).parts 0 true).length
        = (runOps (emptyStmt Dialect.postgreSQL) pgOps).args.length + 1
    ∧ stringOf (runOps (emptyStmt Dialect.postgreSQL) pgOps)
        = "SELECT id FROM series WHERE time ?> $1 + 1 AND time < $2".data :=
  ⟨(numbered_markers pgOps (by decide)).1, (numbered_markers pgOps (by decide)).2,
    by decide⟩

/-! ### C1 — Clone is not independent of the original

`Clone` (statement.go) fills the clone's fragment list with
`newstmt.parts = append(stmt.parts, stmt.parts...)` whenever the pooled
clone's slice has enough capacity.  That appends the original's list to
itself: the clone starts with every fragment listed twice, and — because Go's
`append` writes in place when the *original's* backing array has spare
capacity — the clone's list is a longer slice of the original's own array.
Slots `0 .. len-1` stay shared, and the original's next insertion lands in
slot `len`, inside the clone's view.  (The other branch is broken too:
`copy(stmt.parts, stmt.parts)` is a self-copy, leaving the freshly allocated
clone list zeroed.)  The repo's own `TestClone` exercises exactly this and
fails. -/

/-- The content of the clone's fragment list as `Clone` builds it:
`append(stmt.parts, stmt.parts...)` — the original's fragments twice over. -/
def cloneParts (stmt : Stmt) : List StatementPart := stmt.parts ++ stmt.parts

/-- Go's in-place `append` seen through a longer slice of the same backing
array: the new element overwrites slot `len`, the slots after it are
untouched. -/
def goAppendShared (arr : List StatementPart) (len : Nat) (p : StatementPart) :
    List StatementPart :=
  arr.take len ++ [p] ++ arr.drop (len + 1)

/-- The original statement of the Clone scenario: `From("t").Where("a > ?", 1)`. -/
def c1orig : Stmt :=
  ((emptyStmt Dialect.defaultDialect).fromTable "t" []).whereCond "a > ?" [Val.int 1]

/-- The shared backing array right after `Clone` (the clone's 4-slot view). -/
def c1arr : List StatementPart := cloneParts c1orig

/-- The clone's private copy of the fragment buffer. -/
def c1cloneBuffer : List Char := c1orig.buffer

/-- The fragment the original's subsequent `OrderBy("c")` appends — written
into slot 2 of the shared array, inside the clone's view. -/
def c1newPart : StatementPart :=
  freshPart posOrderBy c1orig.buffer.length "ORDER BY" "c" []

/-- The clone's 4-slot view after the original's `OrderBy` call. -/
def c1arrAfter : List StatementPart := goAppendShared c1arr 2 c1newPart

/-- C1 (refuted — code bug): after `Clone`, a mutating clause-contributing
call on the original (`OrderBy("c")`, a fresh append) writes through the
shared backing array into the clone's fragment view, so the clone's view
changes and its render output is no longer what it was before the call; the
new fragment's span also ends past the clone's buffer, so the clone's actual
Go `String()` panics on the slice bounds. -/
theorem clone_not_independent :
    (c1orig.orderBy "c").parts = c1orig.parts ++ [c1newPart]
    ∧ c1arrAfter ≠ c1arr
    ∧ renderLoop Dialect.defaultDialect c1cloneBuffer c1arrAfter 0 1 true
        ≠ renderLoop Dialect.defaultDialect c1cloneBuffer c1arr 0 1 true
    ∧ c1newPart ∈ c1arrAfter
    ∧ c1cloneBuffer.length < c1newPart.bufHigh := by
  decide

/-! ### C3 — order of calls at different positions

In the PostgreSQL dialect the placeholder rewrite of a fragment is gated on
`argLen > 0`, so an escape sequence `\?` in a parameterless filter is
resolved to a literal `?` only when a later call *merges* into that
fragment; if an intervening call at another position forces the same text to
land in a separate fragment, the `\?` survives verbatim — the two orders
render differently. -/

/-- A parameterless filter carrying an escape sequence. -/
def c3base : Stmt :=
  ((emptyStmt Dialect.postgreSQL).fromTable "t" []).whereCond "a \\?" []

/-- `Where` then `OrderBy`: the second filter merges, the fragment gains a
parameter, and the escape is resolved during the rewrite. -/
def c3ab : Stmt := (c3base.whereCond "b = ?" [Val.int 1]).orderBy "c"

/-- `OrderBy` then `Where`: the second filter lands in a separate fragment,
the original filter stays parameterless, and its escape survives verbatim. -/
def c3ba : Stmt := (c3base.orderBy "c").whereCond "b = ?" [Val.int 1]

/-- C3's counterexample: the same two calls at different grammatical
positions, in the two orders, render differently (the parameters agree). -/
theorem order_dependence_on_escape :
    stringOf c3ab ≠ stringOf c3ba
    ∧ c3ab.args = c3ba.args
    ∧ stringOf c3ab = "FROM t WHERE a ? AND b = $1 ORDER BY c".data
    ∧ stringOf c3ba = "FROM t WHERE a \\? AND b = $1 ORDER BY c".data := by
  decide

/-! ### The grouped fragment view

Two calls in different orders can leave different fragment *lists* (one
order merges, the other splits), yet the spans read in render order are the
same bytes.  The right quotient is the fragment view (position, text, parameter
count, body flag per fragment) grouped by concatenating adjacent fragments at
equal positions — exactly what the render pass cannot distinguish, as long as
no escape sequence makes the `argLen > 0` rewrite gate observable. -/

/-- What the render pass and the merge logic observe about one fragment. -/
structure GEntry where
  position : Int
  text : List Char
  argLen : Nat
  hasExpr : Bool
  deriving Repr, DecidableEq

/-- The fragment view of a statement. -/
def pview (stmt : Stmt) : List GEntry :=
  stmt.parts.map (fun c =>
    { position := c.position, text := extract stmt.buffer c.bufLow c.bufHigh,
      argLen := c.argLen, hasExpr := c.hasExpr })

/-- The render loop, on the fragment view. -/
def renderView (d : Dialect) : List GEntry → Int → Nat → Bool → List Char
  | [], _, _, _ => []
  | e :: rest, pos, argNo, first =>
    let sp : List Char := if first = false ∧ e.position > pos then [' '] else []
    let r : Nat × List Char :=
      if e.argLen > 0 ∧ d = Dialect.postgreSQL then writePostgresql argNo e.text
      else (argNo, e.text)
    sp ++ r.2 ++ renderView d rest e.position r.1 false

/-- The render pass reads nothing but the fragment view. -/
theorem renderLoop_eq_renderView (d : Dialect) (buffer : List Char) :
    ∀ (parts : List StatementPart) (pos : Int) (argNo : Nat) (first : Bool),
    renderLoop d buffer parts pos argNo first
      = renderView d (parts.map (fun c =>
          { position := c.position, text := extract buffer c.bufLow c.bufHigh,
            argLen := c.argLen, hasExpr := c.hasExpr })) pos argNo first := by
  intro parts
  induction parts with
  | nil => intro pos argNo first; rfl
  | cons part rest ih =>
    intro pos argNo first
    rw [renderLoop, List.map_cons, renderView]
    dsimp only
    rw [ih]

/-- On escape-free, marker-free text the rewrite is the identity. -/
theorem wp_id (n : Nat) (t : List Char) :
    '\\' ∉ t → countMarkers t = 0 → writePostgresql n t = (n, t) := by
  induction n, t using writePostgresql.induct with
  | case1 n =>
    intro _ _
    rfl
  | case2 n rest ih =>
    intro hbs _
    simp at hbs
  | case3 n rest ih =>
    intro _ hcm
    rw [show countMarkers ('?' :: rest) = countMarkers rest + 1 from rfl] at hcm
    exact absurd hcm (by omega)
  | case4 n c rest h1 h2 ih =>
    intro hbs hcm
    rw [writePostgresql.eq_4 n c rest h1 h2]
    rw [countMarkers.eq_4 c rest h1 h2] at hcm
    rw [ih (fun hm => hbs (by simp [hm])) hcm]

theorem noBS_getLast (t : List Char) (h : '\\' ∉ t) : t.getLast? ≠ some '\\' := by
  intro hl
  exact h (List.mem_of_mem_getLast? hl)

/-- Concatenation of two adjacent fragments at one position. -/
def gmerge (e e' : GEntry) : GEntry :=
  { position := e.position, text := e.text ++ e'.text,
    argLen := e.argLen + e'.argLen, hasExpr := e'.hasExpr }

/-- Group a fragment view by concatenating adjacent entries at equal
positions. -/
def gview : List GEntry → List GEntry
  | [] => []
  | e :: rest =>
    match gview rest with
    | [] => [e]
    | e' :: grest =>
      if e'.position = e.position then gmerge e e' :: grest
      else e :: e' :: grest

/-- The per-entry facts (escape-free text whose markers count the
parameters) survive grouping. -/
theorem gview_prop (v : List GEntry)
    (h : ∀ e ∈ v, '\\' ∉ e.text ∧ countMarkers e.text = e.argLen) :
    ∀ e ∈ gview v, '\\' ∉ e.text ∧ countMarkers e.text = e.argLen := by
  induction v with
  | nil => simp [gview]
  | cons e rest ih =>
    intro x hx
    rw [gview] at hx
    have hrest : ∀ y ∈ rest, '\\' ∉ y.text ∧ countMarkers y.text = y.argLen :=
      fun y hy => h y (by simp [hy])
    rcases hg : gview rest with _ | ⟨e', grest⟩
    · rw [hg] at hx
      simp at hx
      exact hx ▸ h e (by simp)
    · rw [hg] at hx
      dsimp only at hx
      by_cases hp : e'.position = e.position
      · rw [if_pos hp] at hx
        rcases List.mem_cons.mp hx with rfl | hx2
        · have he := h e (by simp)
          have he' := ih hrest e' (by rw [hg]; simp)
          constructor
          · show '\\' ∉ e.text ++ e'.text
            intro hm
            rcases List.mem_append.mp hm with hm | hm
            · exact he.1 hm
            · exact he'.1 hm
          · show countMarkers (e.text ++ e'.text) = e.argLen + e'.argLen
            rw [cm_append _ _ (noBS_getLast _ he.1), he.2, he'.2]
        · exact ih hrest x (by rw [hg]; simp [hx2])
      · rw [if_neg hp] at hx
        rcases List.mem_cons.mp hx with rfl | hx2
        · exact h x (by simp)
        · exact ih hrest x (by rw [hg]; exact hx2)

/-- The ungated render view: the PostgreSQL rewrite applied to every
fragment. -/
def renderViewU (d : Dialect) : List GEntry → Int → Nat → Bool → List Char
  | [], _, _, _ => []
  | e :: rest, pos, argNo, first =>
    let sp : List Char := if first = false ∧ e.position > pos then [' '] else []
    let r : Nat × List Char :=
      if d = Dialect.postgreSQL then writePostgresql argNo e.text
      else (argNo, e.text)
    sp ++ r.2 ++ renderViewU d rest e.position r.1 false

/-- Under the per-entry facts the `argLen > 0` gate is unobservable: a
parameterless fragment has no markers and no escapes, so the rewrite is the
identity on it. -/
theorem gate_free (d : Dialect) (t : List Char) (a : Nat) (n : Nat)
    (hbs : '\\' ∉ t) (hcm : countMarkers t = a) :
    (if a > 0 ∧ d = Dialect.postgreSQL then writePostgresql n t else (n, t))
      = (if d = Dialect.postgreSQL then writePostgresql n t else (n, t)) := by
  by_cases hd : d = Dialect.postgreSQL
  · by_cases ha : a > 0
    · rw [if_pos ⟨ha, hd⟩, if_pos hd]
    · rw [if_neg (fun hc => ha hc.1), if_pos hd]
      rw [wp_id n t hbs (by omega)]
  · rw [if_neg (fun hc => hd hc.2), if_neg hd]

theorem renderView_eq_U (d : Dialect) (v : List GEntry)
    (h : ∀ e ∈ v, '\\' ∉ e.text ∧ countMarkers e.text = e.argLen) :
    ∀ (pos : Int) (argNo : Nat) (first : Bool),
    renderView d v pos argNo first = renderViewU d v pos argNo first := by
  induction v with
  | nil => intro pos argNo first; rfl
  | cons e rest ih =>
    intro pos argNo first
    rw [renderView, renderViewU]
    have he := h e (by simp)
    rw [gate_free d e.text e.argLen argNo he.1 he.2]
    rw [ih (fun y hy => h y (by simp [hy]))]

/-- Grouping is invisible to the ungated render: adjacent fragments at one
position render with no space between them, and the rewrite of the
concatenation splits at the boundary with the counter threaded through. -/
theorem renderViewU_gview (d : Dialect) (v : List GEntry)
    (h : ∀ e ∈ v, '\\' ∉ e.text) :
    ∀ (pos : Int) (argNo : Nat) (first : Bool),
    renderViewU d v pos argNo first = renderViewU d (gview v) pos argNo first := by
  induction v with
  | nil => intro pos argNo first; rfl
  | cons e rest ih =>
    intro pos argNo first
    have hrest : ∀ y ∈ rest, '\\' ∉ y.text := fun y hy => h y (by simp [hy])
    rw [renderViewU, gview]
    rw [ih hrest e.position _ false]
    rcases hg : gview rest with _ | ⟨e', grest⟩
    · rfl
    · dsimp only
      by_cases hp : e'.position = e.position
      · rw [if_pos hp]
        rw [renderViewU, renderViewU]
        dsimp only [gmerge]
        have hsp' : (if (false = false ∧ e'.position > e.position : Prop)
            then ([' '] : List Char) else []) = [] := by
          rw [if_neg]
          intro hc
          rw [hp] at hc
          exact absurd hc.2 (by omega)
        rw [hsp', hp]
        by_cases hd : d = Dialect.postgreSQL
        · rw [if_pos hd, if_pos hd, if_pos hd]
          rw [wp_append argNo e.text e'.text (noBS_getLast _ (h e (by simp)))]
          simp [List.append_assoc]
        · rw [if_neg hd, if_neg hd, if_neg hd]
          simp [List.append_assoc]
      · rw [if_neg hp]
        conv_lhs => rw [renderViewU]
        conv_rhs => rw [renderViewU, renderViewU]

instance : Inhabited GEntry := ⟨{ position := 0, text := [], argLen := 0, hasExpr := false }⟩

/-- Positions appearing in the grouped view come from the view. -/
theorem gview_positions (v : List GEntry) (e : GEntry) (he : e ∈ gview v) :
    ∃ x ∈ v, e.position = x.position := by
  induction v with
  | nil => cases he
  | cons a v' ih =>
    rw [gview] at he
    rcases hg : gview v' with _ | ⟨e', grest⟩
    · rw [hg] at he
      simp at he
      exact ⟨a, by simp, by rw [he]⟩
    · rw [hg] at he
      dsimp only at he
      by_cases hp : e'.position = a.position
      · rw [if_pos hp] at he
        rcases List.mem_cons.mp he with rfl | he2
        · exact ⟨a, by simp, rfl⟩
        · obtain ⟨x, hx, hxe⟩ := ih (by rw [hg]; simp [he2])
          exact ⟨x, by simp [hx], hxe⟩
      · rw [if_neg hp] at he
        rcases List.mem_cons.mp he with rfl | he2
        · exact ⟨e, by simp, rfl⟩
        · obtain ⟨x, hx, hxe⟩ := ih (by rw [hg]; exact he2)
          exact ⟨x, by simp [hx], hxe⟩

/-- Grouping distributes over an append whose two halves share no
position. -/
theorem gview_append (A B : List GEntry)
    (hAB : ∀ a ∈ A, ∀ b ∈ B, a.position ≠ b.position) :
    gview (A ++ B) = gview A ++ gview B := by
  induction A with
  | nil =>
    rw [List.nil_append, show gview ([] : List GEntry) = [] from rfl,
      List.nil_append]
  | cons a A' ih =>
    rw [List.cons_append, gview, gview,
      ih (fun x hx b hb => hAB x (by simp [hx]) b hb)]
    rcases hg : gview A' with _ | ⟨e', grest⟩
    · rw [List.nil_append]
      rcases hb : gview B with _ | ⟨b', brest⟩
      · rfl
      · dsimp only
        rw [if_neg (by
          obtain ⟨x, hx, hxe⟩ := gview_positions B b' (by rw [hb]; simp)
          rw [hxe]
          exact fun hc => hAB a (by simp) x hx hc.symm)]
        rfl
    · rw [List.cons_append]
      dsimp only
      by_cases hp : e'.position = a.position
      · rw [if_pos hp, if_pos hp]
        rfl
      · rw [if_neg hp, if_neg hp]
        rfl

/-- The single grouped entry a constant-position run collapses to. -/
def runEntry (p : Int) (r : List GEntry) : GEntry :=
  { position := p, text := (r.map GEntry.text).flatten,
    argLen := (r.map GEntry.argLen).sum,
    hasExpr := (r.getLast?.getD default).hasExpr }

/-- The text, parameter count and body flag of a constant-position run,
grouped. -/
theorem gview_const_run (r : List GEntry) (p : Int) (hne : r ≠ [])
    (hall : ∀ e ∈ r, e.position = p) :
    gview r = [runEntry p r] := by
  induction r with
  | nil => exact absurd rfl hne
  | cons e r' ih =>
    rw [gview]
    cases r' with
    | nil =>
      rw [show gview ([] : List GEntry) = [] from rfl]
      dsimp only
      have hp := hall e (by simp)
      simp [runEntry, ← hp]
    | cons f r'' =>
      rw [ih (by simp) (fun x hx => hall x (by simp [hx]))]
      dsimp only
      have hp := hall e (by simp)
      rw [if_pos (by rw [hp]; rfl)]
      simp [gmerge, runEntry, hp, List.getLast?_cons_cons]

/-- The prefix of grouped entries at or before `pos`. -/
def gLE (g : List GEntry) (pos : Int) : List GEntry :=
  g.takeWhile (fun e => decide (e.position ≤ pos))

/-- The suffix of grouped entries strictly after `pos`. -/
def gGT (g : List GEntry) (pos : Int) : List GEntry :=
  g.dropWhile (fun e => decide (e.position ≤ pos))

/-- The separator by body flag (`sepText` on the view). -/
def gsep (h : Bool) (sep : String) : List Char :=
  if h then sep.data else " ".data

/-- Effect of one call on the (at most one entry long) group at its own
position: a value-only refresh leaves it alone, a body extends it with the
separator, a call on an absent group creates it with the clause text. -/
def gApply (G : List GEntry) (pos : Int) (clause expr : String)
    (args : List Val) (sep : String) : List GEntry :=
  match G.getLast? with
  | some E =>
      if expr = "" then G
      else [{ position := pos, text := E.text ++ (gsep E.hasExpr sep ++ expr.data),
              argLen := E.argLen + args.length, hasExpr := true }]
  | none => [{ position := pos, text := freshText clause expr,
               argLen := args.length, hasExpr := expr ≠ "" }]

/-- Effect of one call on the whole grouped view: only the group at the
call's position changes. -/
def gUpdate (g : List GEntry) (pos : Int) (clause expr : String)
    (args : List Val) (sep : String) : List GEntry :=
  match (gLE g pos).getLast? with
  | some E =>
    if E.position = pos then
      if expr = "" then g
      else (gLE g pos).dropLast
        ++ [{ position := pos, text := E.text ++ (gsep E.hasExpr sep ++ expr.data),
              argLen := E.argLen + args.length, hasExpr := true }]
        ++ gGT g pos
    else gLE g pos
      ++ [{ position := pos, text := freshText clause expr,
            argLen := args.length, hasExpr := expr ≠ "" }]
      ++ gGT g pos
  | none => gLE g pos
      ++ [{ position := pos, text := freshText clause expr,
            argLen := args.length, hasExpr := expr ≠ "" }]
      ++ gGT g pos

/-- `gUpdate` is local to the group at its position. -/
theorem gUpdate_local (GA G1 GB : List GEntry) (pos : Int)
    (clause expr : String) (args : List Val) (sep : String)
    (hGA : ∀ e ∈ GA, e.position < pos)
    (hG1 : ∀ e ∈ G1, e.position = pos) (hG1len : G1.length ≤ 1)
    (hGB : ∀ e ∈ GB, pos < e.position) :
    gUpdate (GA ++ G1 ++ GB) pos clause expr args sep
      = GA ++ gApply G1 pos clause expr args sep ++ GB := by
  have hle : ∀ e ∈ GA ++ G1, (fun e : GEntry => decide (e.position ≤ pos)) e := by
    intro e he
    rcases List.mem_append.mp he with h | h
    · simp [le_of_lt (hGA e h)]
    · simp [le_of_eq (hG1 e h)]
  have hgt : ∀ e ∈ GB, (fun e : GEntry => decide (e.position ≤ pos)) e = false := by
    intro e he
    simp only [decide_eq_false_iff_not]
    have := hGB e he
    omega
  have hsplitLE : gLE (GA ++ G1 ++ GB) pos = GA ++ G1 := by
    rw [gLE, takeWhile_append_all _ _ _ hle, takeWhile_eq_nil_all _ _ hgt,
      List.append_nil]
  have hsplitGT : gGT (GA ++ G1 ++ GB) pos = GB := by
    rw [gGT, dropWhile_append_all _ _ _ hle, dropWhile_eq_self_all _ _ hgt]
  unfold gUpdate gApply
  rw [hsplitLE, hsplitGT]
  rcases hG1s : G1 with _ | ⟨E, G1'⟩
  · rw [List.append_nil]
    rcases hga : GA.getLast? with _ | a
    · rfl
    · have hlt : a.position < pos := hGA a (List.mem_of_mem_getLast? hga)
      dsimp only
      rw [if_neg (by omega)]
      rfl
  · have hG1' : G1' = [] := by
      rw [hG1s] at hG1len
      simp at hG1len
      exact hG1len
    subst hG1'
    have hE : E.position = pos := hG1 E (by rw [hG1s]; simp)
    rw [List.getLast?_concat,
      show ([E] : List GEntry).getLast? = some E from rfl]
    dsimp only
    rw [if_pos hE]
    by_cases he : expr = ""
    · rw [if_pos he, if_pos he]
    · rw [if_neg he, if_neg he, List.dropLast_concat]

/-! ### How one call changes the grouped view -/

/-- The sub-run of `partsLE` strictly before the target position. -/
def partsLT (parts : List StatementPart) (pos : Int) : List StatementPart :=
  (partsLE parts pos).takeWhile (fun c => decide (c.position < pos))

/-- The run of parts exactly at the target position (the tail of `partsLE`). -/
def partsAT (parts : List StatementPart) (pos : Int) : List StatementPart :=
  (partsLE parts pos).dropWhile (fun c => decide (c.position < pos))

theorem partsLT_append_partsAT (parts : List StatementPart) (pos : Int) :
    partsLT parts pos ++ partsAT parts pos = partsLE parts pos :=
  List.takeWhile_append_dropWhile _ _

theorem mem_partsLT_lt (parts : List StatementPart) (pos : Int)
    (c : StatementPart) (hc : c ∈ partsLT parts pos) : c.position < pos := by
  have := List.mem_takeWhile_imp hc
  simpa using this

theorem mem_partsAT_mem_LE (parts : List StatementPart) (pos : Int)
    (c : StatementPart) (hc : c ∈ partsAT parts pos) : c ∈ partsLE parts pos :=
  (List.dropWhile_sublist _).subset hc

theorem mem_partsAT_at (parts : List StatementPart) (pos : Int)
    (hs : PartsSorted parts) :
    ∀ c ∈ partsAT parts pos, c.position = pos := by
  have hpw : PartsPW (partsLE parts pos) := by
    have h0 := (partsSorted_iff_pw parts).mp hs
    have h1 : PartsPW (partsLE parts pos ++ partsGT parts pos) := by
      rw [partsLE_append_partsGT]
      exact h0
    exact (List.pairwise_append.mp h1).1
  have hpwAT : PartsPW (partsAT parts pos) :=
    List.Pairwise.sublist (List.dropWhile_sublist _) hpw
  intro c hc
  have hle : c.position ≤ pos :=
    mem_partsLE_le parts pos c (mem_partsAT_mem_LE parts pos c hc)
  rcases hAT : partsAT parts pos with _ | ⟨c0, R'⟩
  · rw [hAT] at hc
    cases hc
  · rw [hAT] at hc hpwAT
    have hc0 : ¬ (c0.position < pos) := by
      have hAT' : (partsLE parts pos).dropWhile
          (fun c => decide (c.position < pos)) = c0 :: R' := hAT
      have := dropWhile_head_false (fun c => decide (c.position < pos))
        (partsLE parts pos) c0 R' hAT'
      simpa using this
    rcases List.mem_cons.mp hc with rfl | hc'
    · omega
    · have h1 := (List.pairwise_cons.mp hpwAT).1 c hc'
      omega

theorem noPartAt_iff_AT_nil (parts : List StatementPart) (pos : Int)
    (hs : PartsSorted parts) :
    NoPartAt parts pos ↔ partsAT parts pos = [] := by
  constructor
  · intro hno
    rcases hAT : partsAT parts pos with _ | ⟨c0, R'⟩
    · rfl
    · have hc0at : c0.position = pos :=
        mem_partsAT_at parts pos hs c0 (by rw [hAT]; simp)
      have hc0mem : c0 ∈ parts := by
        rw [← partsLE_append_partsGT parts pos]
        exact List.mem_append.mpr (Or.inl
          (mem_partsAT_mem_LE parts pos c0 (by rw [hAT]; simp)))
      exact absurd hc0at (noPartAt_not_mem parts pos hs hno c0 hc0mem)
  · intro hAT M hM hMp
    have hMmem : M ∈ partsLE parts pos := List.mem_of_mem_getLast? hM
    rw [← partsLT_append_partsAT parts pos, hAT, List.append_nil] at hMmem
    have := mem_partsLT_lt parts pos M hMmem
    omega

/-- The matched part is the last of the run at its position. -/
theorem getLastLE_eq_getLastAT (parts : List StatementPart) (pos : Int)
    (hne : partsAT parts pos ≠ []) :
    (partsLE parts pos).getLast? = (partsAT parts pos).getLast? := by
  rw [← partsLT_append_partsAT parts pos]
  exact List.getLast?_append_of_ne_nil _ hne

/-- What one fragment contributes to the view of a statement with the given
buffer. -/
def pv (buffer : List Char) (c : StatementPart) : GEntry :=
  { position := c.position, text := extract buffer c.bufLow c.bufHigh,
    argLen := c.argLen, hasExpr := c.hasExpr }

theorem pview_eq_map (stmt : Stmt) : pview stmt = stmt.parts.map (pv stmt.buffer) :=
  rfl

/-- Texts of spans inside the old buffer are stable under a buffer append. -/
theorem pview_map_stable (buffer u : List Char) (l : List StatementPart)
    (h : ∀ c ∈ l, c.bufHigh ≤ buffer.length) :
    l.map (pv (buffer ++ u)) = l.map (pv buffer) := by
  apply List.map_eq_map_iff.mpr
  intro c hc
  unfold pv
  rw [extract_within _ _ _ _ (h c hc)]

theorem runEntry_concat (p : Int) (A : List GEntry) (x : GEntry) :
    runEntry p (A ++ [x])
      = GEntry.mk p ((runEntry p A).text ++ x.text)
          ((runEntry p A).argLen + x.argLen) x.hasExpr := by
  unfold runEntry
  simp [List.getLast?_concat]

theorem gApply_nil (pos : Int) (clause expr : String) (args : List Val)
    (sep : String) :
    gApply [] pos clause expr args sep
      = [GEntry.mk pos (freshText clause expr) args.length (decide (expr ≠ ""))] :=
  rfl

theorem gApply_single (E : GEntry) (pos : Int) (clause expr : String)
    (args : List Val) (sep : String) (he : expr ≠ "") :
    gApply [E] pos clause expr args sep
      = [GEntry.mk pos (E.text ++ (gsep E.hasExpr sep ++ expr.data))
          (E.argLen + args.length) true] := by
  unfold gApply
  rw [show ([E] : List GEntry).getLast? = some E from rfl]
  dsimp only
  rw [if_neg he]

theorem gApply_single_refresh (E : GEntry) (pos : Int) (clause expr : String)
    (args : List Val) (sep : String) (he : expr = "") :
    gApply [E] pos clause expr args sep = [E] := by
  unfold gApply
  rw [show ([E] : List GEntry).getLast? = some E from rfl]
  dsimp only
  rw [if_pos he]

/-- One `addPart` call transforms the grouped view by `gUpdate`, whatever
path it takes: the contiguous merge and the non-contiguous split leave
different fragment lists but the same grouped view, the value refresh leaves
the view untouched, and the fresh insert creates the group. -/
theorem gview_applyFrag (stmt : Stmt) (pos : Int) (clause expr : String)
    (args : List Val) (sep : String) (hI : Inv stmt) :
    gview (pview (addPart stmt pos clause expr args sep).1)
      = gUpdate (gview (pview stmt)) pos clause expr args sep := by
  have hs := hI.sorted
  have hLT : ∀ c ∈ partsLT stmt.parts pos, c.position < pos :=
    fun c hc => mem_partsLT_lt stmt.parts pos c hc
  have hATp : ∀ c ∈ partsAT stmt.parts pos, c.position = pos :=
    mem_partsAT_at stmt.parts pos hs
  have hGTp : ∀ c ∈ partsGT stmt.parts pos, pos < c.position :=
    fun c hc => mem_partsGT_gt stmt.parts pos hs c hc
  have hparts : stmt.parts = partsLT stmt.parts pos ++ partsAT stmt.parts pos
      ++ partsGT stmt.parts pos := by
    rw [partsLT_append_partsAT, partsLE_append_partsGT]
  have hmemLT : ∀ c ∈ partsLT stmt.parts pos, c ∈ stmt.parts := by
    intro c hc
    rw [hparts]
    simp [hc]
  have hmemAT : ∀ c ∈ partsAT stmt.parts pos, c ∈ stmt.parts := by
    intro c hc
    rw [hparts]
    simp [hc]
  have hmemGT : ∀ c ∈ partsGT stmt.parts pos, c ∈ stmt.parts := by
    intro c hc
    rw [hparts]
    simp [hc]
  have hposmem : ∀ (l : List StatementPart) (buffer : List Char) (e : GEntry),
      e ∈ l.map (pv buffer) → ∃ c ∈ l, e.position = c.position := by
    intro l buffer e he
    obtain ⟨c, hc, rfl⟩ := List.mem_map.mp he
    exact ⟨c, hc, rfl⟩
  have hGA : ∀ e ∈ gview ((partsLT stmt.parts pos).map (pv stmt.buffer)),
      e.position < pos := by
    intro e he
    obtain ⟨x, hx, hxe⟩ := gview_positions _ _ he
    obtain ⟨c, hc, hcp⟩ := hposmem _ _ _ hx
    rw [hxe, hcp]
    exact hLT c hc
  have hGB : ∀ e ∈ gview ((partsGT stmt.parts pos).map (pv stmt.buffer)),
      pos < e.position := by
    intro e he
    obtain ⟨x, hx, hxe⟩ := gview_positions _ _ he
    obtain ⟨c, hc, hcp⟩ := hposmem _ _ _ hx
    rw [hxe, hcp]
    exact hGTp c hc
  have hgv : gview (pview stmt)
      = gview ((partsLT stmt.parts pos).map (pv stmt.buffer))
        ++ gview ((partsAT stmt.parts pos).map (pv stmt.buffer))
        ++ gview ((partsGT stmt.parts pos).map (pv stmt.buffer)) := by
    rw [pview_eq_map]
    conv_lhs => rw [hparts]
    rw [List.map_append, List.map_append]
    rw [gview_append _ _ (by
      intro a ha b hb
      obtain ⟨c', hc', hcp'⟩ := hposmem _ _ b hb
      have hgt := hGTp c' hc'
      rcases List.mem_append.mp ha with ha1 | ha1
      · obtain ⟨c, hc, hcp⟩ := hposmem _ _ a ha1
        rw [hcp, hcp']
        have := hLT c hc
        omega
      · obtain ⟨c, hc, hcp⟩ := hposmem _ _ a ha1
        rw [hcp, hcp']
        have := hATp c hc
        omega)]
    rw [gview_append _ _ (by
      intro a ha b hb
      obtain ⟨c, hc, hcp⟩ := hposmem _ _ a ha
      obtain ⟨c', hc', hcp'⟩ := hposmem _ _ b hb
      rw [hcp, hcp']
      have := hLT c hc
      have := hATp c' hc'
      omega)]
  by_cases hno : NoPartAt stmt.parts pos
  · -- fresh insert
    have hATnil : partsAT stmt.parts pos = [] :=
      (noPartAt_iff_AT_nil stmt.parts pos hs).mp hno
    have hLE : partsLE stmt.parts pos = partsLT stmt.parts pos := by
      rw [← partsLT_append_partsAT stmt.parts pos, hATnil, List.append_nil]
    rw [addPart_fresh_shape stmt pos clause expr args sep hs hno]
    dsimp only
    rw [pview_eq_map]
    dsimp only
    rw [List.map_append, List.map_append]
    rw [pview_map_stable _ _ (partsLE stmt.parts pos) (fun c hc => (hI.spans c (by
      rw [← partsLE_append_partsGT stmt.parts pos]
      exact List.mem_append.mpr (Or.inl hc))).2)]
    rw [pview_map_stable _ _ (partsGT stmt.parts pos) (fun c hc => (hI.spans c (by
      rw [← partsLE_append_partsGT stmt.parts pos]
      exact List.mem_append.mpr (Or.inr hc))).2)]
    have hfreshE : [freshPart pos stmt.buffer.length clause expr args].map
        (pv (stmt.buffer ++ freshText clause expr))
        = [GEntry.mk pos (freshText clause expr) args.length
            (decide (expr ≠ ""))] := by
      unfold pv freshPart
      simp [extract_append_self]
    rw [hfreshE, hLE]
    rw [gview_append _ _ (by
      intro a ha b hb
      obtain ⟨c', hc', hcp'⟩ := hposmem _ _ b hb
      have hgt := hGTp c' hc'
      rcases List.mem_append.mp ha with ha1 | ha1
      · obtain ⟨c, hc, hcp⟩ := hposmem _ _ a ha1
        rw [hcp, hcp']
        have := hLT c hc
        omega
      · simp at ha1
        rw [ha1, hcp']
        dsimp only
        omega)]
    rw [gview_append _ _ (by
      intro a ha b hb
      obtain ⟨c, hc, hcp⟩ := hposmem _ _ a ha
      have := hLT c hc
      simp at hb
      rw [hcp, hb]
      dsimp only
      omega)]
    rw [show gview [GEntry.mk pos (freshText clause expr) args.length
      (decide (expr ≠ ""))] = [GEntry.mk pos (freshText clause expr)
        args.length (decide (expr ≠ ""))] from rfl]
    rw [hgv, hATnil]
    rw [show ((([] : List StatementPart)).map (pv stmt.buffer)) = [] from rfl,
      show gview ([] : List GEntry) = [] from rfl]
    rw [gUpdate_local _ _ _ pos clause expr args sep hGA (by simp) (by simp) hGB]
    rw [gApply_nil]
  · -- a part at the position exists
    obtain ⟨M, hM, hMp⟩ := not_noPartAt _ _ hno
    have hATne : partsAT stmt.parts pos ≠ [] := by
      intro h0
      exact hno ((noPartAt_iff_AT_nil stmt.parts pos hs).mpr h0)
    have hMat : (partsAT stmt.parts pos).getLast? = some M := by
      rw [← getLastLE_eq_getLastAT stmt.parts pos hATne]
      exact hM
    have hATdec : partsAT stmt.parts pos
        = (partsAT stmt.parts pos).dropLast ++ [M] := getLast?_decomp _ _ hMat
    have hrunAT : gview ((partsAT stmt.parts pos).map (pv stmt.buffer))
        = [runEntry pos ((partsAT stmt.parts pos).map (pv stmt.buffer))] := by
      apply gview_const_run
      · intro h0
        exact hATne (by simpa using congrArg List.length h0)
      · intro e he
        obtain ⟨c, hc, hcp⟩ := hposmem _ _ e he
        rw [hcp]
        exact hATp c hc
    have hG1pos : ∀ e ∈ [runEntry pos ((partsAT stmt.parts pos).map (pv stmt.buffer))],
        e.position = pos := by
      intro e he
      simp at he
      rw [he]
      rfl
    have hrunlast : ((partsAT stmt.parts pos).map (pv stmt.buffer)).getLast?
        = some (pv stmt.buffer M) := by
      conv_lhs => rw [hATdec]
      rw [List.map_append]
      exact List.getLast?_concat _
    have hrunhasExpr : (runEntry pos
        ((partsAT stmt.parts pos).map (pv stmt.buffer))).hasExpr = M.hasExpr := by
      unfold runEntry
      dsimp only
      rw [hrunlast]
      rfl
    have hgUp : gUpdate (gview (pview stmt)) pos clause expr args sep
        = gview ((partsLT stmt.parts pos).map (pv stmt.buffer))
          ++ gApply [runEntry pos ((partsAT stmt.parts pos).map (pv stmt.buffer))]
            pos clause expr args sep
          ++ gview ((partsGT stmt.parts pos).map (pv stmt.buffer)) := by
      rw [hgv, hrunAT]
      exact gUpdate_local _ _ _ pos clause expr args sep hGA hG1pos (by simp) hGB
    by_cases hexpr : expr = ""
    · -- value-only refresh: the view is untouched
      rw [addPart_refresh_shape stmt pos clause expr args sep M hs hM hMp hexpr]
      dsimp only
      rw [hgUp, gApply_single_refresh _ _ _ _ _ _ hexpr, ← hrunAT, ← hgv]
      rfl
    · -- merge or split: same grouped view either way
      have hspanM := hI.spans M (hmemAT M (List.mem_of_mem_getLast? hMat))
      have hmemATd : ∀ c ∈ (partsAT stmt.parts pos).dropLast, c ∈ stmt.parts :=
        fun c hc => hmemAT c (List.mem_of_mem_dropLast hc)
      have hATdp : ∀ c ∈ (partsAT stmt.parts pos).dropLast, c.position = pos :=
        fun c hc => hATp c (List.mem_of_mem_dropLast hc)
      have hmapATdec : (partsAT stmt.parts pos).map (pv stmt.buffer)
          = ((partsAT stmt.parts pos).dropLast).map (pv stmt.buffer)
            ++ [pv stmt.buffer M] := by
        conv_lhs => rw [hATdec]
        rw [List.map_append]
        rfl
      have hgApp : gApply [runEntry pos
            ((partsAT stmt.parts pos).map (pv stmt.buffer))] pos clause expr args sep
          = [GEntry.mk pos
              ((runEntry pos ((partsAT stmt.parts pos).map (pv stmt.buffer))).text
                ++ (sepText M sep ++ expr.data))
              ((runEntry pos ((partsAT stmt.parts pos).map (pv stmt.buffer))).argLen
                + args.length) true] := by
        rw [gApply_single _ _ _ _ _ _ hexpr, hrunhasExpr]
        rfl
      by_cases hcont : M.bufHigh = stmt.buffer.length
      · -- contiguous merge
        rw [addPart_merge_shape stmt pos clause expr args sep M hs hM hMp hexpr hcont]
        dsimp only
        rw [pview_eq_map]
        dsimp only
        have hdropLE : (partsLE stmt.parts pos).dropLast
            = partsLT stmt.parts pos ++ (partsAT stmt.parts pos).dropLast := by
          rw [← partsLT_append_partsAT stmt.parts pos,
            List.dropLast_append_of_ne_nil _ hATne]
        have hbuf : stmt.buffer ++ sepText M sep ++ expr.data
            = stmt.buffer ++ (sepText M sep ++ expr.data) := by
          rw [List.append_assoc]
        have hlist : (partsLE stmt.parts pos).dropLast
              ++ [extendPart M stmt.buffer.length sep expr args]
              ++ partsGT stmt.parts pos
            = partsLT stmt.parts pos
              ++ ((partsAT stmt.parts pos).dropLast
                ++ [extendPart M stmt.buffer.length sep expr args])
              ++ partsGT stmt.parts pos := by
          rw [hdropLE]
          simp [List.append_assoc]
        rw [hbuf, hlist, List.map_append, List.map_append, List.map_append]
        rw [pview_map_stable _ _ (partsLT stmt.parts pos) (fun c hc =>
          (hI.spans c (hmemLT c hc)).2)]
        rw [pview_map_stable _ _ ((partsAT stmt.parts pos).dropLast) (fun c hc =>
          (hI.spans c (hmemATd c hc)).2)]
        rw [pview_map_stable _ _ (partsGT stmt.parts pos) (fun c hc =>
          (hI.spans c (hmemGT c hc)).2)]
        have hextE : [extendPart M stmt.buffer.length sep expr args].map
            (pv (stmt.buffer ++ (sepText M sep ++ expr.data)))
            = [GEntry.mk pos
                (extract stmt.buffer M.bufLow M.bufHigh ++ (sepText M sep ++ expr.data))
                (M.argLen + args.length) true] := by
          simp only [List.map_cons, List.map_nil]
          unfold pv extendPart
          dsimp only
          have harith : stmt.buffer.length + (sepText M sep).length + expr.data.length
              = stmt.buffer.length + (sepText M sep ++ expr.data).length := by
            simp [Nat.add_assoc]
          rw [harith, extract_extend stmt.buffer _ M.bufLow (by omega), ← hcont, hMp]
        rw [hextE]
        rw [gview_append _ _ (by
          intro a ha b hb
          obtain ⟨c', hc', hcp'⟩ := hposmem _ _ b hb
          have hgt := hGTp c' hc'
          rcases List.mem_append.mp ha with ha1 | ha1
          · obtain ⟨c, hc, hcp⟩ := hposmem _ _ a ha1
            rw [hcp, hcp']
            have := hLT c hc
            omega
          · rcases List.mem_append.mp ha1 with ha2 | ha2
            · obtain ⟨c, hc, hcp⟩ := hposmem _ _ a ha2
              rw [hcp, hcp']
              have := hATdp c hc
              omega
            · simp at ha2
              rw [ha2, hcp']
              dsimp only
              omega)]
        rw [gview_append _ _ (by
          intro a ha b hb
          obtain ⟨c, hc, hcp⟩ := hposmem _ _ a ha
          have hlt := hLT c hc
          rcases List.mem_append.mp hb with hb1 | hb1
          · obtain ⟨c', hc', hcp'⟩ := hposmem _ _ b hb1
            rw [hcp, hcp']
            have := hATdp c' hc'
            omega
          · simp at hb1
            rw [hcp, hb1]
            dsimp only
            omega)]
        rw [gview_const_run (((partsAT stmt.parts pos).dropLast).map (pv stmt.buffer)
          ++ [GEntry.mk pos (extract stmt.buffer M.bufLow M.bufHigh
            ++ (sepText M sep ++ expr.data)) (M.argLen + args.length) true]) pos
          (by simp) (by
          intro e he
          rcases List.mem_append.mp he with he1 | he1
          · obtain ⟨c, hc, hcp⟩ := hposmem _ _ e he1
            rw [hcp]
            exact hATdp c hc
          · simp at he1
            rw [he1])]
        rw [runEntry_concat]
        rw [hgUp, hgApp]
        have hrunsplit : runEntry pos ((partsAT stmt.parts pos).map (pv stmt.buffer))
            = GEntry.mk pos
                ((runEntry pos (((partsAT stmt.parts pos).dropLast).map
                  (pv stmt.buffer))).text ++ (pv stmt.buffer M).text)
                ((runEntry pos (((partsAT stmt.parts pos).dropLast).map
                  (pv stmt.buffer))).argLen + (pv stmt.buffer M).argLen)
                ((pv stmt.buffer M).hasExpr) := by
          rw [hmapATdec, runEntry_concat]
        rw [hrunsplit]
        simp [pv, List.append_assoc, Nat.add_assoc]
      · -- non-contiguous split
        rw [addPart_split_shape stmt pos clause expr args sep M hs hM hMp hexpr hcont]
        dsimp only
        rw [pview_eq_map]
        dsimp only
        have hbuf : stmt.buffer ++ sepText M sep ++ expr.data
            = stmt.buffer ++ (sepText M sep ++ expr.data) := by
          rw [List.append_assoc]
        have hlist : partsLE stmt.parts pos
              ++ [splitPart pos stmt.buffer.length M sep expr args]
              ++ partsGT stmt.parts pos
            = partsLT stmt.parts pos
              ++ (partsAT stmt.parts pos
                ++ [splitPart pos stmt.buffer.length M sep expr args])
              ++ partsGT stmt.parts pos := by
          rw [← partsLT_append_partsAT stmt.parts pos]
          simp [List.append_assoc]
        rw [hbuf, hlist, List.map_append, List.map_append, List.map_append]
        rw [pview_map_stable _ _ (partsLT stmt.parts pos) (fun c hc =>
          (hI.spans c (hmemLT c hc)).2)]
        rw [pview_map_stable _ _ (partsAT stmt.parts pos) (fun c hc =>
          (hI.spans c (hmemAT c hc)).2)]
        rw [pview_map_stable _ _ (partsGT stmt.parts pos) (fun c hc =>
          (hI.spans c (hmemGT c hc)).2)]
        have hspE : [splitPart pos stmt.buffer.length M sep expr args].map
            (pv (stmt.buffer ++ (sepText M sep ++ expr.data)))
            = [GEntry.mk pos (sepText M sep ++ expr.data) args.length true] := by
          simp only [List.map_cons, List.map_nil]
          unfold pv splitPart
          dsimp only
          have harith : stmt.buffer.length + (sepText M sep).length + expr.data.length
              = stmt.buffer.length + (sepText M sep ++ expr.data).length := by
            simp [Nat.add_assoc]
          rw [harith, extract_append_self]
        rw [hspE]
        rw [gview_append _ _ (by
          intro a ha b hb
          obtain ⟨c', hc', hcp'⟩ := hposmem _ _ b hb
          have hgt := hGTp c' hc'
          rcases List.mem_append.mp ha with ha1 | ha1
          · obtain ⟨c, hc, hcp⟩ := hposmem _ _ a ha1
            rw [hcp, hcp']
            have := hLT c hc
            omega
          · rcases List.mem_append.mp ha1 with ha2 | ha2
            · obtain ⟨c, hc, hcp⟩ := hposmem _ _ a ha2
              rw [hcp, hcp']
              have := hATp c hc
              omega
            · simp at ha2
              rw [ha2, hcp']
              dsimp only
              omega)]
        rw [gview_append _ _ (by
          intro a ha b hb
          obtain ⟨c, hc, hcp⟩ := hposmem _ _ a ha
          have hlt := hLT c hc
          rcases List.mem_append.mp hb with hb1 | hb1
          · obtain ⟨c', hc', hcp'⟩ := hposmem _ _ b hb1
            rw [hcp, hcp']
            have := hATp c' hc'
            omega
          · simp at hb1
            rw [hcp, hb1]
            dsimp only
            omega)]
        rw [gview_const_run ((partsAT stmt.parts pos).map (pv stmt.buffer)
          ++ [GEntry.mk pos (sepText M sep ++ expr.data) args.length true]) pos
          (by simp) (by
          intro e he
          rcases List.mem_append.mp he with he1 | he1
          · obtain ⟨c, hc, hcp⟩ := hposmem _ _ e he1
            rw [hcp]
            exact hATp c hc
          · simp at he1
            rw [he1])]
        rw [runEntry_concat]
        rw [hgUp, hgApp]

/-! ### The parameter-list effect of one call as a single splice -/

theorem takeWhile_append_head_false {α : Type} (p : α → Bool) (A B : List α)
    (h : ∀ b, B.head? = some b → p b = false) :
    (A ++ B).takeWhile p = A.takeWhile p := by
  induction A with
  | nil =>
    rcases B with _ | ⟨b, B'⟩
    · rfl
    · rw [List.nil_append, List.takeWhile_cons, if_neg (by simp [h b rfl])]
      rfl
  | cons a A' ih =>
    rw [List.cons_append, List.takeWhile_cons, List.takeWhile_cons]
    by_cases hpa : p a = true
    · rw [if_pos hpa, if_pos hpa, ih]
    · rw [if_neg hpa, if_neg hpa]

/-- Splitting below a run whose first element already sits past the bound
ignores the run. -/
theorem partsLE_stop (A B : List StatementPart) (pos : Int)
    (hhead : ∀ c, B.head? = some c → ¬ (c.position ≤ pos)) :
    partsLE (A ++ B) pos = partsLE A pos := by
  rw [partsLE, partsLE, takeWhile_append_head_false _ _ _ (fun b hb => by
    simp only [decide_eq_false_iff_not]
    exact hhead b hb)]

theorem takeWhile_takeWhile_of_imp {α : Type} (p q : α → Bool) (l : List α)
    (h : ∀ a, p a = true → q a = true) :
    (l.takeWhile q).takeWhile p = l.takeWhile p := by
  induction l with
  | nil => rfl
  | cons a l ih =>
    by_cases hq : q a = true
    · rw [List.takeWhile_cons, if_pos hq, List.takeWhile_cons, List.takeWhile_cons]
      by_cases hp : p a = true
      · rw [if_pos hp, if_pos hp, ih]
      · rw [if_neg hp, if_neg hp]
    · have hp : p a = false := by
        cases hpa : p a
        · rfl
        · exact absurd (h a hpa) hq
      rw [List.takeWhile_cons, if_neg hq, List.takeWhile_cons, if_neg (by simp [hp])]
      rfl

/-- Splitting at a higher position passes over a whole prefix that sits at or
below a lower one. -/
theorem partsLE_above (W GTl : List StatementPart) (pos1 pos2 : Int)
    (hlt : pos1 < pos2) (hW : ∀ c ∈ W, c.position ≤ pos1) :
    partsLE (W ++ GTl) pos2 = W ++ partsLE GTl pos2 := by
  rw [partsLE, takeWhile_append_all _ _ _ (fun c hc => by
    have := hW c hc
    simp only [decide_eq_true_eq]
    omega)]
  rfl

/-- One splice on the flat parameter list: replace the `k` slots starting at
`o` by `n` (`insertAt` is the `k = 0` case, an in-bounds Go `copy` the
`k = n.length` case). -/
def spliceAt (x n : List Val) (o k : Nat) : List Val :=
  x.take o ++ n ++ x.drop (o + k)

theorem insertAt_eq_spliceAt (d s : List Val) (i : Nat) :
    insertAt d s i = spliceAt d s i 0 := by
  unfold insertAt spliceAt
  rw [Nat.add_zero]

theorem copyAt_eq_spliceAt (a s : List Val) (i : Nat)
    (h : i + s.length ≤ a.length) :
    copyAt a s i = spliceAt a s i s.length :=
  copyAt_splice a s i h

/-- Two splices over disjoint windows commute; the later window's offset
shifts by the net growth of the earlier one. -/
theorem spliceAt_comm (x n1 n2 : List Val) (o1 k1 o2 k2 : Nat)
    (h1 : o1 + k1 ≤ o2) (h2 : o2 + k2 ≤ x.length) (hk : k1 ≤ n1.length) :
    spliceAt (spliceAt x n2 o2 k2) n1 o1 k1
      = spliceAt (spliceAt x n1 o1 k1) n2 (o2 + n1.length - k1) k2 := by
  have hxo2 : (x.take o2).length = o2 := by
    rw [List.length_take]
    omega
  have hxo1 : (x.take o1).length = o1 := by
    rw [List.length_take]
    omega
  have hL : spliceAt (spliceAt x n2 o2 k2) n1 o1 k1
      = x.take o1 ++ n1 ++ ((x.drop (o1 + k1)).take (o2 - (o1 + k1))
          ++ (n2 ++ x.drop (o2 + k2))) := by
    unfold spliceAt
    rw [List.append_assoc (x.take o2),
      List.take_append_of_le_length (by rw [hxo2]; omega),
      List.drop_append_of_le_length (by rw [hxo2]; omega),
      List.take_take, Nat.min_eq_left (by omega : o1 ≤ o2),
      List.drop_take o2 (o1 + k1) x]
  have hzA : (x.take o1 ++ n1).length = o1 + n1.length := by
    rw [List.length_append, hxo1]
  have hi1 : o2 + n1.length - k1 - (o1 + n1.length) = o2 - (o1 + k1) := by
    omega
  have hTake : ((x.take o1 ++ n1) ++ x.drop (o1 + k1)).take (o2 + n1.length - k1)
      = (x.take o1 ++ n1) ++ (x.drop (o1 + k1)).take (o2 - (o1 + k1)) := by
    rw [List.take_append_eq_append_take,
      List.take_of_length_le (by rw [hzA]; omega), hzA, hi1]
  have hDrop : ((x.take o1 ++ n1) ++ x.drop (o1 + k1)).drop (o2 + n1.length - k1 + k2)
      = x.drop (o2 + k2) := by
    rw [List.drop_append_eq_append_drop,
      List.drop_eq_nil_of_le (by rw [hzA]; omega), List.nil_append, hzA,
      List.drop_drop]
    have hidx : o1 + k1 + (o2 + n1.length - k1 + k2 - (o1 + n1.length))
        = o2 + k2 := by
      omega
    rw [hidx]
  have hR : spliceAt (spliceAt x n1 o1 k1) n2 (o2 + n1.length - k1) k2
      = x.take o1 ++ n1 ++ ((x.drop (o1 + k1)).take (o2 - (o1 + k1))
          ++ (n2 ++ x.drop (o2 + k2))) := by
    unfold spliceAt
    rw [hTake, hDrop]
    simp [List.append_assoc]
  rw [hL, hR]

/-- The splice offset of one call: a value-only refresh starts at the matched
fragment's own slots, every other path inserts right before the parameters of
later-positioned fragments. -/
def argsOff (stmt : Stmt) (pos : Int) (expr : String) : Nat :=
  if ¬ NoPartAt stmt.parts pos ∧ expr = "" then
    argsTail ((partsLE stmt.parts pos).dropLast)
  else argsTail (partsLE stmt.parts pos)

/-- The number of slots one call overwrites: the supplied count on the
refresh path, none (a pure insertion) otherwise. -/
def argsK (stmt : Stmt) (pos : Int) (expr : String) (args : List Val) : Nat :=
  if ¬ NoPartAt stmt.parts pos ∧ expr = "" then args.length else 0

/-- A well-formed refresh supplies at most as many values as the matched
fragment owns. -/
theorem wfAdd_refresh_bound (stmt : Stmt) (pos : Int) (cl ex : String)
    (ar : List Val) (sp : String)
    (hwf : wfAdd stmt pos cl ex ar sp [] = true) :
    ¬ NoPartAt stmt.parts pos → ex = "" →
      ar.length ≤ ((partsLE stmt.parts pos).getLast?.getD default).argLen := by
  intro hno hex
  unfold wfAdd at hwf
  rw [if_neg hno, if_pos hex] at hwf
  simp only [Bool.and_eq_true, decide_eq_true_eq] at hwf
  exact hwf.1

/-- Whatever path `addPart` takes, its effect on the flat parameter list is
the single splice described by `argsOff`/`argsK`. -/
theorem applyFrag_args (stmt : Stmt) (pos : Int) (clause expr : String)
    (args : List Val) (sep : String) (hI : Inv stmt)
    (hbound : ¬ NoPartAt stmt.parts pos → expr = "" →
      args.length ≤ ((partsLE stmt.parts pos).getLast?.getD default).argLen) :
    ((addPart stmt pos clause expr args sep).1).args
      = spliceAt stmt.args args (argsOff stmt pos expr)
          (argsK stmt pos expr args) := by
  have hoff : stmt.args.length - argsTail (partsGT stmt.parts pos)
      = argsTail (partsLE stmt.parts pos) := by
    have h2 := hI.argsLen
    rw [argsTail_split stmt.parts pos] at h2
    omega
  by_cases hno : NoPartAt stmt.parts pos
  · rw [addPart_fresh_shape stmt pos clause expr args sep hI.sorted hno]
    dsimp only
    rw [insertAt_eq_spliceAt, hoff]
    unfold argsOff argsK
    rw [if_neg (fun hc => hc.1 hno), if_neg (fun hc => hc.1 hno)]
  · obtain ⟨M, hM, hMp⟩ := not_noPartAt _ _ hno
    by_cases hex : expr = ""
    · rw [addPart_refresh_shape stmt pos clause expr args sep M hI.sorted hM
        hMp hex]
      dsimp only
      have hdec := getLast?_decomp _ _ hM
      have hat : argsTail (partsLE stmt.parts pos)
          = argsTail ((partsLE stmt.parts pos).dropLast) + M.argLen := by
        conv_lhs => rw [hdec, argsTail_append]
        simp [argsTail]
      have hoffidx : stmt.args.length - argsTail (partsGT stmt.parts pos)
          - M.argLen = argsTail ((partsLE stmt.parts pos).dropLast) := by
        omega
      have hb : args.length ≤ M.argLen := by
        have hx := hbound hno hex
        rw [hM] at hx
        exact hx
      rw [hoffidx, copyAt_eq_spliceAt _ _ _ (by
        have h2 := hI.argsLen
        rw [argsTail_split stmt.parts pos] at h2
        omega)]
      unfold argsOff argsK
      rw [if_pos ⟨hno, hex⟩, if_pos ⟨hno, hex⟩]
    · by_cases hcont : M.bufHigh = stmt.buffer.length
      · rw [addPart_merge_shape stmt pos clause expr args sep M hI.sorted hM
          hMp hex hcont]
        dsimp only
        rw [insertAt_eq_spliceAt, hoff]
        unfold argsOff argsK
        rw [if_neg (fun hc => hex hc.2), if_neg (fun hc => hex hc.2)]
      · rw [addPart_split_shape stmt pos clause expr args sep M hI.sorted hM
          hMp hex hcont]
        dsimp only
        rw [insertAt_eq_spliceAt, hoff]
        unfold argsOff argsK
        rw [if_neg (fun hc => hex hc.2), if_neg (fun hc => hex hc.2)]

/-- Cutting the flat parameter list along the fragments' parameter counts. -/
def splitArgs (args : List Val) : List StatementPart → List (List Val)
  | [] => []
  | c :: rest => args.take c.argLen :: splitArgs (args.drop c.argLen) rest

theorem splitArgs_spec (parts : List StatementPart) : ∀ args : List Val,
    args.length = argsTail parts →
    (splitArgs args parts).map List.length = parts.map (fun c => c.argLen)
    ∧ (splitArgs args parts).flatten = args := by
  induction parts with
  | nil =>
    intro args h
    have h0 : args = [] := List.eq_nil_of_length_eq_zero (by
      rw [h]
      rfl)
    subst h0
    exact ⟨rfl, rfl⟩
  | cons c rest ih =>
    intro args h
    have hat : argsTail (c :: rest) = c.argLen + argsTail rest := by
      simp [argsTail]
    have h1 : (args.take c.argLen).length = c.argLen := by
      rw [List.length_take]
      omega
    have h2 := ih (args.drop c.argLen) (by
      rw [List.length_drop]
      omega)
    rw [splitArgs]
    refine ⟨?_, ?_⟩
    · rw [List.map_cons, List.map_cons, h1, h2.1]
    · rw [List.flatten_cons, h2.2, List.take_append_drop]

/-- Every invariant-carrying statement has a supplied-value ledger: cut the
parameter list along the fragments. -/
theorem corr_splitArgs (stmt : Stmt) (hI : Inv stmt) :
    Corr stmt (splitArgs stmt.args stmt.parts) := by
  have h := splitArgs_spec stmt.parts stmt.args hI.argsLen
  exact ⟨h.1.symm, h.2.symm⟩

/-- A single well-formed call preserves the structural invariant. -/
theorem inv_addPart (stmt : Stmt) (pos : Int) (clause expr : String)
    (args : List Val) (sep : String) (hI : Inv stmt)
    (hwf : wfAdd stmt pos clause expr args sep [] = true) :
    Inv (addPart stmt pos clause expr args sep).1 :=
  (step_preserved stmt (splitArgs stmt.args stmt.parts)
    (Op.frag pos clause expr args sep) hI (corr_splitArgs stmt hI) hwf).1

/-! ### Escape-freedom is preserved along calls with escape-free texts -/

theorem noBS_freshText (clause expr : String) (h1 : '\\' ∉ clause.data)
    (h2 : '\\' ∉ expr.data) : '\\' ∉ freshText clause expr := by
  unfold freshText
  intro hm
  rcases List.mem_append.mp hm with hm | hm
  · by_cases hc : clause ≠ ""
    · rw [if_pos hc] at hm
      rcases List.mem_append.mp hm with hm | hm
      · exact h1 hm
      · by_cases he : expr ≠ ""
        · rw [if_pos he] at hm
          simp at hm
        · rw [if_neg he] at hm
          cases hm
    · rw [if_neg hc] at hm
      cases hm
  · exact h2 hm

theorem noBS_sepText (M : StatementPart) (sep : String) (h : '\\' ∉ sep.data) :
    '\\' ∉ sepText M sep := by
  unfold sepText
  split
  · exact h
  · simp

/-- After one call whose clause, body and separator are escape-free, every
fragment text of the result is still escape-free. -/
theorem noBS_addPart (stmt : Stmt) (pos : Int) (cl ex : String) (ar : List Val)
    (sp : String) (hI : Inv stmt)
    (hBS : ∀ c ∈ stmt.parts, '\\' ∉ extract stmt.buffer c.bufLow c.bufHigh)
    (hb1 : '\\' ∉ cl.data) (hb2 : '\\' ∉ ex.data) (hb3 : '\\' ∉ sp.data) :
    ∀ c ∈ (addPart stmt pos cl ex ar sp).1.parts,
      '\\' ∉ extract (addPart stmt pos cl ex ar sp).1.buffer c.bufLow c.bufHigh := by
  have hold : ∀ (u : List Char), ∀ c ∈ stmt.parts,
      '\\' ∉ extract (stmt.buffer ++ u) c.bufLow c.bufHigh := by
    intro u c hc
    rw [extract_within _ _ _ _ (hI.spans c hc).2]
    exact hBS c hc
  have hmemLE : ∀ c ∈ partsLE stmt.parts pos, c ∈ stmt.parts :=
    fun c hc => (List.takeWhile_sublist _).subset hc
  have hmemGT : ∀ c ∈ partsGT stmt.parts pos, c ∈ stmt.parts :=
    fun c hc => (List.dropWhile_sublist _).subset hc
  by_cases hno : NoPartAt stmt.parts pos
  · rw [addPart_fresh_shape stmt pos cl ex ar sp hI.sorted hno]
    dsimp only
    intro c hc
    rcases mem_insert_split _ _ _ _ hc with rfl | hc2
    · simp only [freshPart]
      rw [extract_append_self]
      exact noBS_freshText cl ex hb1 hb2
    · apply hold
      rcases List.mem_append.mp hc2 with h | h
      · exact hmemLE c h
      · exact hmemGT c h
  · obtain ⟨M, hM, hMp⟩ := not_noPartAt _ _ hno
    have hMmem : M ∈ stmt.parts := hmemLE M (List.mem_of_mem_getLast? hM)
    have hsepbs : '\\' ∉ sepText M sp := noBS_sepText M sp hb3
    by_cases hex : ex = ""
    · rw [addPart_refresh_shape stmt pos cl ex ar sp M hI.sorted hM hMp hex]
      dsimp only
      exact hBS
    · by_cases hcont : M.bufHigh = stmt.buffer.length
      · rw [addPart_merge_shape stmt pos cl ex ar sp M hI.sorted hM hMp hex hcont]
        dsimp only
        intro c hc
        rcases mem_insert_split _ _ _ _ hc with rfl | hc2
        · simp only [extendPart]
          rw [List.append_assoc]
          have hlen : stmt.buffer.length + (sepText M sp).length + ex.data.length
              = stmt.buffer.length + (sepText M sp ++ ex.data).length := by
            rw [List.length_append]
            omega
          rw [hlen, extract_extend _ _ _ (by
            have := (hI.spans M hMmem).1
            omega)]
          intro hmem
          rcases List.mem_append.mp hmem with hmem | hmem
          · rw [← hcont] at hmem
            exact hBS M hMmem hmem
          · rcases List.mem_append.mp hmem with hmem | hmem
            · exact hsepbs hmem
            · exact hb2 hmem
        · rw [List.append_assoc]
          apply hold
          rcases List.mem_append.mp hc2 with h | h
          · exact hmemLE c (List.mem_of_mem_dropLast h)
          · exact hmemGT c h
      · rw [addPart_split_shape stmt pos cl ex ar sp M hI.sorted hM hMp hex hcont]
        dsimp only
        intro c hc
        rcases mem_insert_split _ _ _ _ hc with rfl | hc2
        · simp only [splitPart]
          rw [List.append_assoc]
          have hlen : stmt.buffer.length + (sepText M sp).length + ex.data.length
              = stmt.buffer.length + (sepText M sp ++ ex.data).length := by
            rw [List.length_append]
            omega
          rw [hlen, extract_append_self]
          intro hmem
          rcases List.mem_append.mp hmem with hmem | hmem
          · exact hsepbs hmem
          · exact hb2 hmem
        · rw [List.append_assoc]
          apply hold
          rcases List.mem_append.mp hc2 with h | h
          · exact hmemLE c h
          · exact hmemGT c h

/-- On an escape-free statement the render pass factors through the grouped
fragment view. -/
theorem stringOf_gview (stmt : Stmt) (hI : Inv stmt)
    (hBS : ∀ c ∈ stmt.parts, '\\' ∉ extract stmt.buffer c.bufLow c.bufHigh) :
    stringOf stmt = renderView stmt.dialect (gview (pview stmt)) 0 1 true := by
  have hprops : ∀ e ∈ pview stmt,
      '\\' ∉ e.text ∧ countMarkers e.text = e.argLen := by
    intro e he
    rw [pview_eq_map] at he
    obtain ⟨c, hc, rfl⟩ := List.mem_map.mp he
    exact ⟨hBS c hc, hI.markers c hc⟩
  rw [stringOf_eq_renderString stmt hI.cacheOk, renderString,
    renderLoop_eq_renderView]
  show renderView stmt.dialect (pview stmt) 0 1 true = _
  rw [renderView_eq_U stmt.dialect (pview stmt) hprops,
    renderViewU_gview stmt.dialect (pview stmt) (fun e he => (hprops e he).1),
    ← renderView_eq_U stmt.dialect (gview (pview stmt))
      (gview_prop (pview stmt) hprops)]

/-! ### Two `gUpdate`s at distinct positions commute -/

theorem gApply_pos (G : List GEntry) (pos : Int) (clause expr : String)
    (args : List Val) (sep : String) (hG : ∀ x ∈ G, x.position = pos) :
    ∀ x ∈ gApply G pos clause expr args sep, x.position = pos := by
  unfold gApply
  rcases hg : G.getLast? with _ | E
  · dsimp only
    intro x hx
    simp at hx
    rw [hx]
  · dsimp only
    by_cases he : expr = ""
    · rw [if_pos he]
      exact hG
    · rw [if_neg he]
      intro x hx
      simp at hx
      rw [hx]

theorem gview_len_le_one (v : List GEntry) (p : Int)
    (hall : ∀ e ∈ v, e.position = p) : (gview v).length ≤ 1 := by
  cases v with
  | nil => simp [gview]
  | cons e v' =>
    rw [gview_const_run (e :: v') p (by simp) hall]
    simp

theorem sorted_sublist (l m : List StatementPart) (h : m.Sublist l)
    (hs : PartsSorted l) : PartsSorted m := by
  rw [partsSorted_iff_pw] at hs ⊢
  exact List.Pairwise.sublist h hs

theorem mem_map_pv_pos (l : List StatementPart) (buffer : List Char) (e : GEntry)
    (he : e ∈ l.map (pv buffer)) : ∃ c ∈ l, e.position = c.position := by
  obtain ⟨c, hc, rfl⟩ := List.mem_map.mp he
  exact ⟨c, hc, rfl⟩

theorem gview_map_pos (l : List StatementPart) (buffer : List Char)
    (P : Int → Prop) (h : ∀ c ∈ l, P c.position) :
    ∀ e ∈ gview (l.map (pv buffer)), P e.position := by
  intro e he
  obtain ⟨x, hx, hxe⟩ := gview_positions _ _ he
  obtain ⟨c, hc, hce⟩ := mem_map_pv_pos l buffer x hx
  rw [hxe, hce]
  exact h c hc

/-- Abstract commutation: on a view decomposed around two distinct positions,
the two group-local updates do not interact. -/
theorem gUpdate_comm5 (GA G1 GB G2 GC : List GEntry) (pos1 pos2 : Int)
    (hlt : pos1 < pos2)
    (hGA : ∀ e ∈ GA, e.position < pos1)
    (hG1 : ∀ e ∈ G1, e.position = pos1) (hG1l : G1.length ≤ 1)
    (hGB : ∀ e ∈ GB, pos1 < e.position ∧ e.position < pos2)
    (hG2 : ∀ e ∈ G2, e.position = pos2) (hG2l : G2.length ≤ 1)
    (hGC : ∀ e ∈ GC, pos2 < e.position)
    (c1 e1 s1 c2 e2 s2 : String) (a1 a2 : List Val) :
    gUpdate (gUpdate (GA ++ G1 ++ GB ++ G2 ++ GC) pos1 c1 e1 a1 s1)
        pos2 c2 e2 a2 s2
      = gUpdate (gUpdate (GA ++ G1 ++ GB ++ G2 ++ GC) pos2 c2 e2 a2 s2)
          pos1 c1 e1 a1 s1 := by
  have hA1 : ∀ x ∈ gApply G1 pos1 c1 e1 a1 s1, x.position = pos1 :=
    gApply_pos G1 pos1 c1 e1 a1 s1 hG1
  have hA2 : ∀ x ∈ gApply G2 pos2 c2 e2 a2 s2, x.position = pos2 :=
    gApply_pos G2 pos2 c2 e2 a2 s2 hG2
  have hassoc1 : GA ++ G1 ++ GB ++ G2 ++ GC = GA ++ G1 ++ (GB ++ G2 ++ GC) := by
    simp [List.append_assoc]
  have h1 : gUpdate (GA ++ G1 ++ GB ++ G2 ++ GC) pos1 c1 e1 a1 s1
      = GA ++ gApply G1 pos1 c1 e1 a1 s1 ++ (GB ++ G2 ++ GC) := by
    rw [hassoc1]
    exact gUpdate_local GA G1 (GB ++ G2 ++ GC) pos1 c1 e1 a1 s1 hGA hG1 hG1l (by
      intro x hx
      rcases List.mem_append.mp hx with hx | hx
      · rcases List.mem_append.mp hx with hx | hx
        · exact (hGB x hx).1
        · have := hG2 x hx
          omega
      · have := hGC x hx
        omega)
  have h12 : gUpdate (GA ++ gApply G1 pos1 c1 e1 a1 s1 ++ (GB ++ G2 ++ GC))
        pos2 c2 e2 a2 s2
      = (GA ++ gApply G1 pos1 c1 e1 a1 s1 ++ GB)
        ++ gApply G2 pos2 c2 e2 a2 s2 ++ GC := by
    have hre : GA ++ gApply G1 pos1 c1 e1 a1 s1 ++ (GB ++ G2 ++ GC)
        = (GA ++ gApply G1 pos1 c1 e1 a1 s1 ++ GB) ++ G2 ++ GC := by
      simp [List.append_assoc]
    rw [hre]
    exact gUpdate_local _ G2 GC pos2 c2 e2 a2 s2 (by
      intro x hx
      rcases List.mem_append.mp hx with hx | hx
      · rcases List.mem_append.mp hx with hx | hx
        · have := hGA x hx
          omega
        · have := hA1 x hx
          omega
      · exact (hGB x hx).2) hG2 hG2l hGC
  have h2 : gUpdate (GA ++ G1 ++ GB ++ G2 ++ GC) pos2 c2 e2 a2 s2
      = (GA ++ G1 ++ GB) ++ gApply G2 pos2 c2 e2 a2 s2 ++ GC :=
    gUpdate_local (GA ++ G1 ++ GB) G2 GC pos2 c2 e2 a2 s2 (by
      intro x hx
      rcases List.mem_append.mp hx with hx | hx
      · rcases List.mem_append.mp hx with hx | hx
        · have := hGA x hx
          omega
        · have := hG1 x hx
          omega
      · exact (hGB x hx).2) hG2 hG2l hGC
  have h21 : gUpdate ((GA ++ G1 ++ GB) ++ gApply G2 pos2 c2 e2 a2 s2 ++ GC)
        pos1 c1 e1 a1 s1
      = GA ++ gApply G1 pos1 c1 e1 a1 s1
        ++ (GB ++ gApply G2 pos2 c2 e2 a2 s2 ++ GC) := by
    have hre : (GA ++ G1 ++ GB) ++ gApply G2 pos2 c2 e2 a2 s2 ++ GC
        = GA ++ G1 ++ (GB ++ gApply G2 pos2 c2 e2 a2 s2 ++ GC) := by
      simp [List.append_assoc]
    rw [hre]
    exact gUpdate_local GA G1 _ pos1 c1 e1 a1 s1 hGA hG1 hG1l (by
      intro x hx
      rcases List.mem_append.mp hx with hx | hx
      · rcases List.mem_append.mp hx with hx | hx
        · exact (hGB x hx).1
        · have := hA2 x hx
          omega
      · have := hGC x hx
        omega)
  rw [h1, h12, h2, h21]
  simp [List.append_assoc]

/-- The grouped view of an invariant-carrying statement decomposes around any
two positions, so the two grouped-view updates commute. -/
theorem gUpdate_comm_stmt (stmt : Stmt) (hI : Inv stmt) (pos1 pos2 : Int)
    (hlt : pos1 < pos2) (c1 e1 s1 c2 e2 s2 : String) (a1 a2 : List Val) :
    gUpdate (gUpdate (gview (pview stmt)) pos1 c1 e1 a1 s1) pos2 c2 e2 a2 s2
      = gUpdate (gUpdate (gview (pview stmt)) pos2 c2 e2 a2 s2)
          pos1 c1 e1 a1 s1 := by
  have hs := hI.sorted
  have hsD : PartsSorted (partsGT stmt.parts pos1) :=
    sorted_sublist _ _ (List.dropWhile_sublist _) hs
  have hparts : stmt.parts
      = partsLT stmt.parts pos1 ++ partsAT stmt.parts pos1
        ++ (partsLT (partsGT stmt.parts pos1) pos2
          ++ partsAT (partsGT stmt.parts pos1) pos2
          ++ partsGT (partsGT stmt.parts pos1) pos2) := by
    rw [partsLT_append_partsAT, partsLT_append_partsAT,
      partsLE_append_partsGT, partsLE_append_partsGT]
  have hposA : ∀ c ∈ partsLT stmt.parts pos1, c.position < pos1 :=
    mem_partsLT_lt stmt.parts pos1
  have hposR1 : ∀ c ∈ partsAT stmt.parts pos1, c.position = pos1 :=
    mem_partsAT_at stmt.parts pos1 hs
  have hmemD : ∀ c ∈ partsGT stmt.parts pos1, pos1 < c.position :=
    fun c hc => mem_partsGT_gt stmt.parts pos1 hs c hc
  have hposB : ∀ c ∈ partsLT (partsGT stmt.parts pos1) pos2,
      pos1 < c.position ∧ c.position < pos2 := by
    intro c hc
    refine ⟨?_, mem_partsLT_lt _ _ c hc⟩
    exact hmemD c ((List.takeWhile_sublist _).subset
      ((List.takeWhile_sublist _).subset hc))
  have hposR2 : ∀ c ∈ partsAT (partsGT stmt.parts pos1) pos2,
      c.position = pos2 := mem_partsAT_at _ pos2 hsD
  have hposC : ∀ c ∈ partsGT (partsGT stmt.parts pos1) pos2,
      pos2 < c.position := fun c hc => mem_partsGT_gt _ pos2 hsD c hc
  have hgv : gview (pview stmt)
      = gview ((partsLT stmt.parts pos1).map (pv stmt.buffer))
        ++ gview ((partsAT stmt.parts pos1).map (pv stmt.buffer))
        ++ gview ((partsLT (partsGT stmt.parts pos1) pos2).map (pv stmt.buffer))
        ++ gview ((partsAT (partsGT stmt.parts pos1) pos2).map (pv stmt.buffer))
        ++ gview ((partsGT (partsGT stmt.parts pos1) pos2).map (pv stmt.buffer)) := by
    rw [pview_eq_map]
    conv_lhs => rw [hparts]
    rw [List.map_append, List.map_append, List.map_append, List.map_append]
    rw [gview_append
      ((partsLT stmt.parts pos1).map (pv stmt.buffer)
        ++ (partsAT stmt.parts pos1).map (pv stmt.buffer))
      (((partsLT (partsGT stmt.parts pos1) pos2).map (pv stmt.buffer)
        ++ (partsAT (partsGT stmt.parts pos1) pos2).map (pv stmt.buffer))
        ++ (partsGT (partsGT stmt.parts pos1) pos2).map (pv stmt.buffer))
      (by
        intro a ha b hb
        have hbpos : pos1 < b.position := by
          rcases List.mem_append.mp hb with hb | hb
          · rcases List.mem_append.mp hb with hb | hb
            · obtain ⟨c, hc, hce⟩ := mem_map_pv_pos _ _ b hb
              rw [hce]
              exact (hposB c hc).1
            · obtain ⟨c, hc, hce⟩ := mem_map_pv_pos _ _ b hb
              rw [hce]
              have := hposR2 c hc
              omega
          · obtain ⟨c, hc, hce⟩ := mem_map_pv_pos _ _ b hb
            rw [hce]
            have := hposC c hc
            omega
        rcases List.mem_append.mp ha with ha | ha
        · obtain ⟨c, hc, hce⟩ := mem_map_pv_pos _ _ a ha
          rw [hce]
          have := hposA c hc
          omega
        · obtain ⟨c, hc, hce⟩ := mem_map_pv_pos _ _ a ha
          rw [hce]
          have := hposR1 c hc
          omega)]
    rw [gview_append
      ((partsLT stmt.parts pos1).map (pv stmt.buffer))
      ((partsAT stmt.parts pos1).map (pv stmt.buffer))
      (by
        intro a ha b hb
        obtain ⟨c, hc, hce⟩ := mem_map_pv_pos _ _ a ha
        obtain ⟨c', hc', hce'⟩ := mem_map_pv_pos _ _ b hb
        rw [hce, hce']
        have := hposA c hc
        have := hposR1 c' hc'
        omega)]
    rw [gview_append
      ((partsLT (partsGT stmt.parts pos1) pos2).map (pv stmt.buffer)
        ++ (partsAT (partsGT stmt.parts pos1) pos2).map (pv stmt.buffer))
      ((partsGT (partsGT stmt.parts pos1) pos2).map (pv stmt.buffer))
      (by
        intro a ha b hb
        obtain ⟨c', hc', hce'⟩ := mem_map_pv_pos _ _ b hb
        have hb2 := hposC c' hc'
        rcases List.mem_append.mp ha with ha | ha
        · obtain ⟨c, hc, hce⟩ := mem_map_pv_pos _ _ a ha
          rw [hce, hce']
          have := (hposB c hc).2
          omega
        · obtain ⟨c, hc, hce⟩ := mem_map_pv_pos _ _ a ha
          rw [hce, hce']
          have := hposR2 c hc
          omega)]
    rw [gview_append
      ((partsLT (partsGT stmt.parts pos1) pos2).map (pv stmt.buffer))
      ((partsAT (partsGT stmt.parts pos1) pos2).map (pv stmt.buffer))
      (by
        intro a ha b hb
        obtain ⟨c, hc, hce⟩ := mem_map_pv_pos _ _ a ha
        obtain ⟨c', hc', hce'⟩ := mem_map_pv_pos _ _ b hb
        rw [hce, hce']
        have := (hposB c hc).2
        have := hposR2 c' hc'
        omega)]
    simp [List.append_assoc]
  rw [hgv]
  exact gUpdate_comm5 _ _ _ _ _ pos1 pos2 hlt
    (gview_map_pos _ _ (fun p => p < pos1) hposA)
    (gview_map_pos _ _ (fun p => p = pos1) hposR1)
    (gview_len_le_one _ pos1 (fun e he => by
      obtain ⟨c, hc, hce⟩ := mem_map_pv_pos _ _ e he
      rw [hce]
      exact hposR1 c hc))
    (gview_map_pos _ _ (fun p => pos1 < p ∧ p < pos2) hposB)
    (gview_map_pos _ _ (fun p => p = pos2) hposR2)
    (gview_len_le_one _ pos2 (fun e he => by
      obtain ⟨c, hc, hce⟩ := mem_map_pv_pos _ _ e he
      rw [hce]
      exact hposR2 c hc))
    (gview_map_pos _ _ (fun p => pos2 < p) hposC)
    c1 e1 s1 c2 e2 s2 a1 a2

/-! ### How one call moves the parameter-splice window of the other -/

/-- Core of the offset-evolution argument: replacing the prefix at or below
the lower position by any other such prefix with `δ` more parameters shifts
everything a higher position sees by exactly `δ` and preserves the matched
fragment there. -/
theorem high_after_core (LE1 W GTl : List StatementPart) (pos1 pos2 : Int)
    (δ : Nat) (hlt : pos1 < pos2)
    (hLE1 : ∀ c ∈ LE1, c.position ≤ pos1)
    (hW : ∀ c ∈ W, c.position ≤ pos1)
    (hGT : ∀ c ∈ GTl, pos1 < c.position)
    (hat : argsTail W = argsTail LE1 + δ) :
    argsTail (partsLE (W ++ GTl) pos2) = argsTail (partsLE (LE1 ++ GTl) pos2) + δ
    ∧ (NoPartAt (W ++ GTl) pos2 ↔ NoPartAt (LE1 ++ GTl) pos2)
    ∧ (¬ NoPartAt (LE1 ++ GTl) pos2 →
        (partsLE (W ++ GTl) pos2).getLast? = (partsLE (LE1 ++ GTl) pos2).getLast?
        ∧ argsTail ((partsLE (W ++ GTl) pos2).dropLast)
          = argsTail ((partsLE (LE1 ++ GTl) pos2).dropLast) + δ) := by
  have ha1 : partsLE (W ++ GTl) pos2 = W ++ partsLE GTl pos2 :=
    partsLE_above W GTl pos1 pos2 hlt hW
  have ha2 : partsLE (LE1 ++ GTl) pos2 = LE1 ++ partsLE GTl pos2 :=
    partsLE_above LE1 GTl pos1 pos2 hlt hLE1
  rcases hY : partsLE GTl pos2 with _ | ⟨y, Y'⟩
  · have hnoW : NoPartAt (W ++ GTl) pos2 := by
      intro a ha
      rw [ha1, hY, List.append_nil] at ha
      have := hW a (List.mem_of_mem_getLast? ha)
      omega
    have hnoL : NoPartAt (LE1 ++ GTl) pos2 := by
      intro a ha
      rw [ha2, hY, List.append_nil] at ha
      have := hLE1 a (List.mem_of_mem_getLast? ha)
      omega
    refine ⟨?_, ⟨fun _ => hnoL, fun _ => hnoW⟩, fun hc => absurd hnoL hc⟩
    rw [ha1, ha2, hY, List.append_nil, List.append_nil]
    exact hat
  · have hYne : partsLE GTl pos2 ≠ [] := by
      rw [hY]
      simp
    have hgl1 : (W ++ partsLE GTl pos2).getLast? = (partsLE GTl pos2).getLast? :=
      List.getLast?_append_of_ne_nil _ hYne
    have hgl2 : (LE1 ++ partsLE GTl pos2).getLast? = (partsLE GTl pos2).getLast? :=
      List.getLast?_append_of_ne_nil _ hYne
    refine ⟨?_, ?_, ?_⟩
    · rw [ha1, ha2, argsTail_append, argsTail_append, hat]
      omega
    · unfold NoPartAt
      rw [ha1, ha2, hgl1, hgl2]
    · intro _
      constructor
      · rw [ha1, ha2, hgl1, hgl2]
      · rw [ha1, ha2, List.dropLast_append_of_ne_nil W hYne,
          List.dropLast_append_of_ne_nil LE1 hYne, argsTail_append,
          argsTail_append, hat]
        omega

/-- After one call at the lower position, the higher position's splice window
shifts by the call's net parameter growth; the matched fragment there is
untouched. -/
theorem high_after (stmt : Stmt) (pos1 pos2 : Int) (cl ex : String)
    (ar : List Val) (sp : String) (hI : Inv stmt) (hlt : pos1 < pos2) :
    argsTail (partsLE ((addPart stmt pos1 cl ex ar sp).1).parts pos2)
      = argsTail (partsLE stmt.parts pos2) + ar.length - argsK stmt pos1 ex ar
    ∧ (NoPartAt ((addPart stmt pos1 cl ex ar sp).1).parts pos2
        ↔ NoPartAt stmt.parts pos2)
    ∧ (¬ NoPartAt stmt.parts pos2 →
        (partsLE ((addPart stmt pos1 cl ex ar sp).1).parts pos2).getLast?
          = (partsLE stmt.parts pos2).getLast?
        ∧ argsTail ((partsLE ((addPart stmt pos1 cl ex ar sp).1).parts pos2).dropLast)
          = argsTail ((partsLE stmt.parts pos2).dropLast) + ar.length
            - argsK stmt pos1 ex ar) := by
  have hLE1 : ∀ c ∈ partsLE stmt.parts pos1, c.position ≤ pos1 :=
    fun c hc => mem_partsLE_le stmt.parts pos1 c hc
  have hGT1 : ∀ c ∈ partsGT stmt.parts pos1, pos1 < c.position :=
    fun c hc => mem_partsGT_gt stmt.parts pos1 hI.sorted c hc
  by_cases hno : NoPartAt stmt.parts pos1
  · have hK : argsK stmt pos1 ex ar = 0 := by
      unfold argsK
      rw [if_neg (fun hc => hc.1 hno)]
    rw [addPart_fresh_shape stmt pos1 cl ex ar sp hI.sorted hno]
    dsimp only
    rw [hK]
    simp only [Nat.sub_zero]
    have hcore := high_after_core (partsLE stmt.parts pos1)
      (partsLE stmt.parts pos1 ++ [freshPart pos1 stmt.buffer.length cl ex ar])
      (partsGT stmt.parts pos1) pos1 pos2 ar.length hlt hLE1 (by
        intro c hc
        rcases List.mem_append.mp hc with hc | hc
        · exact hLE1 c hc
        · simp at hc
          rw [hc]
          simp [freshPart]) hGT1 (by
        rw [argsTail_append]
        simp [argsTail, freshPart])
    rw [partsLE_append_partsGT stmt.parts pos1] at hcore
    exact hcore
  · obtain ⟨M, hM, hMp⟩ := not_noPartAt _ _ hno
    have hdec := getLast?_decomp _ _ hM
    by_cases hex : ex = ""
    · have hK : argsK stmt pos1 ex ar = ar.length := by
        unfold argsK
        rw [if_pos ⟨hno, hex⟩]
      rw [addPart_refresh_shape stmt pos1 cl ex ar sp M hI.sorted hM hMp hex]
      dsimp only
      rw [hK]
      exact ⟨by omega, Iff.rfl, fun _ => ⟨rfl, by omega⟩⟩
    · have hK : argsK stmt pos1 ex ar = 0 := by
        unfold argsK
        rw [if_neg (fun hc => hex hc.2)]
      by_cases hcont : M.bufHigh = stmt.buffer.length
      · rw [addPart_merge_shape stmt pos1 cl ex ar sp M hI.sorted hM hMp hex
          hcont]
        dsimp only
        rw [hK]
        simp only [Nat.sub_zero]
        have hcore := high_after_core (partsLE stmt.parts pos1)
          ((partsLE stmt.parts pos1).dropLast
            ++ [extendPart M stmt.buffer.length sp ex ar])
          (partsGT stmt.parts pos1) pos1 pos2 ar.length hlt hLE1 (by
            intro c hc
            rcases List.mem_append.mp hc with hc | hc
            · exact hLE1 c (List.mem_of_mem_dropLast hc)
            · simp at hc
              rw [hc]
              simp only [extendPart]
              omega) hGT1 (by
            have hx1 : argsTail [extendPart M stmt.buffer.length sp ex ar]
                = M.argLen + ar.length := by
              simp [argsTail, extendPart]
            have hx2 : argsTail [M] = M.argLen := by
              simp [argsTail]
            rw [argsTail_append, hx1]
            conv_rhs => rw [hdec, argsTail_append, hx2]
            omega)
        rw [partsLE_append_partsGT stmt.parts pos1] at hcore
        exact hcore
      · rw [addPart_split_shape stmt pos1 cl ex ar sp M hI.sorted hM hMp hex
          hcont]
        dsimp only
        rw [hK]
        simp only [Nat.sub_zero]
        have hcore := high_after_core (partsLE stmt.parts pos1)
          (partsLE stmt.parts pos1
            ++ [splitPart pos1 stmt.buffer.length M sp ex ar])
          (partsGT stmt.parts pos1) pos1 pos2 ar.length hlt hLE1 (by
            intro c hc
            rcases List.mem_append.mp hc with hc | hc
            · exact hLE1 c hc
            · simp at hc
              rw [hc]
              simp [splitPart]) hGT1 (by
            rw [argsTail_append]
            simp [argsTail, splitPart])
        rw [partsLE_append_partsGT stmt.parts pos1] at hcore
        exact hcore

/-- A call at the higher position leaves the lower position's prefix — and so
its splice window — exactly as it was. -/
theorem low_after (stmt : Stmt) (pos1 pos2 : Int) (cl ex : String)
    (ar : List Val) (sp : String) (hI : Inv stmt) (hlt : pos1 < pos2) :
    partsLE ((addPart stmt pos2 cl ex ar sp).1).parts pos1
      = partsLE stmt.parts pos1 := by
  have hGT2 : ∀ c, (partsGT stmt.parts pos2).head? = some c →
      ¬ (c.position ≤ pos1) := by
    intro c hc
    have := mem_partsGT_gt stmt.parts pos2 hI.sorted c (List.mem_of_mem_head? hc)
    omega
  have horig : partsLE stmt.parts pos1
      = partsLE (partsLE stmt.parts pos2) pos1 := by
    conv_lhs => rw [← partsLE_append_partsGT stmt.parts pos2]
    rw [partsLE_stop _ _ pos1 hGT2]
  by_cases hno : NoPartAt stmt.parts pos2
  · rw [addPart_fresh_shape stmt pos2 cl ex ar sp hI.sorted hno]
    dsimp only
    rw [List.append_assoc]
    rw [partsLE_stop _ _ pos1 (by
      intro c hc
      injection hc with h
      rw [← h]
      simp only [freshPart]
      omega)]
    exact horig.symm
  · obtain ⟨M2, hM2, hM2p⟩ := not_noPartAt _ _ hno
    have hdec2 := getLast?_decomp _ _ hM2
    by_cases hex : ex = ""
    · rw [addPart_refresh_shape stmt pos2 cl ex ar sp M2 hI.sorted hM2 hM2p hex]
    · by_cases hcont : M2.bufHigh = stmt.buffer.length
      · rw [addPart_merge_shape stmt pos2 cl ex ar sp M2 hI.sorted hM2 hM2p hex
          hcont]
        dsimp only
        rw [List.append_assoc]
        rw [partsLE_stop _ _ pos1 (by
          intro c hc
          injection hc with h
          rw [← h]
          simp only [extendPart]
          omega)]
        have hstep : partsLE (partsLE stmt.parts pos2) pos1
            = partsLE ((partsLE stmt.parts pos2).dropLast) pos1 := by
          conv_lhs => rw [hdec2]
          rw [partsLE_stop _ _ pos1 (by
            intro c hc
            injection hc with h
            rw [← h]
            omega)]
        rw [← hstep]
        exact horig.symm
      · rw [addPart_split_shape stmt pos2 cl ex ar sp M2 hI.sorted hM2 hM2p hex
          hcont]
        dsimp only
        rw [List.append_assoc]
        rw [partsLE_stop _ _ pos1 (by
          intro c hc
          injection hc with h
          rw [← h]
          simp only [splitPart]
          omega)]
        exact horig.symm

/-- Parameter-list commutation of two calls at distinct positions (lower
position named first). -/
theorem args_comm_lt (stmt : Stmt) (pos1 pos2 : Int) (hlt : pos1 < pos2)
    (c1 e1 sp1 c2 e2 sp2 : String) (a1 a2 : List Val) (hI : Inv stmt)
    (hwf1 : wfAdd stmt pos1 c1 e1 a1 sp1 [] = true)
    (hwf2 : wfAdd stmt pos2 c2 e2 a2 sp2 [] = true)
    (hwf12 : wfAdd (addPart stmt pos1 c1 e1 a1 sp1).1 pos2 c2 e2 a2 sp2 []
      = true)
    (hwf21 : wfAdd (addPart stmt pos2 c2 e2 a2 sp2).1 pos1 c1 e1 a1 sp1 []
      = true) :
    (addPart (addPart stmt pos1 c1 e1 a1 sp1).1 pos2 c2 e2 a2 sp2).1.args
      = (addPart (addPart stmt pos2 c2 e2 a2 sp2).1 pos1 c1 e1 a1 sp1).1.args := by
  have hI1 : Inv (addPart stmt pos1 c1 e1 a1 sp1).1 :=
    inv_addPart stmt pos1 c1 e1 a1 sp1 hI hwf1
  have hI2 : Inv (addPart stmt pos2 c2 e2 a2 sp2).1 :=
    inv_addPart stmt pos2 c2 e2 a2 sp2 hI hwf2
  have hA1 : (addPart stmt pos1 c1 e1 a1 sp1).1.args
      = spliceAt stmt.args a1 (argsOff stmt pos1 e1) (argsK stmt pos1 e1 a1) :=
    applyFrag_args stmt pos1 c1 e1 a1 sp1 hI
      (wfAdd_refresh_bound stmt pos1 c1 e1 a1 sp1 hwf1)
  have hA2 : (addPart stmt pos2 c2 e2 a2 sp2).1.args
      = spliceAt stmt.args a2 (argsOff stmt pos2 e2) (argsK stmt pos2 e2 a2) :=
    applyFrag_args stmt pos2 c2 e2 a2 sp2 hI
      (wfAdd_refresh_bound stmt pos2 c2 e2 a2 sp2 hwf2)
  have hA12 : (addPart (addPart stmt pos1 c1 e1 a1 sp1).1 pos2 c2 e2 a2 sp2).1.args
      = spliceAt (addPart stmt pos1 c1 e1 a1 sp1).1.args a2
          (argsOff (addPart stmt pos1 c1 e1 a1 sp1).1 pos2 e2)
          (argsK (addPart stmt pos1 c1 e1 a1 sp1).1 pos2 e2 a2) :=
    applyFrag_args _ pos2 c2 e2 a2 sp2 hI1
      (wfAdd_refresh_bound _ pos2 c2 e2 a2 sp2 hwf12)
  have hA21 : (addPart (addPart stmt pos2 c2 e2 a2 sp2).1 pos1 c1 e1 a1 sp1).1.args
      = spliceAt (addPart stmt pos2 c2 e2 a2 sp2).1.args a1
          (argsOff (addPart stmt pos2 c2 e2 a2 sp2).1 pos1 e1)
          (argsK (addPart stmt pos2 c2 e2 a2 sp2).1 pos1 e1 a1) :=
    applyFrag_args _ pos1 c1 e1 a1 sp1 hI2
      (wfAdd_refresh_bound _ pos1 c1 e1 a1 sp1 hwf21)
  obtain ⟨hat12, hN12, hC12⟩ := high_after stmt pos1 pos2 c1 e1 a1 sp1 hI hlt
  have hlow := low_after stmt pos1 pos2 c2 e2 a2 sp2 hI hlt
  have hNo1iff : NoPartAt (addPart stmt pos2 c2 e2 a2 sp2).1.parts pos1
      ↔ NoPartAt stmt.parts pos1 := by
    unfold NoPartAt
    rw [hlow]
  have hOff21 : argsOff (addPart stmt pos2 c2 e2 a2 sp2).1 pos1 e1
      = argsOff stmt pos1 e1 := by
    unfold argsOff
    by_cases h : ¬ NoPartAt stmt.parts pos1 ∧ e1 = ""
    · rw [if_pos ⟨fun hc => h.1 (hNo1iff.mp hc), h.2⟩, if_pos h, hlow]
    · rw [if_neg (fun hc => h ⟨fun hz => hc.1 (hNo1iff.mpr hz), hc.2⟩),
        if_neg h, hlow]
  have hK21 : argsK (addPart stmt pos2 c2 e2 a2 sp2).1 pos1 e1 a1
      = argsK stmt pos1 e1 a1 := by
    unfold argsK
    by_cases h : ¬ NoPartAt stmt.parts pos1 ∧ e1 = ""
    · rw [if_pos ⟨fun hc => h.1 (hNo1iff.mp hc), h.2⟩, if_pos h]
    · rw [if_neg (fun hc => h ⟨fun hz => hc.1 (hNo1iff.mpr hz), hc.2⟩), if_neg h]
  have hK12 : argsK (addPart stmt pos1 c1 e1 a1 sp1).1 pos2 e2 a2
      = argsK stmt pos2 e2 a2 := by
    unfold argsK
    by_cases h : ¬ NoPartAt stmt.parts pos2 ∧ e2 = ""
    · rw [if_pos ⟨fun hc => h.1 (hN12.mp hc), h.2⟩, if_pos h]
    · rw [if_neg (fun hc => h ⟨fun hz => hc.1 (hN12.mpr hz), hc.2⟩), if_neg h]
  have hOff12 : argsOff (addPart stmt pos1 c1 e1 a1 sp1).1 pos2 e2
      = argsOff stmt pos2 e2 + a1.length - argsK stmt pos1 e1 a1 := by
    unfold argsOff
    by_cases h : ¬ NoPartAt stmt.parts pos2 ∧ e2 = ""
    · rw [if_pos ⟨fun hc => h.1 (hN12.mp hc), h.2⟩, if_pos h]
      exact (hC12 h.1).2
    · rw [if_neg (fun hc => h ⟨fun hz => hc.1 (hN12.mpr hz), hc.2⟩), if_neg h]
      exact hat12
  have hcollapse : partsLE (partsLE stmt.parts pos2) pos1
      = partsLE stmt.parts pos1 := by
    unfold partsLE
    exact takeWhile_takeWhile_of_imp _ _ _ (fun a ha => by
      simp only [decide_eq_true_eq] at ha ⊢
      omega)
  have hKle : argsK stmt pos1 e1 a1 ≤ a1.length := by
    unfold argsK
    split
    · exact le_refl _
    · exact Nat.zero_le _
  have hsplit1 := argsTail_split stmt.parts pos1
  have hsplit2 := argsTail_split stmt.parts pos2
  have hargsLen := hI.argsLen
  have hO1K1 : argsOff stmt pos1 e1 + argsK stmt pos1 e1 a1
      ≤ argsTail (partsLE stmt.parts pos1) := by
    unfold argsOff argsK
    by_cases h : ¬ NoPartAt stmt.parts pos1 ∧ e1 = ""
    · rw [if_pos h, if_pos h]
      obtain ⟨M1, hM1, hM1p⟩ := not_noPartAt _ _ h.1
      have hb := wfAdd_refresh_bound stmt pos1 c1 e1 a1 sp1 hwf1 h.1 h.2
      rw [hM1] at hb
      have hb' : a1.length ≤ M1.argLen := hb
      have hdec1 := getLast?_decomp _ _ hM1
      have hx : argsTail (partsLE stmt.parts pos1)
          = argsTail ((partsLE stmt.parts pos1).dropLast) + M1.argLen := by
        conv_lhs => rw [hdec1, argsTail_append]
        simp [argsTail]
      omega
    · rw [if_neg h, if_neg h]
      omega
  have hmono : argsTail (partsLE stmt.parts pos1) ≤ argsOff stmt pos2 e2 := by
    unfold argsOff
    by_cases h : ¬ NoPartAt stmt.parts pos2 ∧ e2 = ""
    · rw [if_pos h]
      obtain ⟨M2, hM2, hM2p⟩ := not_noPartAt _ _ h.1
      have hdec2 := getLast?_decomp _ _ hM2
      have h1 : partsLE ((partsLE stmt.parts pos2).dropLast ++ [M2]) pos1
          = partsLE ((partsLE stmt.parts pos2).dropLast) pos1 :=
        partsLE_stop _ _ pos1 (by
          intro c hc
          injection hc with hh
          rw [← hh]
          omega)
      rw [← hdec2] at h1
      have hsp := argsTail_split ((partsLE stmt.parts pos2).dropLast) pos1
      have heq : partsLE ((partsLE stmt.parts pos2).dropLast) pos1
          = partsLE stmt.parts pos1 := by
        rw [← h1, hcollapse]
      rw [heq] at hsp
      omega
    · rw [if_neg h]
      have hsp := argsTail_split (partsLE stmt.parts pos2) pos1
      rw [hcollapse] at hsp
      omega
  have hO2bound : argsOff stmt pos2 e2 + argsK stmt pos2 e2 a2
      ≤ stmt.args.length := by
    unfold argsOff argsK
    by_cases h : ¬ NoPartAt stmt.parts pos2 ∧ e2 = ""
    · rw [if_pos h, if_pos h]
      obtain ⟨M2, hM2, hM2p⟩ := not_noPartAt _ _ h.1
      have hb := wfAdd_refresh_bound stmt pos2 c2 e2 a2 sp2 hwf2 h.1 h.2
      rw [hM2] at hb
      have hb' : a2.length ≤ M2.argLen := hb
      have hdec2 := getLast?_decomp _ _ hM2
      have hx : argsTail (partsLE stmt.parts pos2)
          = argsTail ((partsLE stmt.parts pos2).dropLast) + M2.argLen := by
        conv_lhs => rw [hdec2, argsTail_append]
        simp [argsTail]
      omega
    · rw [if_neg h, if_neg h]
      omega
  rw [hA12, hA1, hOff12, hK12, hA21, hA2, hOff21, hK21]
  exact (spliceAt_comm stmt.args a1 a2 (argsOff stmt pos1 e1)
    (argsK stmt pos1 e1 a1) (argsOff stmt pos2 e2) (argsK stmt pos2 e2 a2)
    (by omega) hO2bound hKle).symm

/-- Full commutation of two escape-free well-formed calls, lower position
first: same render output and same parameter list in either order. -/
theorem comm_lt (stmt : Stmt) (pos1 pos2 : Int) (hlt : pos1 < pos2)
    (c1 e1 sp1 c2 e2 sp2 : String) (a1 a2 : List Val) (hI : Inv stmt)
    (hBS : ∀ c ∈ stmt.parts, '\\' ∉ extract stmt.buffer c.bufLow c.bufHigh)
    (hb1c : '\\' ∉ c1.data) (hb1e : '\\' ∉ e1.data) (hb1s : '\\' ∉ sp1.data)
    (hb2c : '\\' ∉ c2.data) (hb2e : '\\' ∉ e2.data) (hb2s : '\\' ∉ sp2.data)
    (hwf1 : wfAdd stmt pos1 c1 e1 a1 sp1 [] = true)
    (hwf2 : wfAdd stmt pos2 c2 e2 a2 sp2 [] = true)
    (hwf12 : wfAdd (addPart stmt pos1 c1 e1 a1 sp1).1 pos2 c2 e2 a2 sp2 []
      = true)
    (hwf21 : wfAdd (addPart stmt pos2 c2 e2 a2 sp2).1 pos1 c1 e1 a1 sp1 []
      = true) :
    stringOf (addPart (addPart stmt pos1 c1 e1 a1 sp1).1 pos2 c2 e2 a2 sp2).1
      = stringOf (addPart (addPart stmt pos2 c2 e2 a2 sp2).1 pos1 c1 e1 a1 sp1).1
    ∧ (addPart (addPart stmt pos1 c1 e1 a1 sp1).1 pos2 c2 e2 a2 sp2).1.args
      = (addPart (addPart stmt pos2 c2 e2 a2 sp2).1 pos1 c1 e1 a1 sp1).1.args := by
  have hI1 := inv_addPart stmt pos1 c1 e1 a1 sp1 hI hwf1
  have hI2 := inv_addPart stmt pos2 c2 e2 a2 sp2 hI hwf2
  have hI12 := inv_addPart _ pos2 c2 e2 a2 sp2 hI1 hwf12
  have hI21 := inv_addPart _ pos1 c1 e1 a1 sp1 hI2 hwf21
  have hBS1 := noBS_addPart stmt pos1 c1 e1 a1 sp1 hI hBS hb1c hb1e hb1s
  have hBS2 := noBS_addPart stmt pos2 c2 e2 a2 sp2 hI hBS hb2c hb2e hb2s
  have hBS12 := noBS_addPart _ pos2 c2 e2 a2 sp2 hI1 hBS1 hb2c hb2e hb2s
  have hBS21 := noBS_addPart _ pos1 c1 e1 a1 sp1 hI2 hBS2 hb1c hb1e hb1s
  constructor
  · rw [stringOf_gview _ hI12 hBS12, stringOf_gview _ hI21 hBS21]
    rw [gview_applyFrag _ pos2 c2 e2 a2 sp2 hI1,
      gview_applyFrag stmt pos1 c1 e1 a1 sp1 hI,
      gview_applyFrag _ pos1 c1 e1 a1 sp1 hI2,
      gview_applyFrag stmt pos2 c2 e2 a2 sp2 hI]
    rw [addPart_dialect, addPart_dialect, addPart_dialect, addPart_dialect]
    rw [gUpdate_comm_stmt stmt hI pos1 pos2 hlt c1 e1 sp1 c2 e2 sp2 a1 a2]
  · exact args_comm_lt stmt pos1 pos2 hlt c1 e1 sp1 c2 e2 sp2 a1 a2 hI
      hwf1 hwf2 hwf12 hwf21

/-- **C3** (amended): two clause-contributing calls at different grammatical
positions commute — identical `String()` output and identical `Args()` either
way — for every invariant-carrying statement, provided all fragment texts
involved (the statement's and both calls') are free of the `\` escape
character and each call is well-formed in the state it runs in. The
escape-freedom proviso is necessary: `order_dependence_on_escape` exhibits
two such calls whose order changes the render output through the
parameterized-fragment gate of the PostgreSQL rewrite. -/
theorem order_invariance_no_escape (stmt : Stmt) (pos1 pos2 : Int)
    (c1 e1 sp1 c2 e2 sp2 : String) (a1 a2 : List Val)
    (hne : pos1 ≠ pos2) (hI : Inv stmt)
    (hBS : ∀ c ∈ stmt.parts, '\\' ∉ extract stmt.buffer c.bufLow c.bufHigh)
    (hb1c : '\\' ∉ c1.data) (hb1e : '\\' ∉ e1.data) (hb1s : '\\' ∉ sp1.data)
    (hb2c : '\\' ∉ c2.data) (hb2e : '\\' ∉ e2.data) (hb2s : '\\' ∉ sp2.data)
    (hwf1 : wfAdd stmt pos1 c1 e1 a1 sp1 [] = true)
    (hwf2 : wfAdd stmt pos2 c2 e2 a2 sp2 [] = true)
    (hwf12 : wfAdd (addPart stmt pos1 c1 e1 a1 sp1).1 pos2 c2 e2 a2 sp2 []
      = true)
    (hwf21 : wfAdd (addPart stmt pos2 c2 e2 a2 sp2).1 pos1 c1 e1 a1 sp1 []
      = true) :
    stringOf (addPart (addPart stmt pos1 c1 e1 a1 sp1).1 pos2 c2 e2 a2 sp2).1
      = stringOf (addPart (addPart stmt pos2 c2 e2 a2 sp2).1 pos1 c1 e1 a1 sp1).1
    ∧ (addPart (addPart stmt pos1 c1 e1 a1 sp1).1 pos2 c2 e2 a2 sp2).1.args
      = (addPart (addPart stmt pos2 c2 e2 a2 sp2).1 pos1 c1 e1 a1 sp1).1.args := by
  rcases lt_or_gt_of_ne hne with hlt | hgt
  · exact comm_lt stmt pos1 pos2 hlt c1 e1 sp1 c2 e2 sp2 a1 a2 hI hBS
      hb1c hb1e hb1s hb2c hb2e hb2s hwf1 hwf2 hwf12 hwf21
  · have h := comm_lt stmt pos2 pos1 hgt c2 e2 sp2 c1 e1 sp1 a2 a1 hI hBS
      hb2c hb2e hb2s hb1c hb1e hb1s hwf2 hwf1 hwf21 hwf12
    exact ⟨h.1.symm, h.2.symm⟩

/-- C3 amended, checked on a concrete pair of calls: `WHERE a = ?` and
`GROUP BY g` on an empty PostgreSQL statement commute. -/
theorem order_invariance_no_escape_check :
    stringOf (addPart (addPart (emptyStmt Dialect.postgreSQL) posWhere "WHERE"
        "a = ?" [Val.int 7] " AND ").1 posGroupBy "GROUP BY" "g" [] ", ").1
      = stringOf (addPart (addPart (emptyStmt Dialect.postgreSQL) posGroupBy
          "GROUP BY" "g" [] ", ").1 posWhere "WHERE" "a = ?" [Val.int 7]
          " AND ").1
    ∧ (addPart (addPart (emptyStmt Dialect.postgreSQL) posWhere "WHERE"
        "a = ?" [Val.int 7] " AND ").1 posGroupBy "GROUP BY" "g" [] ", ").1.args
      = (addPart (addPart (emptyStmt Dialect.postgreSQL) posGroupBy "GROUP BY"
          "g" [] ", ").1 posWhere "WHERE" "a = ?" [Val.int 7] " AND ").1.args :=
  order_invariance_no_escape (emptyStmt Dialect.postgreSQL) posWhere posGroupBy
    "WHERE" "a = ?" " AND " "GROUP BY" "g" ", " [Val.int 7] []
    (by decide) (inv_empty Dialect.postgreSQL) (by decide)
    (by decide) (by decide) (by decide) (by decide) (by decide) (by decide)
    (by decide) (by decide) (by decide) (by decide)

end SB
